import Mathlib

/-!
# Duplicate-detection engine of the duplicate-code VS Code extension

A shallow embedding of `src/vs-code-extension/src/extension.ts` (and of the
legacy subsumption filter of `src/vs-code-extension/out/extension.js`).

Conventions of the embedding.

* A JavaScript string is the list of its UTF-16 code units (`Str`); `length`,
  indexing and `===` are the list operations.
* JavaScript numbers are exact rationals.  Every integer that occurs (lengths,
  table entries, counters) is exact in a double, the comparison against
  `max(len1, len2) * 0.5` is exact, and the quotients are idealised.
* `String.prototype.toLowerCase` is a function of the host; the similarity
  engine takes it as its first argument (`lower`).  `asciiLower` is the host
  function restricted to basic Latin text and is used for concrete inputs.
* Regular expressions are values of `Re`, run by a backtracking matcher with
  the priorities of the ECMAScript matcher (leftmost alternative first, greedy
  or lazy repetition, an iteration that consumes nothing is rejected).  The
  counters that make the matcher and the replacement scan structurally
  recursive never run out (`starLoop_fuel`, `replaceLoop_fuel`).
* A loop that may fail to terminate returns `none` when it does; the one such
  loop, in the Jaro metric, is proved to terminate
  (`calculateJaroSimilarity_total`).
-/

namespace DupCheck

/-! ## Strings -/

/-- A JavaScript string, as its UTF-16 code units. -/
abbrev Str := List Nat

/-- The code units of a string literal of basic-plane characters. -/
def js (s : String) : Str := s.toList.map Char.toNat

/-- The class `\s` (and the characters removed by `trim`): white space and
line terminators. -/
def isSpace (c : Nat) : Bool :=
  c == 9 || c == 10 || c == 11 || c == 12 || c == 13 || c == 32 || c == 160 ||
  c == 0x1680 || (0x2000 ≤ c && c ≤ 0x200a) || c == 0x2028 || c == 0x2029 ||
  c == 0x202f || c == 0x205f || c == 0x3000 || c == 0xfeff

/-- The class `\d`. -/
def isDigit (c : Nat) : Bool := 48 ≤ c && c ≤ 57

/-- The class `\w`, which is also `[\w_]` and `[a-zA-Z0-9_]`. -/
def isWordChar (c : Nat) : Bool :=
  (97 ≤ c && c ≤ 122) || (65 ≤ c && c ≤ 90) || isDigit c || c == 95

/-- The class `[a-zA-Z_]`. -/
def isIdentStart (c : Nat) : Bool :=
  (97 ≤ c && c ≤ 122) || (65 ≤ c && c ≤ 90) || c == 95

/-- The class `.`: anything but a line terminator. -/
def isDot (c : Nat) : Bool :=
  !(c == 10 || c == 13 || c == 0x2028 || c == 0x2029)

/-- `String.prototype.trim`. -/
def trim (s : Str) : Str :=
  ((s.dropWhile isSpace).reverse.dropWhile isSpace).reverse

/-- `String.prototype.toLowerCase` on basic Latin text: `A`..`Z` are shifted to
`a`..`z`, every other code unit below 128 is kept.  Code units from 128 on are
kept as well, which is the host function only for text without cased
characters there. -/
def asciiLower (s : Str) : Str :=
  s.map fun c => if 65 ≤ c && c ≤ 90 then c + 32 else c

/-! ## Regular expressions -/

/-- The regular expressions used by the extension. -/
inductive Re where
  /-- matches the empty string -/
  | eps
  /-- one code unit of a class -/
  | cls (p : Nat → Bool)
  /-- the assertion `\b` -/
  | wordB
  /-- concatenation -/
  | seq (a b : Re)
  /-- alternation `a|b`, `a` tried first -/
  | alt (a b : Re)
  /-- greedy repetition `a*` -/
  | star (a : Re)
  /-- lazy repetition `a*?` -/
  | lazyStar (a : Re)
  /-- the capture group `(a)` -/
  | group (a : Re)

/-- Matcher state: the code unit before the current position, the input from
the current position on, and the text of the capture group. -/
structure MState where
  prev : Option Nat
  rest : Str
  cap : Option Str

/-- A matcher takes a state and a continuation. -/
abbrev Matcher := MState → (MState → Option MState) → Option MState

/-- Whether the (possibly absent) code unit is a word character. -/
def isWordAt (c : Option Nat) : Bool :=
  match c with
  | some c => isWordChar c
  | none => false

/-- Repetition of a matcher.  The counter starts at the length of the remaining
input; an iteration must consume input, so it never runs out early. -/
def starLoop (m : Matcher) (greedy : Bool) : Nat → Matcher
  | 0, st, k => k st
  | n + 1, st, k =>
    if greedy then
      (m st fun st' =>
        if st'.rest.length < st.rest.length then starLoop m greedy n st' k else none).orElse
        fun _ => k st
    else
      (k st).orElse fun _ =>
        m st fun st' =>
          if st'.rest.length < st.rest.length then starLoop m greedy n st' k else none

/-- The backtracking matcher of a regular expression. -/
def Re.run : Re → Matcher
  | .eps, st, k => k st
  | .cls p, st, k =>
    match st.rest with
    | [] => none
    | c :: cs => if p c then k { st with prev := some c, rest := cs } else none
  | .wordB, st, k =>
    if isWordAt st.prev != isWordAt st.rest.head? then k st else none
  | .seq a b, st, k => a.run st fun st' => b.run st' k
  | .alt a b, st, k => (a.run st k).orElse fun _ => b.run st k
  | .star a, st, k => starLoop (fun s c => a.run s c) true st.rest.length st k
  | .lazyStar a, st, k => starLoop (fun s c => a.run s c) false st.rest.length st k
  | .group a, st, k =>
    a.run st fun st' =>
      k { st' with cap := some (st.rest.take (st.rest.length - st'.rest.length)) }

/-- The repetition `a+`. -/
def Re.plus (a : Re) : Re := .seq a (.star a)

/-- One given code unit. -/
def Re.chr (c : Nat) : Re := .cls fun x => x == c

/-- A literal text. -/
def Re.lit (s : Str) : Re := s.foldr (fun c r => .seq (.chr c) r) .eps

/-- A literal text of basic Latin letters under the flag `i`. -/
def Re.litI (s : Str) : Re :=
  s.foldr (fun c r => .seq (.cls fun x => asciiLower [x] == asciiLower [c]) r) .eps

/-- The alternation of literal texts, in the order written. -/
def Re.words : List Str → Re
  | [] => .cls fun _ => false
  | [w] => .lit w
  | w :: ws => .alt (.lit w) (Re.words ws)

/-- A match attempt at the current position: the matched text and the state
after it. -/
def Re.matchAt (re : Re) (prev : Option Nat) (rest : Str) : Option (Str × MState) :=
  match re.run ⟨prev, rest, none⟩ some with
  | some st => some (rest.take (rest.length - st.rest.length), st)
  | none => none

/-- The scan of `String.prototype.replace` with a global pattern: at each
position the pattern is tried; a match is replaced by `f` of its text and the
scan resumes after it (one code unit further if the match was empty). -/
def replaceLoop (re : Re) (f : Str → Str) : Nat → Option Nat → Str → Str
  | 0, _, rest => rest
  | n + 1, prev, rest =>
    match re.matchAt prev rest with
    | some (m, st) =>
      if m.isEmpty then
        match rest with
        | [] => f m
        | c :: cs => f m ++ c :: replaceLoop re f n (some c) cs
      else f m ++ replaceLoop re f n st.prev st.rest
    | none =>
      match rest with
      | [] => []
      | c :: cs => c :: replaceLoop re f n (some c) cs

/-- `s.replace(re, f)` for a pattern with the flag `g`. -/
def replaceAll (s : Str) (re : Re) (f : Str → Str) : Str :=
  replaceLoop re f (s.length + 1) none s

/-- The leftmost match of a pattern from the current position on. -/
def searchFrom (re : Re) : Option Nat → Str → Option (Str × MState)
  | prev, [] => re.matchAt prev []
  | prev, c :: cs =>
    match re.matchAt prev (c :: cs) with
    | some r => some r
    | none => searchFrom re (some c) cs

/-- `s.match(re)` for a pattern without the flag `g`: the matched text and the
capture group of the leftmost match. -/
def matchFirst (s : Str) (re : Re) : Option (Str × Option Str) :=
  (searchFrom re none s).map fun r => (r.1, r.2.cap)

/-! ## Normalizer -/

/-- The pattern `\b[a-zA-Z_][a-zA-Z0-9_]*\b`. -/
def identRe : Re :=
  .seq .wordB (.seq (.cls isIdentStart) (.seq (.star (.cls isWordChar)) .wordB))

/-- The keyword list of the identifier pass. -/
def keywords : List Str :=
  ["if", "else", "for", "while", "switch", "case", "try", "catch", "finally",
   "return", "const", "let", "var", "function", "true", "false", "null",
   "undefined"].map js

/-- The keyword list of the control-structure pass. -/
def controlKeywords : List Str :=
  ["if", "else", "for", "while", "switch", "case", "try", "catch", "finally"].map js

/-- The pattern `\b(if|else|for|while|switch|case|try|catch|finally)\b\s*\([^)]*\)`. -/
def controlRe : Re :=
  .seq .wordB (.seq (.group (Re.words controlKeywords)) (.seq .wordB
    (.seq (.star (.cls isSpace)) (.seq (.chr 40)
      (.seq (.star (.cls fun c => c != 41)) (.chr 41))))))

/-- The pattern `function\s+[\w_]+\s*\([^)]*\)`. -/
def funcDeclRe : Re :=
  .seq (Re.lit (js "function")) (.seq (Re.plus (.cls isSpace))
    (.seq (Re.plus (.cls isWordChar)) (.seq (.star (.cls isSpace)) (.seq (.chr 40)
      (.seq (.star (.cls fun c => c != 41)) (.chr 41))))))

/-- The pattern `\b[\w_]+\s*\([^)]*\)`. -/
def callRe : Re :=
  .seq .wordB (.seq (Re.plus (.cls isWordChar)) (.seq (.star (.cls isSpace))
    (.seq (.chr 40) (.seq (.star (.cls fun c => c != 41)) (.chr 41)))))

/-- The pattern `\s+`. -/
def spacesRe : Re := Re.plus (.cls isSpace)

/-- The class of the three quote characters. -/
def isQuote (c : Nat) : Bool := c == 39 || c == 34 || c == 96

/-- The pattern of a quoted literal: a quote, `.*?`, a quote. -/
def stringRe : Re :=
  .seq (.cls isQuote) (.seq (.lazyStar (.cls isDot)) (.cls isQuote))

/-- The pattern `\b\d+\b`. -/
def numberRe : Re := .seq .wordB (.seq (Re.plus (.cls isDigit)) .wordB)

/-- The pattern `function\s+[\w_]+\s*\([^)]*\)\s*{([\s\S]*)}` with the flag `i`. -/
def functionBodyRe : Re :=
  .seq (Re.litI (js "function")) (.seq (Re.plus (.cls isSpace))
    (.seq (Re.plus (.cls isWordChar)) (.seq (.star (.cls isSpace)) (.seq (.chr 40)
      (.seq (.star (.cls fun c => c != 41)) (.seq (.chr 41)
        (.seq (.star (.cls isSpace)) (.seq (.chr 123)
          (.seq (.group (.star (.cls fun _ => true))) (.chr 125))))))))))

/-- The replacer of the identifier pass. -/
def foldIdent (kws : List Str) (m : Str) : Str :=
  if kws.contains m then m else js "__ID__"

/-- `normalizeCodeContent`: the full normalizer. -/
def normalizeCodeContent (code : Str) : Str :=
  let s1 := replaceAll code identRe (foldIdent keywords)
  let s2 := replaceAll s1 controlRe fun m => replaceAll m identRe (foldIdent controlKeywords)
  let s3 := replaceAll s2 funcDeclRe fun _ => js "function __FUNC__(__PARAMS__)"
  let s4 := replaceAll s3 callRe fun _ => js "__CALL__(__PARAMS__)"
  let s5 := replaceAll s4 spacesRe fun _ => js " "
  let s6 := replaceAll s5 stringRe fun _ => js "\"__STR__\""
  let s7 := replaceAll s6 numberRe fun _ => js "__NUM__"
  trim s7

/-- `normalizeCode`: the body of the first embedded named function, if there is
one, is normalized in place of the whole text. -/
def normalizeCode (code : Str) : Str :=
  match matchFirst code functionBodyRe with
  | some (_, some functionBody) => normalizeCodeContent (trim functionBody)
  | _ => normalizeCodeContent code

/-- `normalizeCodeForComparison`: the light normalizer. -/
def normalizeCodeForComparison (code : Str) : Str :=
  let s1 := replaceAll code identRe (foldIdent keywords)
  let s2 := replaceAll s1 stringRe fun _ => js "\"__STR__\""
  let s3 := replaceAll s2 numberRe fun _ => js "__NUM__"
  let s4 := replaceAll s3 spacesRe fun _ => js " "
  trim s4

/-! ## Similarity engine -/

/-- The options of `calculateSimilarity`, with their default values. -/
structure SimilarityOptions where
  caseSensitive : Bool := false
  ignoreWhitespace : Bool := true
  minLength : ℚ := 3
  lengthPenalty : ℚ := 0.3

/-- One iteration of the inner loop of `calculateLevenshteinSimilarity`; the
state is `(curr, minInRow)`. -/
def levCell (str1 str2 : Str) (i : Nat) (prev : List Nat) (st : List Nat × Nat) (j : Nat) :
    List Nat × Nat :=
  let cost := if str1[i - 1]? = str2[j - 1]? then 0 else 1
  let v := min (min (prev.getD j 0 + 1) (st.1.getD (j - 1) 0 + 1)) (prev.getD (j - 1) 0 + cost)
  (st.1.set j v, min st.2 v)

/-- Row `i` of the table: `curr[0] = i; minInRow = i`, then the inner loop over
`j = 1 .. len2`. -/
def levRow (str1 str2 : Str) (i : Nat) (prev curr : List Nat) : List Nat × Nat :=
  (List.range' 1 str2.length).foldl (levCell str1 str2 i prev) (curr.set 0 i, i)

/-- The outer loop over the rows still to do, with the arrays swapped after each
row.  The early termination `minInRow > Math.max(len1, len2) * 0.5` is the integer
comparison `max len1 len2 < 2 * minInRow`; it is the result `none`. -/
def levRows (str1 str2 : Str) : List Nat → List Nat → List Nat → Option (List Nat)
  | [], prev, _ => some prev
  | i :: is, prev, curr =>
    let r := levRow str1 str2 i prev curr
    if max str1.length str2.length < 2 * r.2 then none
    else levRows str1 str2 is r.1 prev

/-- The last row of the Levenshtein table, or `none` on early termination. -/
def levTable (str1 str2 : Str) : Option (List Nat) :=
  levRows str1 str2 (List.range' 1 str1.length) (List.range (str2.length + 1))
    (List.replicate (str2.length + 1) 0)

/-- `calculateLevenshteinSimilarity`. -/
def calculateLevenshteinSimilarity (str1 str2 : Str) : ℚ :=
  match levTable str1 str2 with
  | none => 0
  | some prev =>
    let maxLen := max str1.length str2.length
    if maxLen = 0 then 1 else 1 - (prev.getD str2.length 0 : ℚ) / maxLen

/-- The arrays and the counter of the matching pass of `calculateJaroSimilarity`. -/
structure JaroState where
  str1Matches : List Bool
  str2Matches : List Bool
  «matches» : Nat

/-- The inner loop of the matching pass: the first `j` in `[start, stop)` that is
not yet matched and carries the code unit `str1[i]`. -/
def jaroFind (str1 str2 : Str) (str2Matches : List Bool) (i start stop : Nat) : Option Nat :=
  (List.range' start (stop - start)).find? fun j =>
    !(str2Matches.getD j false || str1[i]? != str2[j]?)

/-- One iteration of the matching pass.  `Math.max(0, i - matchWindow)` is the
truncated difference. -/
def jaroMatchStep (str1 str2 : Str) (matchWindow : Nat) (st : JaroState) (i : Nat) :
    JaroState :=
  let start := i - matchWindow
  let stop := min (i + matchWindow + 1) str2.length
  match jaroFind str1 str2 st.str2Matches i start stop with
  | some j => ⟨st.str1Matches.set i true, st.str2Matches.set j true, st.«matches» + 1⟩
  | none => st

/-- The matching pass. -/
def jaroMatchPass (str1 str2 : Str) (matchWindow : Nat) : JaroState :=
  (List.range str1.length).foldl (jaroMatchStep str1 str2 matchWindow)
    ⟨List.replicate str1.length false, List.replicate str2.length false, 0⟩

/-- The loop `while (!str2Matches[k]) k++`: the first marked index from `k` on.
When there is none the loop reads `undefined` past the end for ever: `none`. -/
def jaroSkip (str2Matches : List Bool) (k : Nat) : Option Nat :=
  (List.range' k (str2Matches.length - k)).find? fun k' => str2Matches.getD k' false

/-- One iteration of the transposition pass; the state is `(k, transpositions)`. -/
def jaroTransStep (str1 str2 : Str) (str1Matches str2Matches : List Bool)
    (st : Option (Nat × Nat)) (i : Nat) : Option (Nat × Nat) :=
  match st with
  | none => none
  | some (k, transpositions) =>
    if !(str1Matches.getD i false) then some (k, transpositions)
    else
      match jaroSkip str2Matches k with
      | none => none
      | some k' =>
        some (k' + 1, if str1[i]? != str2[k']? then transpositions + 1 else transpositions)

/-- The transposition pass: the number of transpositions, if the pass ends. -/
def jaroTranspositions (str1 str2 : Str) (str1Matches str2Matches : List Bool) : Option Nat :=
  ((List.range str1.length).foldl (jaroTransStep str1 str2 str1Matches str2Matches)
    (some (0, 0))).map Prod.snd

/-- `calculateJaroSimilarity`.  `matchWindow` is kept as a natural number: the
truncated `floor(max / 2) - 1` is below 1 exactly when the JavaScript value is. -/
def calculateJaroSimilarity (str1 str2 : Str) : Option ℚ :=
  let len1 := str1.length
  let len2 := str2.length
  if len1 = 0 ∧ len2 = 0 then some 1
  else if len1 = 0 ∨ len2 = 0 then some 0
  else
    let matchWindow := max len1 len2 / 2 - 1
    if matchWindow < 1 then some (if str1 = str2 then 1 else 0)
    else
      let st := jaroMatchPass str1 str2 matchWindow
      if st.«matches» = 0 then some 0
      else
        match jaroTranspositions str1 str2 st.str1Matches st.str2Matches with
        | none => none
        | some transpositions =>
          let m : ℚ := st.«matches»
          some ((m / len1 + m / len2 + (m - (transpositions : ℚ) / 2) / m) / 3)

/-- The loop counting the common prefix, up to `maxPrefix` code units. -/
def commonPrefixLength (str1 str2 : Str) (maxPrefix : Nat) : Nat :=
  ((List.range maxPrefix).takeWhile fun i => str1[i]? == str2[i]?).length

/-- `calculateJaroWinklerSimilarity`, with its default `prefixScale = 0.1`. -/
def calculateJaroWinklerSimilarity (str1 str2 : Str) (prefixScale : ℚ := 0.1) : Option ℚ :=
  match calculateJaroSimilarity str1 str2 with
  | none => none
  | some jaroSim =>
    if jaroSim < 0.7 then some jaroSim
    else
      let maxPrefix := min 4 (min str1.length str2.length)
      let prefixLength := commonPrefixLength str1 str2 maxPrefix
      some (jaroSim + (prefixLength : ℚ) * prefixScale * (1 - jaroSim))

/-- One iteration of the inner loop of `calculateLCSSimilarity`. -/
def lcsCell (str1 str2 : Str) (i : Nat) (prev curr : List Nat) (j : Nat) : List Nat :=
  if str1[i - 1]? = str2[j - 1]? then curr.set j (prev.getD (j - 1) 0 + 1)
  else curr.set j (max (prev.getD j 0) (curr.getD (j - 1) 0))

/-- One iteration of the outer loop: the inner loop over `j = 1 .. len2`, then
the swap of the two arrays.  The state is `(prev, curr)`. -/
def lcsRow (str1 str2 : Str) (st : List Nat × List Nat) (i : Nat) : List Nat × List Nat :=
  ((List.range' 1 str2.length).foldl (lcsCell str1 str2 i st.1) st.2, st.1)

/-- The array `prev` after the loops of `calculateLCSSimilarity`. -/
def lcsTable (str1 str2 : Str) : List Nat :=
  ((List.range' 1 str1.length).foldl (lcsRow str1 str2)
    (List.replicate (str2.length + 1) 0, List.replicate (str2.length + 1) 0)).1

/-- `calculateLCSSimilarity`. -/
def calculateLCSSimilarity (str1 str2 : Str) : ℚ :=
  let lcsLength := (lcsTable str1 str2).getD str2.length 0
  let maxLen := max str1.length str2.length
  if maxLen = 0 then 1 else (lcsLength : ℚ) / maxLen

/-- `Set.prototype.add`, a set being the list of its elements in insertion order. -/
def setAdd (s : List Str) (x : Str) : List Str :=
  if s.contains x then s else s ++ [x]

/-- `new Set(xs)`. -/
def setOf (xs : List Str) : List Str := xs.foldl setAdd []

/-- `getNGrams`, for `n ≥ 1`. -/
def getNGrams (str : Str) (n : Nat) : List Str :=
  let paddedStr := List.replicate (n - 1) 32 ++ str ++ List.replicate (n - 1) 32
  if n ≤ paddedStr.length then
    (List.range (paddedStr.length - n + 1)).foldl
      (fun ngrams i => setAdd ngrams ((paddedStr.drop i).take n)) []
  else []

/-- `calculateNGramSimilarity`. -/
def calculateNGramSimilarity (str1 str2 : Str) (n : Nat := 2) : ℚ :=
  let ngrams1 := getNGrams str1 n
  let ngrams2 := getNGrams str2 n
  if ngrams1.length = 0 ∧ ngrams2.length = 0 then 1
  else if ngrams1.length = 0 ∨ ngrams2.length = 0 then 0
  else
    let intersection := setOf (ngrams1.filter fun x => ngrams2.contains x)
    let union := setOf (ngrams1 ++ ngrams2)
    (intersection.length : ℚ) / union.length

/-- The normalization of `calculateSimilarity` under the options. -/
def normalizeForSimilarity (lower : Str → Str) (options : SimilarityOptions) (str : Str) : Str :=
  let normalized := if options.caseSensitive then str else lower str
  if options.ignoreWhitespace then trim (replaceAll normalized spacesRe fun _ => js " ")
  else normalized

/-- `calculateSimilarity`: the blended score, `none` if a metric does not return. -/
def calculateSimilarity (lower : Str → Str) (str1 str2 : Str)
    (options : SimilarityOptions := {}) : Option ℚ :=
  if str1.isEmpty ∧ str2.isEmpty then some 1
  else if str1.isEmpty ∨ str2.isEmpty then some 0
  else if str1 = str2 then some 1
  else
    let normalized1 := normalizeForSimilarity lower options str1
    let normalized2 := normalizeForSimilarity lower options str2
    if (normalized1.length : ℚ) < options.minLength ∧
        (normalized2.length : ℚ) < options.minLength then
      some (if normalized1 = normalized2 then 1 else 0)
    else
      let len1 := normalized1.length
      let len2 := normalized2.length
      let lengthDiff : ℚ := |(len1 : ℚ) - len2|
      let minLen := min len1 len2
      if lengthDiff > minLen * options.lengthPenalty then some 0
      else
        match calculateJaroSimilarity normalized1 normalized2,
            calculateJaroWinklerSimilarity normalized1 normalized2 with
        | some jaro, some jaroWinkler =>
          let similarities : List ℚ :=
            [calculateLevenshteinSimilarity normalized1 normalized2, jaro, jaroWinkler,
             calculateLCSSimilarity normalized1 normalized2,
             calculateNGramSimilarity normalized1 normalized2 2]
          let sum := similarities.foldl (fun acc score => acc + score) 0
          some (sum / similarities.length)
        | _, _ => none

/-! ## Units and matchers -/

/-- A position of the editor: line and character. -/
structure Position where
  line : Nat
  character : Nat
  deriving DecidableEq

/-- A range of the editor, from `start` to `end_` (the field `end`). -/
structure Range where
  start : Position
  end_ : Position
  deriving DecidableEq

/-- `FunctionInfo`. -/
structure FunctionInfo where
  name : Str
  range : Range
  body : Str
  normalizedBody : Str
  params : List Str
  deriving DecidableEq

/-- `IfStatementInfo`. -/
structure IfStatementInfo where
  condition : Str
  range : Range
  body : Str
  normalizedBody : Str
  deriving DecidableEq

/-- `DuplicateFunction`. -/
structure DuplicateFunction where
  name : Str
  range : Range
  matchName : Str
  matchRange : Range
  deriving DecidableEq

/-- `DuplicateIfStatement`. -/
structure DuplicateIfStatement where
  condition : Str
  range : Range
  matchCondition : Str
  matchRange : Range
  deriving DecidableEq

/-- `DuplicateCode`. -/
structure DuplicateCode where
  range : Range
  matchRange : Range
  deriving DecidableEq

/-- `rangesOverlap`. -/
def rangesOverlap (range1 range2 : Range) : Bool :=
  (range1.start.line ≤ range2.end_.line && range1.end_.line ≥ range2.start.line) ||
  (range2.start.line ≤ range1.end_.line && range2.end_.line ≥ range1.start.line)

/-- The unit pushed by `extractFunctions` for a function of the given name, range
and body text: `normalizedBody` is `normalizeCode(body)`. -/
def mkFunctionInfo (name : Str) (range : Range) (body : Str) (params : List Str) :
    FunctionInfo :=
  ⟨name, range, body, normalizeCode body, params⟩

/-- The unit pushed by `extractIfStatements`: `normalizedBody` is
`normalizeCodeForComparison(body)`. -/
def mkIfStatementInfo (condition : Str) (range : Range) (body : Str) : IfStatementInfo :=
  ⟨condition, range, body, normalizeCodeForComparison body⟩

/-- The inner loop of `findDuplicateFunctions`: `func1` against the later units. -/
def findDuplicateFunctionsInner (lower : Str → Str) (func1 : FunctionInfo) :
    List FunctionInfo → List DuplicateFunction → Option (List DuplicateFunction)
  | [], duplicates => some duplicates
  | func2 :: rest, duplicates =>
    if func1.name = func2.name then findDuplicateFunctionsInner lower func1 rest duplicates
    else
      match calculateSimilarity lower func1.normalizedBody func2.normalizedBody with
      | none => none
      | some similarity =>
        if similarity > 0.95 then
          findDuplicateFunctionsInner lower func1 rest
            (duplicates ++ [⟨func1.name, func1.range, func2.name, func2.range⟩])
        else findDuplicateFunctionsInner lower func1 rest duplicates

/-- The outer loop of `findDuplicateFunctions` over the units from index `i` on. -/
def findDuplicateFunctionsOuter (lower : Str → Str) :
    List FunctionInfo → List DuplicateFunction → Option (List DuplicateFunction)
  | [], duplicates => some duplicates
  | func1 :: rest, duplicates =>
    match findDuplicateFunctionsInner lower func1 rest duplicates with
    | none => none
    | some duplicates' => findDuplicateFunctionsOuter lower rest duplicates'

/-- `findDuplicateFunctions`. -/
def findDuplicateFunctions (lower : Str → Str) (functions : List FunctionInfo) :
    Option (List DuplicateFunction) :=
  findDuplicateFunctionsOuter lower functions []

/-- The inner loop of `findDuplicateIfStatements`. -/
def findDuplicateIfStatementsInner (lower : Str → Str) (if1 : IfStatementInfo) :
    List IfStatementInfo → List DuplicateIfStatement → Option (List DuplicateIfStatement)
  | [], duplicates => some duplicates
  | if2 :: rest, duplicates =>
    match calculateSimilarity lower if1.normalizedBody if2.normalizedBody with
    | none => none
    | some similarity =>
      if similarity > 0.9 then
        findDuplicateIfStatementsInner lower if1 rest
          (duplicates ++ [⟨if1.condition, if1.range, if2.condition, if2.range⟩])
      else findDuplicateIfStatementsInner lower if1 rest duplicates

/-- The outer loop of `findDuplicateIfStatements`. -/
def findDuplicateIfStatementsOuter (lower : Str → Str) :
    List IfStatementInfo → List DuplicateIfStatement → Option (List DuplicateIfStatement)
  | [], duplicates => some duplicates
  | if1 :: rest, duplicates =>
    match findDuplicateIfStatementsInner lower if1 rest duplicates with
    | none => none
    | some duplicates' => findDuplicateIfStatementsOuter lower rest duplicates'

/-- `findDuplicateIfStatements`. -/
def findDuplicateIfStatements (lower : Str → Str) (ifStatements : List IfStatementInfo) :
    Option (List DuplicateIfStatement) :=
  findDuplicateIfStatementsOuter lower ifStatements []

/-! ## Session tracker and chunk matcher -/

/-- A chunk of `extractCodeChunks`: its trimmed text and its range. -/
structure CodeChunk where
  code : Str
  range : Range
  deriving DecidableEq

/-- A record of `processedDuplicates` (the field `end` is `end_`). -/
structure ProcessedDuplicate where
  start : Nat
  end_ : Nat
  matchStart : Nat
  matchEnd : Nat
  type : Str
  deriving DecidableEq

/-- The test `if (type)` on an optional string: given and not empty. -/
def truthy (type : Option Str) : Bool :=
  match type with
  | some t => !t.isEmpty
  | none => false

/-- `clearProcessedDuplicates`: the new value of `processedDuplicates`. -/
def clearProcessedDuplicates (processedDuplicates : List ProcessedDuplicate)
    (type : Option Str := none) : List ProcessedDuplicate :=
  if truthy type then processedDuplicates.filter fun d => some d.type != type
  else []

/-- `isDuplicateProcessed`, reading `processedDuplicates`. -/
def isDuplicateProcessed (processedDuplicates : List ProcessedDuplicate)
    (range1 range2 : Range) (type : Option Str := none) : Bool :=
  let duplicatesToCheck :=
    if truthy type then processedDuplicates.filter fun d => some d.type == type
    else processedDuplicates
  duplicatesToCheck.any fun d =>
    (d.start == range1.start.line && d.end_ == range1.end_.line &&
      d.matchStart == range2.start.line && d.matchEnd == range2.end_.line) ||
    (d.start == range2.start.line && d.end_ == range2.end_.line &&
      d.matchStart == range1.start.line && d.matchEnd == range1.end_.line)

/-- The inner loop of `findNextCodeDuplicate`: `chunk1` against the later chunks,
up to the first one that makes the function return. -/
def findNextCodeDuplicateInner (lower : Str → Str)
    (processedDuplicates : List ProcessedDuplicate) (chunk1 : CodeChunk) :
    List CodeChunk → Option (Option CodeChunk)
  | [] => some none
  | chunk2 :: rest =>
    if rangesOverlap chunk1.range chunk2.range then
      findNextCodeDuplicateInner lower processedDuplicates chunk1 rest
    else if isDuplicateProcessed processedDuplicates chunk1.range chunk2.range then
      findNextCodeDuplicateInner lower processedDuplicates chunk1 rest
    else
      let normalized1 := normalizeCodeForComparison chunk1.code
      let normalized2 := normalizeCodeForComparison chunk2.code
      if normalized1.length < 30 ∨ normalized2.length < 30 then
        findNextCodeDuplicateInner lower processedDuplicates chunk1 rest
      else
        match calculateSimilarity lower normalized1 normalized2 with
        | none => none
        | some similarity =>
          if similarity > 0.85 then some (some chunk2)
          else findNextCodeDuplicateInner lower processedDuplicates chunk1 rest

/-- The outer loop of `findNextCodeDuplicate`: the pair at which it returns. -/
def findNextCodeDuplicateOuter (lower : Str → Str)
    (processedDuplicates : List ProcessedDuplicate) :
    List CodeChunk → Option (Option (CodeChunk × CodeChunk))
  | [] => some none
  | chunk1 :: rest =>
    match findNextCodeDuplicateInner lower processedDuplicates chunk1 rest with
    | none => none
    | some (some chunk2) => some (some (chunk1, chunk2))
    | some none => findNextCodeDuplicateOuter lower processedDuplicates rest

/-- `findNextCodeDuplicate`, on the chunks `extractCodeChunks(document)` and the
current `processedDuplicates`: the returned list and the new
`processedDuplicates`. -/
def findNextCodeDuplicate (lower : Str → Str) (chunks : List CodeChunk)
    (processedDuplicates : List ProcessedDuplicate) :
    Option (List DuplicateCode × List ProcessedDuplicate) :=
  match findNextCodeDuplicateOuter lower processedDuplicates chunks with
  | none => none
  | some (some (chunk1, chunk2)) =>
    some ([⟨chunk1.range, chunk2.range⟩],
      processedDuplicates ++
        [⟨chunk1.range.start.line, chunk1.range.end_.line, chunk2.range.start.line,
          chunk2.range.end_.line, js "code"⟩])
  | some none => some ([], processedDuplicates)

/-! ## Unit extraction and the detection pass -/

/-- `text.slice(start, end)` for offsets within the text. -/
def slice (text : Str) (start stop : Nat) : Str := (text.take stop).drop start

/-- `text.includes(sub)`. -/
def includes (text sub : Str) : Bool := text.tails.any fun t => sub.isPrefixOf t

/-- What the walk of `extractFunctions` reads off a function node: the name
(`node.id?.name`, `decl.id.name` or `node.name.name`), the parameters as
strings, the offsets of the node that gives the range, the offsets of the
body, and whether the body is a block whose braces are cut off. -/
structure FunctionNode where
  name : Option Str
  params : List Str
  start : Nat
  end_ : Nat
  bodyStart : Nat
  bodyEnd : Nat
  block : Bool

/-- What the walk of `extractIfStatements` reads off an `if` node: the offsets
of the test, of the body (the consequent; absent for some PHP nodes) and of the
node. -/
structure IfNode where
  testStart : Nat
  testEnd : Nat
  body : Option (Nat × Nat)
  start : Nat
  end_ : Nat

/-- The host of the extraction: the two parsers (`phpEngine.parseCode` and
`acorn.parse`), each returning a tree or the message of the exception it
throws, the nodes the walks visit in a tree, in the order of the visit, and
`document.positionAt`. -/
structure Host (PhpAst JsAst : Type) where
  parsePhp : Str → Except Str PhpAst
  parseJs : Str → Except Str JsAst
  phpFunctions : PhpAst → List FunctionNode
  jsFunctions : JsAst → List FunctionNode
  phpIfs : PhpAst → List IfNode
  jsIfs : JsAst → List IfNode
  positionAt : Nat → Position

/-- The unit pushed for a function node. -/
def functionUnit {PhpAst JsAst : Type} (host : Host PhpAst JsAst) (text : Str)
    (node : FunctionNode) : FunctionInfo :=
  let name :=
    match node.name with
    | some n => if n.isEmpty then js "anonymous" else n
    | none => js "anonymous"
  let body :=
    if node.block then slice text (node.bodyStart + 1) (node.bodyEnd - 1)
    else slice text node.bodyStart node.bodyEnd
  ⟨name, ⟨host.positionAt node.start, host.positionAt node.end_⟩, body, normalizeCode body,
    node.params⟩

/-- `extractFunctions`: there is no `try` around the parser, whose exception
leaves the function. -/
def extractFunctions {PhpAst JsAst : Type} (host : Host PhpAst JsAst) (text : Str) :
    Except Str (List FunctionInfo) :=
  if includes text (js "<?php") then
    match host.parsePhp text with
    | .error e => .error e
    | .ok ast => .ok ((host.phpFunctions ast).map (functionUnit host text))
  else
    match host.parseJs text with
    | .error e => .error e
    | .ok ast => .ok ((host.jsFunctions ast).map (functionUnit host text))

/-- The unit pushed for an `if` node, unless its trimmed body has fewer than 10
code units. -/
def ifUnit {PhpAst JsAst : Type} (host : Host PhpAst JsAst) (text : Str) (node : IfNode) :
    Option IfStatementInfo :=
  let condition := slice text node.testStart node.testEnd
  let body :=
    match node.body with
    | some b => slice text b.1 b.2
    | none => []
  if (trim body).length < 10 then none
  else
    some ⟨condition, ⟨host.positionAt node.start, host.positionAt node.end_⟩, body,
      normalizeCodeForComparison body⟩

/-- `extractIfStatements`: as `extractFunctions`, without a `try`. -/
def extractIfStatements {PhpAst JsAst : Type} (host : Host PhpAst JsAst) (text : Str) :
    Except Str (List IfStatementInfo) :=
  if includes text (js "<?php") then
    match host.parsePhp text with
    | .error e => .error e
    | .ok ast => .ok ((host.phpIfs ast).filterMap (ifUnit host text))
  else
    match host.parseJs text with
    | .error e => .error e
    | .ok ast => .ok ((host.jsIfs ast).filterMap (ifUnit host text))

/-- The duplicates of the three kinds found by one detection pass. -/
structure Detection where
  functionDuplicates : List DuplicateFunction
  codeDuplicates : List DuplicateCode
  ifDuplicates : List DuplicateIfStatement

/-- The detection pass of the `checkDuplicates` handler, inside its `try`: the
five calls in their order, on the text and the chunks of the document.  The
result is the duplicates found, or the message of the exception caught by the
handler's `catch`, together with the new `processedDuplicates`. -/
def detectDuplicates {PhpAst JsAst : Type} (host : Host PhpAst JsAst) (lower : Str → Str)
    (text : Str) (chunks : List CodeChunk) (processedDuplicates : List ProcessedDuplicate) :
    Option (Except Str Detection × List ProcessedDuplicate) :=
  match extractFunctions host text with
  | .error e => some (.error e, processedDuplicates)
  | .ok functions =>
    match findDuplicateFunctions lower functions with
    | none => none
    | some functionDuplicates =>
      match findNextCodeDuplicate lower chunks processedDuplicates with
      | none => none
      | some (codeDuplicates, processedDuplicates') =>
        match extractIfStatements host text with
        | .error e => some (.error e, processedDuplicates')
        | .ok ifStatements =>
          match findDuplicateIfStatements lower ifStatements with
          | none => none
          | some ifDuplicates =>
            some (.ok ⟨functionDuplicates, codeDuplicates, ifDuplicates⟩, processedDuplicates')

/-! ## Legacy subsumption filter (`out/extension.js`) -/

namespace Legacy

/-- `isRangeSubset`. -/
def isRangeSubset (range1 range2 : Range) : Bool :=
  (range1.start.line ≥ range2.start.line && range1.end_.line ≤ range2.end_.line) ||
  (range1.start.line ≤ range2.start.line && range1.end_.line ≥ range2.end_.line)

/-- The inner loop of `filterSubsetDuplicates`: whether some other pair makes
`current` (at index `i`) a subset. -/
def isSubsetOfOther (duplicates : List DuplicateCode) (i : Nat) (current : DuplicateCode) :
    Bool :=
  (List.range duplicates.length).any fun j =>
    match duplicates[j]? with
    | some other =>
      i != j && (isRangeSubset current.range other.range &&
        isRangeSubset current.matchRange other.matchRange)
    | none => false

/-- `filterSubsetDuplicates`. -/
def filterSubsetDuplicates (duplicates : List DuplicateCode) : List DuplicateCode :=
  (List.range duplicates.length).foldl
    (fun result i =>
      match duplicates[i]? with
      | some current => if !isSubsetOfOther duplicates i current then result ++ [current] else result
      | none => result) []

end Legacy


/-! ## Specification forms and invariants -/

/-- The normalized form as the specification words it: lower-cased,
whitespace-collapsed, trimmed. -/
def specNormalized (lower : Str → Str) (s : Str) : Str :=
  trim (replaceAll (lower s) spacesRe fun _ => js " ")

/-- The blended score of two normalized strings as the specification words it,
given their Jaro and Jaro-Winkler scores: the short-string case, the length
gate, and the arithmetic mean of the five metrics. -/
def specBlend (a' b' : Str) (jaro jaroWinkler : ℚ) : ℚ :=
  if a'.length < 3 ∧ b'.length < 3 then (if a' = b' then 1 else 0)
  else if |(a'.length : ℚ) - b'.length| > (min a'.length b'.length : ℕ) * 0.3 then 0
  else
    (calculateLevenshteinSimilarity a' b' + jaro + jaroWinkler + calculateLCSSimilarity a' b' +
      calculateNGramSimilarity a' b' 2) / 5

/-- Row bound of the Levenshtein table: entry `j` of row `i` is at most `max i j`. -/
def LevBound (i : Nat) (arr : List Nat) : Prop := ∀ j, arr.getD j 0 ≤ max i j

/-- Entry `j` of either array of the LCS table is at most `j`. -/
def LcsBound (arr : List Nat) : Prop := ∀ j, arr.getD j 0 ≤ j

/-- Invariant of the matching pass before iteration `i`: both arrays keep their
lengths, both hold `matches` marks, and `str1Matches` has no mark from `i` on. -/
structure JaroInv (len1 len2 i : Nat) (st : JaroState) : Prop where
  len1_eq : st.str1Matches.length = len1
  len2_eq : st.str2Matches.length = len2
  count1 : st.str1Matches.count true = st.«matches»
  count2 : st.str2Matches.count true = st.«matches»
  fresh : ∀ i', i ≤ i' → st.str1Matches.getD i' false = false

/-- Invariant of the transposition pass before iteration `i`. -/
def JaroTransInv (m1 m2 : List Bool) (i : Nat) (st : Nat × Nat) : Prop :=
  (m1.drop i).count true ≤ (m2.drop st.1).count true ∧
    st.2 + (m1.drop i).count true ≤ m1.count true

/-! ## Table recurrences -/

/-- Row `i + 1` of the LCS table computed from row `i`. -/
def lcsRowFn (str1 str2 : Str) (i : Nat) (prevRow : Nat → Nat) : Nat → Nat
  | 0 => 0
  | j + 1 =>
    if str1[i]? = str2[j]? then prevRow j + 1
    else max (prevRow (j + 1)) (lcsRowFn str1 str2 i prevRow j)

/-- The LCS table as a recurrence: entry `(i, j)` is for the first `i` code units
of `str1` and the first `j` of `str2`. -/
def lcsFn (str1 str2 : Str) : Nat → Nat → Nat
  | 0 => fun _ => 0
  | i + 1 => lcsRowFn str1 str2 i (lcsFn str1 str2 i)

/-- Row `i + 1` of the Levenshtein table computed from row `i`. -/
def levRowFn (str1 str2 : Str) (i : Nat) (prevRow : Nat → Nat) : Nat → Nat
  | 0 => i + 1
  | j + 1 =>
    min (min (prevRow (j + 1) + 1) (levRowFn str1 str2 i prevRow j + 1))
      (prevRow j + if str1[i]? = str2[j]? then 0 else 1)

/-- The Levenshtein table as a recurrence. -/
def levFn (str1 str2 : Str) : Nat → Nat → Nat
  | 0 => fun j => j
  | i + 1 => levRowFn str1 str2 i (levFn str1 str2 i)

/-- An array of `n + 1` entries holding the values of `f` at `0 .. n`. -/
def RowIs (n : Nat) (f : Nat → Nat) (arr : List Nat) : Prop :=
  arr.length = n + 1 ∧ ∀ j, j ≤ n → arr.getD j 0 = f j

/-! ## The matching of the Jaro metric -/

/-- The state of the matching pass before iteration `i`. -/
def jaroStateAt (str1 str2 : Str) (w i : Nat) : JaroState :=
  (List.range i).foldl (jaroMatchStep str1 str2 w)
    ⟨List.replicate str1.length false, List.replicate str2.length false, 0⟩

/-- The index of `str2` that iteration `i` of the matching pass marks, if any. -/
def jaroPartner (str1 str2 : Str) (w i : Nat) : Option Nat :=
  jaroFind str1 str2 (jaroStateAt str1 str2 w i).str2Matches i (i - w)
    (min (i + w + 1) str2.length)

/-- Index `i` of `str1` is matched with index `j` of `str2`. -/
def JaroMatched (str1 str2 : Str) (w i j : Nat) : Prop :=
  i < str1.length ∧ jaroPartner str1 str2 w i = some j

/-- Indices `i` of `str1` and `j` of `str2` carry the same code unit and are
within the match window of each other. -/
def JaroCompat (str1 str2 : Str) (w i j : Nat) : Prop :=
  i < str1.length ∧ j < str2.length ∧ i ≤ j + w ∧ j ≤ i + w ∧ str1[i]? = str2[j]?

/-- The code units at the marked indices, from index `i` on. -/
def jaroMarked (marks : List Bool) (str : Str) : Nat → Nat → List (Option Nat)
  | 0, _ => []
  | d + 1, i =>
    if marks.getD i false then str[i]? :: jaroMarked marks str d (i + 1)
    else jaroMarked marks str d (i + 1)

/-- The number of positions at which two lists differ. -/
def mismatches : List (Option Nat) → List (Option Nat) → Nat
  | a :: as, b :: bs => (if a != b then 1 else 0) + mismatches as bs
  | _, _ => 0

/-! ## Concrete inputs -/

/-- A chunk pair on lines 0-9 and 20-29. -/
def pairA : DuplicateCode := ⟨⟨⟨0, 0⟩, ⟨9, 0⟩⟩, ⟨⟨20, 0⟩, ⟨29, 0⟩⟩⟩

/-- An unrelated chunk pair on lines 40-49 and 60-69. -/
def pairB : DuplicateCode := ⟨⟨⟨40, 0⟩, ⟨49, 0⟩⟩, ⟨⟨60, 0⟩, ⟨69, 0⟩⟩⟩

/-- A chunk pair on lines 2-5 and 22-25, inside `pairA`. -/
def pairC : DuplicateCode := ⟨⟨⟨2, 0⟩, ⟨5, 0⟩⟩, ⟨⟨22, 0⟩, ⟨25, 0⟩⟩⟩

/-- The nested function of the document
`function outer() {` / `  function inner() { return 1; }` / `}`,
as `extractFunctions` pushes it (line 1, characters 2 to 32). -/
def innerFn : FunctionInfo :=
  mkFunctionInfo (js "inner") ⟨⟨1, 2⟩, ⟨1, 32⟩⟩ (js " return 1; ") []

/-- The enclosing function of the same document (lines 0 to 2); the syntax-tree
walk visits it after the function nested in it. -/
def outerFn : FunctionInfo :=
  mkFunctionInfo (js "outer") ⟨⟨0, 0⟩, ⟨2, 1⟩⟩ (js "\n  function inner() \x7b return 1; \x7d\n") []

/-- The `else if` branch of the one-line document
`if (a) { foo(1); bar(2); } else if (b) { foo(1); bar(2); }`. -/
def elseIfUnit : IfStatementInfo :=
  mkIfStatementInfo (js "b") ⟨⟨0, 32⟩, ⟨0, 58⟩⟩ (js "\x7b foo(1); bar(2); \x7d")

/-- The whole `if` statement of the same document, which contains the branch. -/
def wholeIfUnit : IfStatementInfo :=
  mkIfStatementInfo (js "a") ⟨⟨0, 0⟩, ⟨0, 58⟩⟩ (js "\x7b foo(1); bar(2); \x7d")

/-! ## Specification forms for the chunk matcher -/

/-- The pairs `(l[i], l[j])` with `i < j`, for `i` ascending and then `j`
ascending. -/
def orderedPairs {α : Type} : List α → List (α × α)
  | [] => []
  | x :: xs => xs.map (fun y => (x, y)) ++ orderedPairs xs

/-- A pair of chunks qualifies as the next duplicate: the ranges do not overlap,
the pair is not recorded, both light normal forms have at least 30 code units
and their similarity exceeds 0.85. -/
def chunkPairQualifies (lower : Str → Str) (processedDuplicates : List ProcessedDuplicate)
    (p : CodeChunk × CodeChunk) : Bool :=
  !rangesOverlap p.1.range p.2.range &&
  !isDuplicateProcessed processedDuplicates p.1.range p.2.range &&
  decide (30 ≤ (normalizeCodeForComparison p.1.code).length) &&
  decide (30 ≤ (normalizeCodeForComparison p.2.code).length) &&
  match calculateSimilarity lower (normalizeCodeForComparison p.1.code)
      (normalizeCodeForComparison p.2.code) with
  | some similarity => decide (similarity > 0.85)
  | none => false

/-- The record of a pair of chunks: their line spans and the kind `code`. -/
def codeRecord (p : CodeChunk × CodeChunk) : ProcessedDuplicate :=
  ⟨p.1.range.start.line, p.1.range.end_.line, p.2.range.start.line, p.2.range.end_.line,
    js "code"⟩

/-- The result of `findNextCodeDuplicate` as the specification words it: the
first qualifying pair, reported and recorded, or nothing. -/
def specFindNext (lower : Str → Str) (chunks : List CodeChunk)
    (processedDuplicates : List ProcessedDuplicate) :
    List DuplicateCode × List ProcessedDuplicate :=
  match (orderedPairs chunks).find? (chunkPairQualifies lower processedDuplicates) with
  | some p => ([⟨p.1.range, p.2.range⟩], processedDuplicates ++ [codeRecord p])
  | none => ([], processedDuplicates)

/-- The value of `processedDuplicates` after `k` successive calls of
`findNextCodeDuplicate` on the same chunks. -/
def trackerAfterCalls (lower : Str → Str) (chunks : List CodeChunk) :
    Nat → List ProcessedDuplicate → Option (List ProcessedDuplicate)
  | 0, processedDuplicates => some processedDuplicates
  | k + 1, processedDuplicates =>
    match findNextCodeDuplicate lower chunks processedDuplicates with
    | none => none
    | some r => trackerAfterCalls lower chunks k r.2

/-- The number of pairs of chunks whose line spans are not recorded. -/
def unrecordedPairs (chunks : List CodeChunk) (processedDuplicates : List ProcessedDuplicate) :
    Nat :=
  ((orderedPairs chunks).filter fun p =>
    !isDuplicateProcessed processedDuplicates p.1.range p.2.range).length

/-! ## Specification forms for the function matcher -/

/-- The similarity of two strings exceeds a threshold. -/
def similarityExceeds (lower : Str → Str) (a b : Str) (threshold : ℚ) : Bool :=
  match calculateSimilarity lower a b with
  | some similarity => decide (similarity > threshold)
  | none => false

/-- The pair reported for two function units: the earlier one as `name` and
`range`, the later one as `matchName` and `matchRange`. -/
def functionPair (func1 func2 : FunctionInfo) : DuplicateFunction :=
  ⟨func1.name, func1.range, func2.name, func2.range⟩

/-- Two function units are reported: their names differ and the similarity of
their normalized bodies exceeds 0.95. -/
def functionsMatch (lower : Str → Str) (func1 func2 : FunctionInfo) : Bool :=
  func1.name != func2.name &&
    similarityExceeds lower func1.normalizedBody func2.normalizedBody 0.95

/-- The result of `findDuplicateFunctions` as the specification words it: the
matching pairs of units, in the order of `orderedPairs`. -/
def specDuplicateFunctions (lower : Str → Str) (functions : List FunctionInfo) :
    List DuplicateFunction :=
  ((orderedPairs functions).filter fun p => functionsMatch lower p.1 p.2).map
    fun p => functionPair p.1 p.2

/-! ## Concrete inputs for the matchers and the tracker -/

/-- A unit named `helper`. -/
def helperA : FunctionInfo :=
  mkFunctionInfo (js "helper") ⟨⟨0, 0⟩, ⟨0, 30⟩⟩ (js " return 1; ") []

/-- A later unit also named `helper`, with the same body. -/
def helperB : FunctionInfo :=
  mkFunctionInfo (js "helper") ⟨⟨1, 0⟩, ⟨1, 30⟩⟩ (js " return 1; ") []

/-- The function `alpha` on lines 0 to 9 of the twenty-line document
`function alpha(a) {` / `  let r = load(a);` / `  r = scale(r);` / `  save(r);` /
`  log(r);` / three blank lines / `  return r;` / `}`, followed on lines 10 to 19
by the same text with `beta`, `b`, `s` for `alpha`, `a`, `r`. -/
def alphaFn : FunctionInfo :=
  mkFunctionInfo (js "alpha") ⟨⟨0, 0⟩, ⟨9, 1⟩⟩
    (js "\n  let r = load(a);\n  r = scale(r);\n  save(r);\n  log(r);\n\n\n\n  return r;\n")
    [js "a"]

/-- The function `beta` on lines 10 to 19 of the same document. -/
def betaFn : FunctionInfo :=
  mkFunctionInfo (js "beta") ⟨⟨10, 0⟩, ⟨19, 1⟩⟩
    (js "\n  let s = load(b);\n  s = scale(s);\n  save(s);\n  log(s);\n\n\n\n  return s;\n")
    [js "b"]

/-- The chunk of lines 0 to 9 of the same document. -/
def chunk0 : CodeChunk :=
  ⟨js ("function alpha(a) \x7b\n  let r = load(a);\n  r = scale(r);\n  save(r);\n  log(r);" ++
    "\n\n\n\n  return r;\n\x7d"), ⟨⟨0, 0⟩, ⟨9, 1⟩⟩⟩

/-- The chunk of lines 5 to 14 of the same document. -/
def chunk5 : CodeChunk :=
  ⟨js ("return r;\n\x7d\nfunction beta(b) \x7b\n  let s = load(b);\n  s = scale(s);" ++
    "\n  save(s);\n  log(s);"), ⟨⟨5, 0⟩, ⟨14, 9⟩⟩⟩

/-- The chunk of lines 10 to 19 of the same document. -/
def chunk10 : CodeChunk :=
  ⟨js ("function beta(b) \x7b\n  let s = load(b);\n  s = scale(s);\n  save(s);\n  log(s);" ++
    "\n\n\n\n  return s;\n\x7d"), ⟨⟨10, 0⟩, ⟨19, 1⟩⟩⟩

/-- The chunks of the same document: the window of lines 15 to 19 has a trimmed
text of 11 code units and is not a chunk. -/
def documentChunks : List CodeChunk := [chunk0, chunk5, chunk10]

/-- The record pushed for the function pair `alpha`, `beta` when the functions
are reviewed: its lines and the kind `functions`. -/
def functionsRecord : ProcessedDuplicate := ⟨0, 9, 10, 19, js "functions"⟩

/-- A tracker with one record of each kind. -/
def mixedTracker : List ProcessedDuplicate :=
  [⟨0, 9, 10, 19, js "functions"⟩, ⟨0, 9, 10, 19, js "code"⟩, ⟨3, 4, 8, 9, js "if_statements"⟩,
    ⟨5, 14, 20, 29, js "code"⟩]

/-- A host whose JavaScript parser rejects every text with the message
`Unexpected token`. -/
def rejectingHost : Host Unit Unit where
  parsePhp := fun _ => .ok ()
  parseJs := fun _ => .error (js "Unexpected token")
  phpFunctions := fun _ => []
  jsFunctions := fun _ => []
  phpIfs := fun _ => []
  jsIfs := fun _ => []
  positionAt := fun n => ⟨0, n⟩

/-! ## Legacy similarity (`out/extension.js`) -/

namespace Legacy

/-- The entry `dp[i][j]` of the table. -/
def dpGet (dp : List (List Nat)) (i j : Nat) : Nat := (dp.getD i []).getD j 0

/-- The assignment `dp[i][j] = v`. -/
def dpSet (dp : List (List Nat)) (i j v : Nat) : List (List Nat) :=
  dp.set i ((dp.getD i []).set j v)

/-- One iteration of the inner loop of the legacy `calculateSimilarity`. -/
def dpCell (str1 str2 : Str) (i : Nat) (dp : List (List Nat)) (j : Nat) : List (List Nat) :=
  let cost := if str1[i - 1]? = str2[j - 1]? then 0 else 1
  dpSet dp i j
    (min (min (dpGet dp (i - 1) j + 1) (dpGet dp i (j - 1) + 1)) (dpGet dp (i - 1) (j - 1) + cost))

/-- The full table of the legacy `calculateSimilarity` after its four loops. -/
def dpTable (str1 str2 : Str) : List (List Nat) :=
  let dp0 := List.replicate (str1.length + 1) (List.replicate (str2.length + 1) 0)
  let dp1 := (List.range (str1.length + 1)).foldl (fun dp i => dpSet dp i 0 i) dp0
  let dp2 := (List.range (str2.length + 1)).foldl (fun dp j => dpSet dp 0 j j) dp1
  (List.range' 1 str1.length).foldl
    (fun dp i => (List.range' 1 str2.length).foldl (dpCell str1 str2 i) dp) dp2

/-- The legacy `calculateSimilarity`: a length gate on the arguments, then the
full Levenshtein table. -/
def calculateSimilarity (str1 str2 : Str) : ℚ :=
  let len1 := str1.length
  let len2 := str2.length
  if |(len1 : ℚ) - len2| > (min len1 len2 : ℕ) * 0.3 then 0
  else
    let dp := dpTable str1 str2
    let maxLen := max len1 len2
    if maxLen = 0 then 1 else 1 - (dpGet dp len1 len2 : ℚ) / maxLen

end Legacy

/-! ## Specification forms for the Levenshtein and LCS metrics -/

/-- The edit distance of two strings: insertions, deletions and substitutions
of one code unit, each of cost 1. -/
def editDistance (a b : Str) : Nat := levenshtein Levenshtein.defaultCost a b

/-- The Levenshtein score as the specification words it:
`1 - editDistance / max(len a, len b)`, and 1 for two empty strings. -/
def specLevenshtein (a b : Str) : ℚ :=
  if max a.length b.length = 0 then 1
  else 1 - (editDistance a b : ℚ) / (max a.length b.length : ℕ)

namespace Legacy

/-- A table of `r` rows of `c` entries each. -/
def DpShape (r c : Nat) (dp : List (List Nat)) : Prop :=
  dp.length = r ∧ ∀ i, i < r → (dp.getD i []).length = c

/-- The table invariant: the shape, and every entry of the rows above `r`, of
row `r` up to column `c`, of column 0 and of row 0 is the value of the
recurrence. -/
def DpInv (str1 str2 : Str) (r c : Nat) (dp : List (List Nat)) : Prop :=
  DpShape (str1.length + 1) (str2.length + 1) dp ∧
    ∀ i j, i ≤ str1.length → j ≤ str2.length → (i < r ∨ (i = r ∧ j ≤ c) ∨ j = 0 ∨ i = 0) →
      dpGet dp i j = levFn str1 str2 i j

end Legacy

/-- The number `n` is the length of a longest common subsequence of `a` and
`b`: some common subsequence has `n` code units and none has more. -/
def IsLongestCommonLength (n : Nat) (a b : Str) : Prop :=
  (∃ l : Str, l.Sublist a ∧ l.Sublist b ∧ l.length = n) ∧
    ∀ l : Str, l.Sublist a → l.Sublist b → l.length ≤ n

/-! ## Specification form of the pairwise filter -/

/-- The index pairs `(i, j)` with `i < j < n`, for `i` ascending and then `j`
ascending. -/
def indexPairs (n : Nat) : List (Nat × Nat) :=
  (List.range n).flatMap fun i => (List.range' (i + 1) (n - (i + 1))).map fun j => (i, j)

/-- The elements of a list at a pair of indices. -/
def atPair {α : Type} (l : List α) (p : Nat × Nat) : Option (α × α) :=
  match l[p.1]?, l[p.2]? with
  | some x, some y => some (x, y)
  | _, _ => none

/-- The result of `findDuplicateFunctions` as the specification words it: for
every index pair `i < j`, in ascending order, whose units have different names
and normalized bodies of similarity above 0.95, the pair with unit `i` as
`name` and `range` and unit `j` as `matchName` and `matchRange`. -/
def specPairwiseFunctions (lower : Str → Str) (functions : List FunctionInfo) :
    List DuplicateFunction :=
  (indexPairs functions.length).filterMap fun p =>
    match atPair functions p with
    | some (func1, func2) =>
      if func1.name ≠ func2.name ∧
          similarityExceeds lower func1.normalizedBody func2.normalizedBody 0.95 = true then
        some ⟨func1.name, func1.range, func2.name, func2.range⟩
      else none
    | none => none

/-- A unit `inc` with the body `return a+1;`. -/
def incFn : FunctionInfo :=
  mkFunctionInfo (js "inc") ⟨⟨0, 0⟩, ⟨0, 33⟩⟩ (js "return a+1;") [js "a"]

/-- A unit `dec` with the body `return a-1;`. -/
def decFn : FunctionInfo :=
  mkFunctionInfo (js "dec") ⟨⟨1, 0⟩, ⟨1, 33⟩⟩ (js "return a-1;") [js "a"]

/-! ## Chunk extraction -/

/-- `re.test(s)` for a pattern without the flag `g`. -/
def Re.test (re : Re) (s : Str) : Bool := (matchFirst s re).isSome

/-- The pattern `function\s+[\w_]+\s*\([^)]*\)\s*{[\s\S]*}`. -/
def functionDefinitionRe : Re :=
  .seq (Re.lit (js "function")) (.seq (Re.plus (.cls isSpace))
    (.seq (Re.plus (.cls isWordChar)) (.seq (.star (.cls isSpace)) (.seq (.chr 40)
      (.seq (.star (.cls fun c => c != 41)) (.seq (.chr 41)
        (.seq (.star (.cls isSpace)) (.seq (.chr 123)
          (.seq (.star (.cls fun _ => true)) (.chr 125))))))))))

/-- The pattern `\b(if|else|for|while|switch|try|catch)\b`. -/
def controlStructureRe : Re :=
  .seq .wordB (.seq (.group (Re.words
    (["if", "else", "for", "while", "switch", "try", "catch"].map js))) .wordB)

/-- The pattern `\w+\s*\(.*\)`. -/
def functionCallRe : Re :=
  .seq (Re.plus (.cls isWordChar)) (.seq (.star (.cls isSpace)) (.seq (.chr 40)
    (.seq (.star (.cls isDot)) (.chr 41))))

/-- The pattern `\w+\s*=\s*`. -/
def assignmentRe : Re :=
  .seq (Re.plus (.cls isWordChar)) (.seq (.star (.cls isSpace)) (.seq (.chr 61)
    (.star (.cls isSpace))))

/-- The pattern `\breturn\b`. -/
def returnRe : Re := .seq .wordB (.seq (Re.lit (js "return")) .wordB)

/-- `isCommentOnly`: no line of the text has, after trimming, a first character
other than those of a comment. -/
def isCommentOnly (code : Str) : Bool :=
  (code.splitOn 10).all fun line =>
    let trimmed := trim line
    !(decide (trimmed.length > 0) &&
      !(js "//").isPrefixOf trimmed &&
      !(js "/*").isPrefixOf trimmed &&
      !(js "*").isPrefixOf trimmed &&
      !(js "*/").isPrefixOf trimmed)

/-- `hasCodeStructure`. -/
def hasCodeStructure (code : Str) : Bool :=
  let isFunctionDefinition := functionDefinitionRe.test code
  if isFunctionDefinition then true
  else
    let hasControlStructure := controlStructureRe.test code
    let hasFunctionCall := functionCallRe.test code
    let hasAssignment := assignmentRe.test code
    let hasReturn := returnRe.test code
    let lineCount := ((code.splitOn 10).filter fun line => decide ((trim line).length > 0)).length
    decide (lineCount ≥ 3) && (hasControlStructure || hasFunctionCall || (hasAssignment && hasReturn))

/-- A text document of the editor: its lines, without their terminators, and
the line terminator that `getText` puts between them. -/
structure TextDocument where
  lines : List Str
  eol : Str

/-- `document.lineCount`. -/
def TextDocument.lineCount (document : TextDocument) : Nat := document.lines.length

/-- `document.lineAt(line).text`. -/
def TextDocument.lineAt (document : TextDocument) (line : Nat) : Str := document.lines.getD line []

/-- `document.getText(range)`: the lines of the range joined by the line
terminator, the last one cut at the end character and the first one starting at
the start character. -/
def TextDocument.getText (document : TextDocument) (range : Range) : Str :=
  if range.end_.line < range.start.line then []
  else
    let inner := (document.lines.drop range.start.line).take (range.end_.line - range.start.line)
    let lastLine := (document.lineAt range.end_.line).take range.end_.character
    (List.intercalate document.eol (inner ++ [lastLine])).drop range.start.character

/-- The loop of `extractCodeChunks` from line `i` on.  The counter starts at the
number of lines; `i` grows by 5, so it does not run out before `i` reaches the
number of lines. -/
def extractCodeChunksLoop (document : TextDocument) :
    Nat → Nat → List CodeChunk → List CodeChunk
  | 0, _, chunks => chunks
  | fuel + 1, i, chunks =>
    if i < document.lineCount then
      let stop := min (i + 10) document.lineCount
      if stop > i then
        let range : Range :=
          ⟨⟨i, 0⟩, ⟨stop - 1, (document.lineAt (stop - 1)).length⟩⟩
        let code := trim (document.getText range)
        if code.length > 30 ∧ isCommentOnly code = false ∧ hasCodeStructure code = true then
          extractCodeChunksLoop document fuel (i + 5) (chunks ++ [⟨code, range⟩])
        else extractCodeChunksLoop document fuel (i + 5) chunks
      else extractCodeChunksLoop document fuel (i + 5) chunks
    else chunks

/-- `extractCodeChunks`. -/
def extractCodeChunks (document : TextDocument) : List CodeChunk :=
  extractCodeChunksLoop document document.lineCount 0 []

/-! ## Specification form of the chunk tiling -/

/-- The window starts `0, 5, 10, ...` below `n`. -/
def windowStarts (n : Nat) : List Nat := (List.range ((n + 4) / 5)).map fun k => 5 * k

/-- The last line of the window that starts at line `i` of a document of `n`
lines. -/
def windowLast (n i : Nat) : Nat := min (i + 9) (n - 1)

/-- The window that starts at line `i`: the trimmed text of its lines, joined by
the line terminator, and the range from the start of line `i` to the end of its
last line. -/
def specWindow (document : TextDocument) (i : Nat) : CodeChunk :=
  let last := windowLast document.lineCount i
  ⟨trim (List.intercalate document.eol ((document.lines.drop i).take (last + 1 - i))),
    ⟨⟨i, 0⟩, ⟨last, (document.lineAt last).length⟩⟩⟩

/-- The filter of `extractCodeChunks` on the text of a window. -/
def chunkQualifies (code : Str) : Bool :=
  decide (code.length > 30) && !isCommentOnly code && hasCodeStructure code

/-- The chunks as the specification words them: the qualifying windows, in
ascending order. -/
def specCodeChunks (document : TextDocument) : List CodeChunk :=
  ((windowStarts document.lineCount).map (specWindow document)).filter
    fun chunk => chunkQualifies chunk.code

/-- The number of lines that two ranges have in common. -/
def sharedLines (range1 range2 : Range) : Nat :=
  min range1.end_.line range2.end_.line + 1 - max range1.start.line range2.start.line

/-- A document of twelve lines: ten empty lines, then the function
`function tail(value) {` / `  return compute(value) + 1; }`. -/
def tailDocument : TextDocument where
  lines := List.replicate 10 [] ++
    [js "function tail(value) \x7b", js "  return compute(value) + 1; \x7d"]
  eol := js "\n"

/-! ## Specification forms for the matcher and the normal forms -/

/-- The code unit before the position reached after the text `m`, when `prev`
was the code unit before `m`. -/
def lastOr (m : Str) (prev : Option Nat) : Option Nat :=
  match m.getLast? with
  | some c => some c
  | none => prev

/-- The matches of a pattern, as a relation between the position where a match
starts and the position where it ends; a position is the code unit before it
and the text from it on.  The relation ignores the priorities of the matcher
and the capture group. -/
def Re.Den : Re → Option Nat × Str → Option Nat × Str → Prop
  | .eps, a, b => b = a
  | .cls p, a, b => ∃ c, a.2 = c :: b.2 ∧ p c = true ∧ b.1 = some c
  | .wordB, a, b => b = a ∧ isWordAt a.1 ≠ isWordAt a.2.head?
  | .seq x y, a, b => ∃ m, x.Den a m ∧ y.Den m b
  | .alt x y, a, b => x.Den a b ∨ y.Den a b
  | .star x, a, b => Relation.ReflTransGen (fun s t => x.Den s t) a b
  | .lazyStar x, a, b => Relation.ReflTransGen (fun s t => x.Den s t) a b
  | .group x, a, b => x.Den a b

/-- Every whitespace character of the string is a space, and no two whitespace
characters are adjacent. -/
def SingleSpaced (s : Str) : Prop :=
  (∀ c, c ∈ s → isSpace c = true → c = 32) ∧
    s.Chain' fun a b => ¬ (isSpace a = true ∧ isSpace b = true)

/-- The string is single-spaced and has no whitespace at its start or end. -/
def Collapsed (s : Str) : Prop :=
  SingleSpaced s ∧ (∀ c, s.head? = some c → isSpace c = false) ∧
    ∀ c, s.getLast? = some c → isSpace c = false

/-- The two strings are equal up to the case of the basic Latin letters. -/
def EqIgnoreCase (kw w : Str) : Prop := asciiLower kw = asciiLower w

/-- A text of the shape of a function header: the word `function` in any case,
whitespace, a name of word characters, optional whitespace, a parenthesised
text without `)`, optional whitespace and `{`. -/
def IsFunctionHeader (h : Str) : Prop :=
  ∃ kw ws1 name ws2 params ws3 : Str,
    h = kw ++ (ws1 ++ (name ++ (ws2 ++ (40 :: (params ++ (41 :: (ws3 ++ [123]))))))) ∧
    EqIgnoreCase kw (js "function") ∧
    ws1 ≠ [] ∧ (∀ c, c ∈ ws1 → isSpace c = true) ∧
    name ≠ [] ∧ (∀ c, c ∈ name → isWordChar c = true) ∧
    (∀ c, c ∈ ws2 → isSpace c = true) ∧
    (∀ c, c ∈ params → c ≠ 41) ∧
    (∀ c, c ∈ ws3 → isSpace c = true)

/-! ## Auxiliary lemmas -/

/-- An invariant kept by every step of a left fold holds at its end. -/
theorem foldl_invariant {α β : Type} (Q : β → Prop) (f : β → α → β) (l : List α) (init : β)
    (h0 : Q init) (hstep : ∀ s x, x ∈ l → Q s → Q (f s x)) : Q (l.foldl f init) := by
  induction l generalizing init with
  | nil => simpa using h0
  | cons x xs ih =>
    simp only [List.foldl_cons]
    apply ih
    · exact hstep _ _ (List.mem_cons_self _ _) h0
    · intro s y hy hs
      exact hstep s y (List.mem_cons_of_mem _ hy) hs

/-- Reading an array after one write. -/
theorem getD_set_le (l : List Nat) (j j' v b : Nat) (hl : l.getD j' 0 ≤ b)
    (hv : j = j' → v ≤ b) : (l.set j v).getD j' 0 ≤ b := by
  rw [List.getD_eq_getElem?_getD, List.getElem?_set]
  rw [List.getD_eq_getElem?_getD] at hl
  by_cases hj : j = j'
  · subst hj
    by_cases hlt : j < l.length
    · simpa [hlt] using hv rfl
    · simp [hlt]
  · simpa [hj] using hl

/-! ### Levenshtein -/


theorem LevBound.mono {i i' : Nat} {arr : List Nat} (h : LevBound i arr) (hi : i ≤ i') :
    LevBound i' arr := fun j => le_trans (h j) (max_le_max hi le_rfl)

theorem levRow_bound (str1 str2 : Str) (i : Nat) (prev curr : List Nat)
    (hp : LevBound i prev) (hc : LevBound (i + 1) curr) :
    LevBound (i + 1) (levRow str1 str2 (i + 1) prev curr).1 := by
  unfold levRow
  refine foldl_invariant (fun st : List Nat × Nat => LevBound (i + 1) st.1) _ _ _ ?_ ?_
  · intro j
    apply getD_set_le _ _ _ _ _ (hc j)
    intro h; subst h; simp
  · intro st j hj hst j'
    simp only [levCell]
    apply getD_set_le _ _ _ _ _ (hst j')
    intro h; subst h
    rw [List.mem_range'] at hj
    obtain ⟨x, _, hx⟩ := hj
    have h1 := hp (j - 1)
    have : prev.getD (j - 1) 0 + (if str1[i + 1 - 1]? = str2[j - 1]? then 0 else 1) ≤ max (i + 1) j := by
      split <;> omega
    exact le_trans (min_le_right _ _) this

theorem levRows_bound (str1 str2 : Str) (n : Nat) :
    ∀ (i : Nat) (prev curr res : List Nat), LevBound i prev → LevBound i curr →
      levRows str1 str2 (List.range' (i + 1) n) prev curr = some res → LevBound (i + n) res := by
  induction n with
  | zero =>
    intro i prev curr res hp _ h
    simp [levRows] at h
    subst h; simpa using hp
  | succ n ih =>
    intro i prev curr res hp hc h
    rw [List.range'_succ] at h
    simp only [levRows] at h
    split at h
    · exact absurd h (by simp)
    · have := ih (i + 1) _ _ res
        (levRow_bound str1 str2 i prev curr hp (hc.mono (Nat.le_succ i)))
        (hp.mono (Nat.le_succ i)) h
      have e : i + (n + 1) = i + 1 + n := by omega
      rw [e]; exact this

theorem levTable_bound (str1 str2 : Str) (res : List Nat)
    (h : levTable str1 str2 = some res) :
    res.getD str2.length 0 ≤ max str1.length str2.length := by
  unfold levTable at h
  have hp : LevBound 0 (List.range (str2.length + 1)) := by
    intro j
    rw [List.getD_eq_getElem?_getD]
    by_cases hj : j < str2.length + 1
    · simp [List.getElem?_range hj]
    · simp [List.getElem?_eq_none (l := List.range (str2.length + 1)) (by simpa using hj)]
  have hc : LevBound 0 (List.replicate (str2.length + 1) 0) := by
    intro j
    rw [List.getD_eq_getElem?_getD, List.getElem?_replicate]
    split <;> simp
  have := levRows_bound str1 str2 str1.length 0 _ _ res hp hc (by simpa using h)
  simpa using this str2.length

theorem calculateLevenshteinSimilarity_bounds (str1 str2 : Str) :
    0 ≤ calculateLevenshteinSimilarity str1 str2 ∧
      calculateLevenshteinSimilarity str1 str2 ≤ 1 := by
  unfold calculateLevenshteinSimilarity
  cases h : levTable str1 str2 with
  | none => simp
  | some res =>
    have hb := levTable_bound str1 str2 res h
    simp only
    split
    · simp
    · rename_i hm
      have hpos : (0 : ℚ) < (max str1.length str2.length : ℕ) := by
        exact_mod_cast Nat.pos_of_ne_zero hm
      have hle : ((res.getD str2.length 0 : ℕ) : ℚ) ≤ (max str1.length str2.length : ℕ) := by
        exact_mod_cast hb
      have h1 : ((res.getD str2.length 0 : ℕ) : ℚ) / (max str1.length str2.length : ℕ) ≤ 1 :=
        div_le_one_of_le₀ hle hpos.le
      have h0 : (0 : ℚ) ≤ ((res.getD str2.length 0 : ℕ) : ℚ) / (max str1.length str2.length : ℕ) :=
        div_nonneg (Nat.cast_nonneg _) hpos.le
      constructor <;> linarith

/-! ### Longest common subsequence -/


theorem lcsRow_bound (str1 str2 : Str) (st : List Nat × List Nat) (i : Nat)
    (hp : LcsBound st.1) (hc : LcsBound st.2) :
    LcsBound (lcsRow str1 str2 st i).1 ∧ LcsBound (lcsRow str1 str2 st i).2 := by
  refine ⟨?_, hp⟩
  unfold lcsRow
  refine foldl_invariant (fun curr : List Nat => LcsBound curr) _ _ _ hc ?_
  intro curr j hj hcurr j'
  rw [List.mem_range'] at hj
  obtain ⟨x, _, hx⟩ := hj
  unfold lcsCell
  split
  · apply getD_set_le _ _ _ _ _ (hcurr j')
    intro h; subst h
    have := hp (j - 1)
    omega
  · apply getD_set_le _ _ _ _ _ (hcurr j')
    intro h; subst h
    have h1 := hp j
    have h2 := hcurr (j - 1)
    exact max_le h1 (by omega)

theorem lcsTable_bound (str1 str2 : Str) :
    (lcsTable str1 str2).getD str2.length 0 ≤ str2.length := by
  have hz : LcsBound (List.replicate (str2.length + 1) 0) := by
    intro j
    rw [List.getD_eq_getElem?_getD, List.getElem?_replicate]
    split <;> simp
  have := foldl_invariant (fun st : List Nat × List Nat => LcsBound st.1 ∧ LcsBound st.2)
    (lcsRow str1 str2) (List.range' 1 str1.length)
    (List.replicate (str2.length + 1) 0, List.replicate (str2.length + 1) 0) ⟨hz, hz⟩
    (fun st i _ h => lcsRow_bound str1 str2 st i h.1 h.2)
  exact this.1 str2.length

theorem calculateLCSSimilarity_bounds (str1 str2 : Str) :
    0 ≤ calculateLCSSimilarity str1 str2 ∧ calculateLCSSimilarity str1 str2 ≤ 1 := by
  unfold calculateLCSSimilarity
  have hb := lcsTable_bound str1 str2
  simp only
  split
  · simp
  · rename_i hm
    have hpos : (0 : ℚ) < (max str1.length str2.length : ℕ) := by
      exact_mod_cast Nat.pos_of_ne_zero hm
    have hle : (((lcsTable str1 str2).getD str2.length 0 : ℕ) : ℚ) ≤
        (max str1.length str2.length : ℕ) := by
      exact_mod_cast le_trans hb (le_max_right _ _)
    exact ⟨div_nonneg (Nat.cast_nonneg _) hpos.le, div_le_one_of_le₀ hle hpos.le⟩

/-! ### Sets of n-grams -/

theorem setAdd_of_mem {acc : List Str} {y : Str} (h : y ∈ acc) : setAdd acc y = acc := by
  simp [setAdd, h]

theorem setAdd_of_not_mem {acc : List Str} {y : Str} (h : y ∉ acc) :
    setAdd acc y = acc ++ [y] := by
  simp [setAdd, h]

theorem mem_foldl_setAdd (l acc : List Str) (x : Str) :
    x ∈ l.foldl setAdd acc ↔ x ∈ acc ∨ x ∈ l := by
  induction l generalizing acc with
  | nil => simp
  | cons y ys ih =>
    simp only [List.foldl_cons, ih, List.mem_cons]
    by_cases hy : y ∈ acc
    · rw [setAdd_of_mem hy]
      constructor
      · rintro (h | h)
        · exact Or.inl h
        · exact Or.inr (Or.inr h)
      · rintro (h | h | h)
        · exact Or.inl h
        · exact Or.inl (h ▸ hy)
        · exact Or.inr h
    · rw [setAdd_of_not_mem hy]
      simp only [List.mem_append, List.mem_singleton]
      tauto

theorem nodup_foldl_setAdd (l acc : List Str) (h : acc.Nodup) : (l.foldl setAdd acc).Nodup := by
  induction l generalizing acc with
  | nil => simpa using h
  | cons y ys ih =>
    simp only [List.foldl_cons]
    apply ih
    by_cases hy : y ∈ acc
    · rw [setAdd_of_mem hy]; exact h
    · rw [setAdd_of_not_mem hy, List.nodup_append]
      refine ⟨h, List.nodup_singleton _, ?_⟩
      intro a ha hb
      simp only [List.mem_singleton] at hb
      subst hb; exact hy ha

/-- The size of `new Set(xs)` is the number of distinct elements of `xs`. -/
theorem length_setOf (xs : List Str) : (setOf xs).length = xs.toFinset.card := by
  have hn : (setOf xs).Nodup := nodup_foldl_setAdd xs [] List.nodup_nil
  rw [← List.toFinset_card_of_nodup hn]
  congr 1
  ext x
  simp [setOf, mem_foldl_setAdd]

theorem calculateNGramSimilarity_bounds (str1 str2 : Str) (n : Nat) :
    0 ≤ calculateNGramSimilarity str1 str2 n ∧ calculateNGramSimilarity str1 str2 n ≤ 1 := by
  unfold calculateNGramSimilarity
  simp only
  split
  · simp
  · split
    · simp
    · have hle : (setOf ((getNGrams str1 n).filter fun x => (getNGrams str2 n).contains x)).length ≤
          (setOf (getNGrams str1 n ++ getNGrams str2 n)).length := by
        rw [length_setOf, length_setOf]
        apply Finset.card_le_card
        intro x hx
        simp only [List.mem_toFinset, List.mem_filter, List.mem_append] at hx ⊢
        exact Or.inl hx.1
      have hq : ((setOf ((getNGrams str1 n).filter fun x => (getNGrams str2 n).contains x)).length : ℚ) ≤
          ((setOf (getNGrams str1 n ++ getNGrams str2 n)).length : ℚ) := by
        exact_mod_cast hle
      exact ⟨div_nonneg (Nat.cast_nonneg _) (Nat.cast_nonneg _),
        div_le_one_of_le₀ hq (Nat.cast_nonneg _)⟩

/-! ### Jaro -/

theorem jaroFind_some {str1 str2 : Str} {str2Matches : List Bool} {i start stop j : Nat}
    (h : jaroFind str1 str2 str2Matches i start stop = some j) :
    j < stop ∧ str2Matches.getD j false = false := by
  unfold jaroFind at h
  have hp := List.find?_some h
  have hm := List.mem_of_find?_eq_some h
  rw [List.mem_range'] at hm
  obtain ⟨x, hx, rfl⟩ := hm
  constructor
  · omega
  · simp only [Bool.not_eq_true', Bool.or_eq_false_iff] at hp
    exact hp.1

theorem count_set_true (l : List Bool) (i : Nat) (h : i < l.length)
    (hf : l.getD i false = false) : (l.set i true).count true = l.count true + 1 := by
  rw [List.getD_eq_getElem?_getD, List.getElem?_eq_getElem h] at hf
  simp only [Option.getD_some] at hf
  rw [List.count_set _ _ _ _ h]
  simp [hf]

theorem jaroMatchStep_inv (str1 str2 : Str) (w i : Nat) (st : JaroState)
    (hi : i < str1.length) (h : JaroInv str1.length str2.length i st) :
    JaroInv str1.length str2.length (i + 1) (jaroMatchStep str1 str2 w st i) := by
  unfold jaroMatchStep
  simp only
  cases hf : jaroFind str1 str2 st.str2Matches i (i - w) (min (i + w + 1) str2.length) with
  | none =>
    exact ⟨h.len1_eq, h.len2_eq, h.count1, h.count2, fun i' hi' => h.fresh i' (by omega)⟩
  | some j =>
    obtain ⟨hj, hjf⟩ := jaroFind_some hf
    have hj2 : j < st.str2Matches.length := by
      rw [h.len2_eq]; exact lt_of_lt_of_le hj (min_le_right _ _)
    have hi1 : i < st.str1Matches.length := by rw [h.len1_eq]; exact hi
    refine ⟨by simp [h.len1_eq], by simp [h.len2_eq], ?_, ?_, ?_⟩
    · simp only
      rw [count_set_true _ _ hi1 (h.fresh i le_rfl), h.count1]
    · simp only
      rw [count_set_true _ _ hj2 hjf, h.count2]
    · intro i' hi'
      simp only
      rw [List.getD_eq_getElem?_getD, List.getElem?_set_ne (by omega),
        ← List.getD_eq_getElem?_getD]
      exact h.fresh i' (by omega)

theorem jaroMatchPass_inv_aux (str1 str2 : Str) (w : Nat) :
    ∀ n, n ≤ str1.length → JaroInv str1.length str2.length n
      ((List.range n).foldl (jaroMatchStep str1 str2 w)
        ⟨List.replicate str1.length false, List.replicate str2.length false, 0⟩) := by
  intro n
  induction n with
  | zero =>
    intro _
    refine ⟨by simp, by simp, ?_, ?_, ?_⟩
    · simp [List.count_replicate]
    · simp [List.count_replicate]
    · intro i' _
      simp only [List.range_zero, List.foldl_nil]
      rw [List.getD_eq_getElem?_getD, List.getElem?_replicate]
      split <;> simp
  | succ n ih =>
    intro hn
    rw [List.range_succ, List.foldl_append]
    simp only [List.foldl_cons, List.foldl_nil]
    exact jaroMatchStep_inv str1 str2 w n _ (by omega) (ih (by omega))

theorem jaroMatchPass_inv (str1 str2 : Str) (w : Nat) :
    JaroInv str1.length str2.length str1.length (jaroMatchPass str1 str2 w) :=
  jaroMatchPass_inv_aux str1 str2 w str1.length le_rfl

/-- The loop `while (!str2Matches[k]) k++` stops as soon as a mark is left. -/
theorem jaroSkip_of_count (m2 : List Bool) :
    ∀ d k, m2.length - k = d → 1 ≤ (m2.drop k).count true →
      ∃ k', jaroSkip m2 k = some k' ∧ k' < m2.length ∧
        (m2.drop (k' + 1)).count true + 1 = (m2.drop k).count true := by
  intro d
  induction d with
  | zero =>
    intro k hk hc
    have : m2.drop k = [] := List.drop_eq_nil_of_le (by omega)
    rw [this] at hc
    simp at hc
  | succ d ih =>
    intro k hk hc
    have hlt : k < m2.length := by omega
    have hdrop := List.drop_eq_getElem_cons hlt
    have hr : List.range' k (m2.length - k) = k :: List.range' (k + 1) (m2.length - (k + 1)) := by
      have : m2.length - k = (m2.length - (k + 1)) + 1 := by omega
      rw [this, List.range'_succ]
    have hget : m2.getD k false = m2[k] := by
      rw [List.getD_eq_getElem?_getD, List.getElem?_eq_getElem hlt]; rfl
    by_cases hb : m2[k] = true
    · refine ⟨k, ?_, hlt, ?_⟩
      · unfold jaroSkip
        rw [hr, List.find?_cons, hget, hb]
      · rw [hdrop, hb]; simp
    · have hb' : m2[k] = false := by simpa using hb
      have hc' : 1 ≤ (m2.drop (k + 1)).count true := by
        rw [hdrop, hb'] at hc; simpa using hc
      obtain ⟨k', hk', hlt', hcnt⟩ := ih (k + 1) (by omega) hc'
      refine ⟨k', ?_, hlt', ?_⟩
      · unfold jaroSkip at hk' ⊢
        rw [hr, List.find?_cons, hget, hb']
        exact hk'
      · rw [hcnt, hdrop, hb']; simp

theorem jaroTransStep_inv (str1 str2 : Str) (m1 m2 : List Bool) (i : Nat) (st : Nat × Nat)
    (hi : i < m1.length) (h : JaroTransInv m1 m2 i st) :
    ∃ st', jaroTransStep str1 str2 m1 m2 (some st) i = some st' ∧
      JaroTransInv m1 m2 (i + 1) st' := by
  obtain ⟨k, t⟩ := st
  obtain ⟨h1, h2⟩ := h
  have hdrop := List.drop_eq_getElem_cons hi
  have hget : m1.getD i false = m1[i] := by
    rw [List.getD_eq_getElem?_getD, List.getElem?_eq_getElem hi]; rfl
  simp only [jaroTransStep, hget]
  by_cases hb : m1[i] = true
  · rw [hdrop, hb] at h1 h2
    simp only [List.count_cons_self] at h1 h2
    obtain ⟨k', hk', _, hcnt⟩ := jaroSkip_of_count m2 _ k rfl (by omega)
    simp only [hb, Bool.not_true, Bool.false_eq_true, if_false, hk']
    refine ⟨_, rfl, ?_, ?_⟩
    · simp only; omega
    · simp only
      split <;> omega
  · have hb' : m1[i] = false := by simpa using hb
    rw [hdrop, hb'] at h1 h2
    simp only [hb', Bool.not_false, if_true]
    refine ⟨_, rfl, ?_, ?_⟩
    · simpa using h1
    · simpa using h2

theorem jaroTransPass_inv (str1 str2 : Str) (m1 m2 : List Bool)
    (hc : m1.count true ≤ m2.count true) :
    ∀ n, n ≤ m1.length → ∃ st,
      (List.range n).foldl (jaroTransStep str1 str2 m1 m2) (some (0, 0)) = some st ∧
        JaroTransInv m1 m2 n st := by
  intro n
  induction n with
  | zero =>
    intro _
    exact ⟨(0, 0), rfl, by simpa [JaroTransInv] using hc⟩
  | succ n ih =>
    intro hn
    obtain ⟨st, hst, hinv⟩ := ih (by omega)
    rw [List.range_succ, List.foldl_append, hst]
    simp only [List.foldl_cons, List.foldl_nil]
    exact jaroTransStep_inv str1 str2 m1 m2 n st (by omega) hinv

/-- The transposition pass ends, with at most as many transpositions as marks. -/
theorem jaroTranspositions_total (str1 str2 : Str) (m1 m2 : List Bool)
    (hl : m1.length = str1.length) (hc : m1.count true ≤ m2.count true) :
    ∃ t, jaroTranspositions str1 str2 m1 m2 = some t ∧ t ≤ m1.count true := by
  obtain ⟨st, hst, hinv⟩ := jaroTransPass_inv str1 str2 m1 m2 hc m1.length le_rfl
  refine ⟨st.2, ?_, ?_⟩
  · unfold jaroTranspositions
    rw [← hl, hst]; rfl
  · have := hinv.2
    omega

/-- The Jaro formula lies in `[0, 1]`. -/
theorem jaro_formula_bounds (m t len1 len2 : Nat) (hm : 0 < m) (h1 : m ≤ len1) (h2 : m ≤ len2)
    (ht : t ≤ m) :
    0 ≤ (((m : ℚ) / len1 + (m : ℚ) / len2 + ((m : ℚ) - (t : ℚ) / 2) / m) / 3) ∧
      (((m : ℚ) / len1 + (m : ℚ) / len2 + ((m : ℚ) - (t : ℚ) / 2) / m) / 3) ≤ 1 := by
  have hmq : (0 : ℚ) < m := by exact_mod_cast hm
  have h1q : (m : ℚ) ≤ len1 := by exact_mod_cast h1
  have h2q : (m : ℚ) ≤ len2 := by exact_mod_cast h2
  have htq : (t : ℚ) ≤ m := by exact_mod_cast ht
  have ht0 : (0 : ℚ) ≤ t := Nat.cast_nonneg _
  have a1 : (m : ℚ) / len1 ≤ 1 := div_le_one_of_le₀ h1q (by linarith)
  have a2 : (m : ℚ) / len2 ≤ 1 := div_le_one_of_le₀ h2q (by linarith)
  have a3 : ((m : ℚ) - (t : ℚ) / 2) / m ≤ 1 := div_le_one_of_le₀ (by linarith) hmq.le
  have b1 : 0 ≤ (m : ℚ) / len1 := div_nonneg hmq.le (by linarith)
  have b2 : 0 ≤ (m : ℚ) / len2 := div_nonneg hmq.le (by linarith)
  have b3 : 0 ≤ ((m : ℚ) - (t : ℚ) / 2) / m := div_nonneg (by linarith) hmq.le
  constructor
  · apply div_nonneg _ (by norm_num); linarith
  · rw [div_le_one (by norm_num)]; linarith

/-- `calculateJaroSimilarity` returns, and its value lies in `[0, 1]`. -/
theorem calculateJaroSimilarity_total (str1 str2 : Str) :
    ∃ v, calculateJaroSimilarity str1 str2 = some v ∧ 0 ≤ v ∧ v ≤ 1 := by
  unfold calculateJaroSimilarity
  simp only
  split
  · exact ⟨1, rfl, by norm_num, le_rfl⟩
  · split
    · exact ⟨0, rfl, le_rfl, by norm_num⟩
    · split
      · split
        · exact ⟨1, rfl, by norm_num, le_rfl⟩
        · exact ⟨0, rfl, le_rfl, by norm_num⟩
      · split
        · exact ⟨0, rfl, le_rfl, by norm_num⟩
        · rename_i hm
          have inv := jaroMatchPass_inv str1 str2 (max str1.length str2.length / 2 - 1)
          obtain ⟨t, ht, hle⟩ := jaroTranspositions_total str1 str2
            (jaroMatchPass str1 str2 (max str1.length str2.length / 2 - 1)).str1Matches
            (jaroMatchPass str1 str2 (max str1.length str2.length / 2 - 1)).str2Matches
            inv.len1_eq (by rw [inv.count1, inv.count2])
          rw [ht]
          refine ⟨_, rfl, ?_⟩
          apply jaro_formula_bounds
          · exact Nat.pos_of_ne_zero hm
          · have := List.count_le_length true
              (jaroMatchPass str1 str2 (max str1.length str2.length / 2 - 1)).str1Matches
            rw [inv.count1, inv.len1_eq] at this
            exact this
          · have := List.count_le_length true
              (jaroMatchPass str1 str2 (max str1.length str2.length / 2 - 1)).str2Matches
            rw [inv.count2, inv.len2_eq] at this
            exact this
          · rw [inv.count1] at hle; exact hle

/-! ### Jaro-Winkler and the blended score -/

theorem commonPrefixLength_le (str1 str2 : Str) (maxPrefix : Nat) :
    commonPrefixLength str1 str2 maxPrefix ≤ maxPrefix := by
  unfold commonPrefixLength
  have := List.IsPrefix.length_le
    ( List.takeWhile_prefix (fun i : Nat => str1[i]? == str2[i]?) (l := List.range maxPrefix))
  simpa using this

/-- `calculateJaroWinklerSimilarity` returns, and its value lies in `[0, 1]`. -/
theorem calculateJaroWinklerSimilarity_total (str1 str2 : Str) :
    ∃ v, calculateJaroWinklerSimilarity str1 str2 = some v ∧ 0 ≤ v ∧ v ≤ 1 := by
  obtain ⟨j, hj, h0, h1⟩ := calculateJaroSimilarity_total str1 str2
  unfold calculateJaroWinklerSimilarity
  rw [hj]
  simp only
  split
  · exact ⟨j, rfl, h0, h1⟩
  · refine ⟨_, rfl, ?_, ?_⟩
    · have hp : (0 : ℚ) ≤ (commonPrefixLength str1 str2 (min 4 (min str1.length str2.length)) : ℚ) :=
        Nat.cast_nonneg _
      have : 0 ≤ (commonPrefixLength str1 str2 (min 4 (min str1.length str2.length)) : ℚ) * 0.1 *
          (1 - j) := by
        apply mul_nonneg (mul_nonneg hp (by norm_num)); linarith
      linarith
    · have hp : (commonPrefixLength str1 str2 (min 4 (min str1.length str2.length)) : ℚ) ≤ 4 := by
        have := le_trans (commonPrefixLength_le str1 str2 (min 4 (min str1.length str2.length)))
          (min_le_left _ _)
        exact_mod_cast this
      have h2 : (commonPrefixLength str1 str2 (min 4 (min str1.length str2.length)) : ℚ) * 0.1 *
          (1 - j) ≤ 4 * 0.1 * (1 - j) := by
        apply mul_le_mul_of_nonneg_right _ (by linarith)
        apply mul_le_mul_of_nonneg_right hp (by norm_num)
      have h3 : (4 : ℚ) * 0.1 * (1 - j) ≤ 1 - j := by
        have : (4 : ℚ) * 0.1 = 0.4 := by norm_num
        rw [this]
        nlinarith
      linarith

/-- The blended score, past the trivial cases, in terms of the normalized strings. -/
theorem calculateSimilarity_of_ne (lower : Str → Str) (a b : Str) (options : SimilarityOptions)
    (ha : a ≠ []) (hb : b ≠ []) (hab : a ≠ b) :
    ∃ jaro jaroWinkler,
      calculateJaroSimilarity (normalizeForSimilarity lower options a)
        (normalizeForSimilarity lower options b) = some jaro ∧
      calculateJaroWinklerSimilarity (normalizeForSimilarity lower options a)
        (normalizeForSimilarity lower options b) = some jaroWinkler ∧
      0 ≤ jaro ∧ jaro ≤ 1 ∧ 0 ≤ jaroWinkler ∧ jaroWinkler ≤ 1 ∧
      calculateSimilarity lower a b options =
        some (
          if ((normalizeForSimilarity lower options a).length : ℚ) < options.minLength ∧
              ((normalizeForSimilarity lower options b).length : ℚ) < options.minLength then
            (if normalizeForSimilarity lower options a = normalizeForSimilarity lower options b
              then 1 else 0)
          else if |((normalizeForSimilarity lower options a).length : ℚ) -
              (normalizeForSimilarity lower options b).length| >
              (min (normalizeForSimilarity lower options a).length
                (normalizeForSimilarity lower options b).length : ℕ) * options.lengthPenalty then 0
          else
            (calculateLevenshteinSimilarity (normalizeForSimilarity lower options a)
                (normalizeForSimilarity lower options b) + jaro + jaroWinkler +
              calculateLCSSimilarity (normalizeForSimilarity lower options a)
                (normalizeForSimilarity lower options b) +
              calculateNGramSimilarity (normalizeForSimilarity lower options a)
                (normalizeForSimilarity lower options b) 2) / 5) := by
  obtain ⟨j, hj, hj0, hj1⟩ := calculateJaroSimilarity_total
    (normalizeForSimilarity lower options a) (normalizeForSimilarity lower options b)
  obtain ⟨w, hw, hw0, hw1⟩ := calculateJaroWinklerSimilarity_total
    (normalizeForSimilarity lower options a) (normalizeForSimilarity lower options b)
  refine ⟨j, w, hj, hw, hj0, hj1, hw0, hw1, ?_⟩
  have ha' : a.isEmpty = false := by cases a <;> simp_all
  have hb' : b.isEmpty = false := by cases b <;> simp_all
  unfold calculateSimilarity
  simp only [ha', hb', hab, hj, hw]
  simp only [Bool.false_eq_true, and_self, or_self, if_false]
  split
  · rfl
  · split
    · rfl
    · congr 1
      simp only [List.foldl_cons, List.foldl_nil, List.length_cons, List.length_nil]
      norm_num

/-! ### The tables against their recurrences -/

theorem getD_set_self (l : List Nat) (j v : Nat) (h : j < l.length) :
    (l.set j v).getD j 0 = v := by
  rw [List.getD_eq_getElem?_getD, List.getElem?_set]
  simp [h]

theorem getD_set_other (l : List Nat) (j j' v : Nat) (h : j ≠ j') :
    (l.set j v).getD j' 0 = l.getD j' 0 := by
  rw [List.getD_eq_getElem?_getD, List.getElem?_set_ne h, ← List.getD_eq_getElem?_getD]

theorem lcsFn_zero_right (str1 str2 : Str) (i : Nat) : lcsFn str1 str2 i 0 = 0 := by
  cases i <;> rfl

theorem lcsFn_succ_succ (str1 str2 : Str) (i j : Nat) :
    lcsFn str1 str2 (i + 1) (j + 1) =
      if str1[i]? = str2[j]? then lcsFn str1 str2 i j + 1
      else max (lcsFn str1 str2 i (j + 1)) (lcsFn str1 str2 (i + 1) j) := rfl

/-- The LCS recurrence is symmetric. -/
theorem lcsFn_symm (str1 str2 : Str) :
    ∀ n i j, i + j = n → lcsFn str1 str2 i j = lcsFn str2 str1 j i := by
  intro n
  induction n using Nat.strong_induction_on with
  | _ n ih =>
    intro i j hn
    cases i with
    | zero => rw [lcsFn_zero_right]; rfl
    | succ i =>
      cases j with
      | zero => rw [lcsFn_zero_right]; rfl
      | succ j =>
        rw [lcsFn_succ_succ, lcsFn_succ_succ]
        rw [ih (i + j) (by omega) i j rfl, ih (i + (j + 1)) (by omega) i (j + 1) rfl,
          ih (i + 1 + j) (by omega) (i + 1) j rfl]
        by_cases h : str1[i]? = str2[j]?
        · simp [h]
        · have h' : ¬ str2[j]? = str1[i]? := fun e => h e.symm
          simp only [h, h', if_false]
          exact max_comm _ _

/-- The inner loop of the LCS table fills row `i + 1` up to column `n`. -/
theorem lcsInner_spec (str1 str2 : Str) (i : Nat) (prev curr : List Nat)
    (hp : RowIs str2.length (lcsFn str1 str2 i) prev)
    (hl : curr.length = str2.length + 1) (h0 : curr.getD 0 0 = 0) :
    ∀ n, n ≤ str2.length →
      ((List.range' 1 n).foldl (lcsCell str1 str2 (i + 1) prev) curr).length = str2.length + 1 ∧
      ∀ j, j ≤ n →
        ((List.range' 1 n).foldl (lcsCell str1 str2 (i + 1) prev) curr).getD j 0 =
          lcsFn str1 str2 (i + 1) j := by
  intro n
  induction n with
  | zero =>
    intro _
    refine ⟨by simpa using hl, ?_⟩
    intro j hj
    have : j = 0 := by omega
    subst this
    simpa [lcsFn_zero_right] using h0
  | succ n ih =>
    intro hn
    obtain ⟨ihl, ihv⟩ := ih (by omega)
    rw [List.range'_concat, List.foldl_append]
    simp only [List.foldl_cons, List.foldl_nil, one_mul]
    have e1 : 1 + n - 1 = n := by omega
    have hlt : 1 + n < ((List.range' 1 n).foldl (lcsCell str1 str2 (i + 1) prev) curr).length := by
      omega
    have hcell : ∀ c : List Nat, c.length = str2.length + 1 →
        (∀ j, j ≤ n → c.getD j 0 = lcsFn str1 str2 (i + 1) j) →
        (lcsCell str1 str2 (i + 1) prev c (1 + n)).length = str2.length + 1 ∧
        ∀ j, j ≤ n + 1 → (lcsCell str1 str2 (i + 1) prev c (1 + n)).getD j 0 =
          lcsFn str1 str2 (i + 1) j := by
      intro c hcl hcv
      have hlt' : 1 + n < c.length := by omega
      unfold lcsCell
      simp only [e1, Nat.add_sub_cancel]
      by_cases h : str1[i]? = str2[n]?
      · simp only [h, if_true]
        refine ⟨by simp [hcl], ?_⟩
        intro j hj
        by_cases hjn : j = 1 + n
        · subst hjn
          rw [getD_set_self _ _ _ hlt', hp.2 n (by omega)]
          have : 1 + n = n + 1 := by omega
          rw [this, lcsFn_succ_succ, if_pos h]
        · rw [getD_set_other _ _ _ _ (fun e => hjn e.symm)]
          exact hcv j (by omega)
      · simp only [h, if_false]
        refine ⟨by simp [hcl], ?_⟩
        intro j hj
        by_cases hjn : j = 1 + n
        · subst hjn
          rw [getD_set_self _ _ _ hlt', hp.2 (1 + n) (by omega), hcv n le_rfl]
          have : 1 + n = n + 1 := by omega
          rw [this, lcsFn_succ_succ, if_neg h]
        · rw [getD_set_other _ _ _ _ (fun e => hjn e.symm)]
          exact hcv j (by omega)
    exact hcell _ ihl ihv

/-- After `n` rows the array `prev` holds row `n` of the LCS recurrence. -/
theorem lcsOuter_spec (str1 str2 : Str) :
    ∀ n, RowIs str2.length (lcsFn str1 str2 n)
        ((List.range' 1 n).foldl (lcsRow str1 str2)
          (List.replicate (str2.length + 1) 0, List.replicate (str2.length + 1) 0)).1 ∧
      ((List.range' 1 n).foldl (lcsRow str1 str2)
          (List.replicate (str2.length + 1) 0, List.replicate (str2.length + 1) 0)).2.length =
        str2.length + 1 ∧
      ((List.range' 1 n).foldl (lcsRow str1 str2)
          (List.replicate (str2.length + 1) 0, List.replicate (str2.length + 1) 0)).2.getD 0 0 = 0 := by
  intro n
  induction n with
  | zero =>
    have hz : ∀ j, (List.replicate (str2.length + 1) 0).getD j 0 = 0 := by
      intro j
      rw [List.getD_eq_getElem?_getD, List.getElem?_replicate]
      split <;> simp
    refine ⟨⟨by simp, fun j _ => ?_⟩, by simp, ?_⟩
    · simp only [List.range'_zero, List.foldl_nil]
      rw [hz j]; rfl
    · simp only [List.range'_zero, List.foldl_nil]
      exact hz 0
  | succ n ih =>
    obtain ⟨hp, hl, h0⟩ := ih
    rw [List.range'_concat, List.foldl_append]
    simp only [List.foldl_cons, List.foldl_nil, one_mul]
    have e : 1 + n = n + 1 := by omega
    rw [e]
    obtain ⟨rl, rv⟩ := lcsInner_spec str1 str2 n _ _ hp hl h0 str2.length le_rfl
    refine ⟨⟨rl, rv⟩, hp.1, ?_⟩
    simp only [lcsRow]
    rw [hp.2 0 (by omega), lcsFn_zero_right]

/-- The table of `calculateLCSSimilarity` ends with the value of the recurrence. -/
theorem lcsTable_eq (str1 str2 : Str) :
    (lcsTable str1 str2).getD str2.length 0 = lcsFn str1 str2 str1.length str2.length :=
  (lcsOuter_spec str1 str2 str1.length).1.2 str2.length le_rfl

/-- `calculateLCSSimilarity` is symmetric. -/
theorem calculateLCSSimilarity_symm (str1 str2 : Str) :
    calculateLCSSimilarity str1 str2 = calculateLCSSimilarity str2 str1 := by
  unfold calculateLCSSimilarity
  simp only
  rw [lcsTable_eq, lcsTable_eq, lcsFn_symm str1 str2 _ _ _ rfl, max_comm]

/-! ### Levenshtein table against its recurrence -/

theorem levFn_zero_right (str1 str2 : Str) (i : Nat) : levFn str1 str2 i 0 = i := by
  cases i <;> rfl

theorem levFn_succ_succ (str1 str2 : Str) (i j : Nat) :
    levFn str1 str2 (i + 1) (j + 1) =
      min (min (levFn str1 str2 i (j + 1) + 1) (levFn str1 str2 (i + 1) j + 1))
        (levFn str1 str2 i j + if str1[i]? = str2[j]? then 0 else 1) := rfl

/-- The Levenshtein recurrence is symmetric. -/
theorem levFn_symm (str1 str2 : Str) :
    ∀ n i j, i + j = n → levFn str1 str2 i j = levFn str2 str1 j i := by
  intro n
  induction n using Nat.strong_induction_on with
  | _ n ih =>
    intro i j hn
    cases i with
    | zero => rw [levFn_zero_right]; rfl
    | succ i =>
      cases j with
      | zero => rw [levFn_zero_right]; rfl
      | succ j =>
        rw [levFn_succ_succ, levFn_succ_succ]
        rw [ih (i + j) (by omega) i j rfl, ih (i + (j + 1)) (by omega) i (j + 1) rfl,
          ih (i + 1 + j) (by omega) (i + 1) j rfl]
        have hc : (if str1[i]? = str2[j]? then 0 else 1) =
            (if str2[j]? = str1[i]? then 0 else 1) := by
          by_cases h : str1[i]? = str2[j]?
          · simp [h]
          · have h' : ¬ str2[j]? = str1[i]? := fun e => h e.symm
            simp [h, h']
        rw [hc, min_comm (levFn str2 str1 (j + 1) i + 1)]

/-- The inner loop of the Levenshtein table fills row `i + 1` up to column `n`. -/
theorem levInner_spec (str1 str2 : Str) (i : Nat) (prev curr : List Nat)
    (hp : RowIs str2.length (levFn str1 str2 i) prev)
    (hl : curr.length = str2.length + 1) :
    ∀ n, n ≤ str2.length →
      ((List.range' 1 n).foldl (levCell str1 str2 (i + 1) prev)
          (curr.set 0 (i + 1), i + 1)).1.length = str2.length + 1 ∧
      ∀ j, j ≤ n →
        ((List.range' 1 n).foldl (levCell str1 str2 (i + 1) prev)
          (curr.set 0 (i + 1), i + 1)).1.getD j 0 = levFn str1 str2 (i + 1) j := by
  intro n
  induction n with
  | zero =>
    intro _
    refine ⟨by simpa using hl, ?_⟩
    intro j hj
    have : j = 0 := by omega
    subst this
    simp only [List.range'_zero, List.foldl_nil]
    rw [getD_set_self _ _ _ (by omega), levFn_zero_right]
  | succ n ih =>
    intro hn
    obtain ⟨ihl, ihv⟩ := ih (by omega)
    rw [List.range'_concat, List.foldl_append]
    simp only [List.foldl_cons, List.foldl_nil, one_mul]
    have e1 : 1 + n - 1 = n := by omega
    have hcell : ∀ st : List Nat × Nat, st.1.length = str2.length + 1 →
        (∀ j, j ≤ n → st.1.getD j 0 = levFn str1 str2 (i + 1) j) →
        (levCell str1 str2 (i + 1) prev st (1 + n)).1.length = str2.length + 1 ∧
        ∀ j, j ≤ n + 1 → (levCell str1 str2 (i + 1) prev st (1 + n)).1.getD j 0 =
          levFn str1 str2 (i + 1) j := by
      intro st hcl hcv
      have hlt' : 1 + n < st.1.length := by omega
      unfold levCell
      simp only [e1, Nat.add_sub_cancel]
      refine ⟨by simp [hcl], ?_⟩
      intro j hj
      by_cases hjn : j = 1 + n
      · subst hjn
        rw [getD_set_self _ _ _ hlt', hp.2 n (by omega), hp.2 (1 + n) (by omega), hcv n le_rfl]
        have : 1 + n = n + 1 := by omega
        rw [this, levFn_succ_succ]
      · rw [getD_set_other _ _ _ _ (fun e => hjn e.symm)]
        exact hcv j (by omega)
    exact hcell _ ihl ihv

/-- Without early termination the rows end with the row of the recurrence. -/
theorem levRows_spec (str1 str2 : Str) (n : Nat) :
    ∀ (i : Nat) (prev curr res : List Nat), RowIs str2.length (levFn str1 str2 i) prev →
      curr.length = str2.length + 1 →
      levRows str1 str2 (List.range' (i + 1) n) prev curr = some res →
      RowIs str2.length (levFn str1 str2 (i + n)) res := by
  induction n with
  | zero =>
    intro i prev curr res hp _ h
    simp [levRows] at h
    subst h; simpa using hp
  | succ n ih =>
    intro i prev curr res hp hc h
    rw [List.range'_succ] at h
    simp only [levRows] at h
    split at h
    · exact absurd h (by simp)
    · obtain ⟨rl, rv⟩ := levInner_spec str1 str2 i prev curr hp hc str2.length le_rfl
      have := ih (i + 1) _ _ res ⟨rl, rv⟩ hp.1 h
      have e : i + (n + 1) = i + 1 + n := by omega
      rw [e]; exact this

/-- Without early termination the table ends with the value of the recurrence. -/
theorem levTable_eq (str1 str2 : Str) (res : List Nat) (h : levTable str1 str2 = some res) :
    res.getD str2.length 0 = levFn str1 str2 str1.length str2.length := by
  unfold levTable at h
  have hp : RowIs str2.length (levFn str1 str2 0) (List.range (str2.length + 1)) := by
    refine ⟨by simp, ?_⟩
    intro j hj
    rw [List.getD_eq_getElem?_getD, List.getElem?_range (by omega)]
    rfl
  have := levRows_spec str1 str2 str1.length 0 _ _ res hp (by simp) h
  simpa using this.2 str2.length le_rfl

/-- `calculateLevenshteinSimilarity` is symmetric when the early termination is
taken in both orders or in neither. -/
theorem calculateLevenshteinSimilarity_symm (str1 str2 : Str)
    (h : (levTable str1 str2).isSome = (levTable str2 str1).isSome) :
    calculateLevenshteinSimilarity str1 str2 = calculateLevenshteinSimilarity str2 str1 := by
  unfold calculateLevenshteinSimilarity
  cases h1 : levTable str1 str2 with
  | none =>
    cases h2 : levTable str2 str1 with
    | none => rfl
    | some r2 => rw [h1, h2] at h; simp at h
  | some r1 =>
    cases h2 : levTable str2 str1 with
    | none => rw [h1, h2] at h; simp at h
    | some r2 =>
      simp only
      rw [levTable_eq _ _ _ h1, levTable_eq _ _ _ h2, levFn_symm str1 str2 _ _ _ rfl, max_comm]

/-! ### Symmetry of the bigram score and of the prefix bonus -/

/-- `calculateNGramSimilarity` is symmetric. -/
theorem calculateNGramSimilarity_symm (str1 str2 : Str) (n : Nat) :
    calculateNGramSimilarity str1 str2 n = calculateNGramSimilarity str2 str1 n := by
  unfold calculateNGramSimilarity
  simp only
  have e1 : (setOf ((getNGrams str1 n).filter fun x => (getNGrams str2 n).contains x)).length =
      (setOf ((getNGrams str2 n).filter fun x => (getNGrams str1 n).contains x)).length := by
    rw [length_setOf, length_setOf]
    congr 1
    ext x
    simp only [List.mem_toFinset, List.mem_filter, List.contains_eq_any_beq, List.any_eq_true,
      beq_iff_eq]
    constructor
    · rintro ⟨h1, y, hy, rfl⟩
      exact ⟨hy, x, h1, rfl⟩
    · rintro ⟨h1, y, hy, rfl⟩
      exact ⟨hy, x, h1, rfl⟩
  have e2 : (setOf (getNGrams str1 n ++ getNGrams str2 n)).length =
      (setOf (getNGrams str2 n ++ getNGrams str1 n)).length := by
    rw [length_setOf, length_setOf]
    congr 1
    ext x
    simp only [List.mem_toFinset, List.mem_append]
    exact or_comm
  rw [e1, e2]
  by_cases h1 : (getNGrams str1 n).length = 0 <;> by_cases h2 : (getNGrams str2 n).length = 0 <;>
    simp [h1, h2]

theorem commonPrefixLength_symm (str1 str2 : Str) (maxPrefix : Nat) :
    commonPrefixLength str1 str2 maxPrefix = commonPrefixLength str2 str1 maxPrefix := by
  unfold commonPrefixLength
  have : (fun i : Nat => str1[i]? == str2[i]?) = (fun i : Nat => str2[i]? == str1[i]?) := by
    funext i
    by_cases h : str1[i]? = str2[i]?
    · simp [h]
    · have h' : ¬ str2[i]? = str1[i]? := fun e => h e.symm
      simp [h, h']
  rw [this]

/-- `calculateJaroWinklerSimilarity` is symmetric when the Jaro score is. -/
theorem calculateJaroWinklerSimilarity_symm (str1 str2 : Str)
    (h : calculateJaroSimilarity str1 str2 = calculateJaroSimilarity str2 str1) :
    calculateJaroWinklerSimilarity str1 str2 = calculateJaroWinklerSimilarity str2 str1 := by
  unfold calculateJaroWinklerSimilarity
  rw [h, min_comm str1.length]
  simp only [commonPrefixLength_symm str1 str2]

/-! ### The blended score in closed form -/

theorem calculateSimilarity_same (lower : Str → Str) (a : Str) (options : SimilarityOptions) :
    calculateSimilarity lower a a options = some 1 := by
  unfold calculateSimilarity
  by_cases h : a.isEmpty <;> simp [h]

theorem normalizeForSimilarity_default (lower : Str → Str) (s : Str) :
    normalizeForSimilarity lower {} s = specNormalized lower s := by
  simp [normalizeForSimilarity, specNormalized]

/-- Past the trivial cases the default score is the specification's blend of the
normalized strings. -/
theorem calculateSimilarity_eq_specBlend (lower : Str → Str) (a b : Str)
    (ha : a ≠ []) (hb : b ≠ []) (hab : a ≠ b) :
    ∃ jaro jaroWinkler,
      calculateJaroSimilarity (specNormalized lower a) (specNormalized lower b) = some jaro ∧
      calculateJaroWinklerSimilarity (specNormalized lower a) (specNormalized lower b) =
        some jaroWinkler ∧
      calculateSimilarity lower a b =
        some (specBlend (specNormalized lower a) (specNormalized lower b) jaro jaroWinkler) := by
  obtain ⟨j, w, hj, hw, _, _, _, _, h⟩ := calculateSimilarity_of_ne lower a b {} ha hb hab
  rw [normalizeForSimilarity_default, normalizeForSimilarity_default] at hj hw h
  refine ⟨j, w, hj, hw, ?_⟩
  rw [h]
  have e3 : ∀ n : ℕ, ((n : ℚ) < (3 : ℚ)) ↔ n < 3 := fun n => by exact_mod_cast Iff.rfl
  simp only [specBlend, e3]

/-- The blend is symmetric when its Levenshtein component is. -/
theorem specBlend_symm (a' b' : Str) (jaro jaroWinkler : ℚ)
    (hlev : calculateLevenshteinSimilarity a' b' = calculateLevenshteinSimilarity b' a') :
    specBlend a' b' jaro jaroWinkler = specBlend b' a' jaro jaroWinkler := by
  unfold specBlend
  rw [hlev, calculateLCSSimilarity_symm a' b', calculateNGramSimilarity_symm a' b' 2,
    abs_sub_comm, min_comm a'.length]
  have e1 : (a'.length < 3 ∧ b'.length < 3) ↔ (b'.length < 3 ∧ a'.length < 3) := and_comm
  have e2 : (a' = b') ↔ (b' = a') := eq_comm
  simp only [e1, e2]

/-- The Jaro score from the counters of its two passes. -/
theorem calculateJaroSimilarity_eval (str1 str2 : Str) (m t : Nat)
    (h1 : str1 ≠ []) (h2 : str2 ≠ [])
    (hw : 1 ≤ max str1.length str2.length / 2 - 1)
    (hm : (jaroMatchPass str1 str2 (max str1.length str2.length / 2 - 1)).«matches» = m + 1)
    (ht : jaroTranspositions str1 str2
      (jaroMatchPass str1 str2 (max str1.length str2.length / 2 - 1)).str1Matches
      (jaroMatchPass str1 str2 (max str1.length str2.length / 2 - 1)).str2Matches = some t) :
    calculateJaroSimilarity str1 str2 =
      some ((((m + 1 : ℕ) : ℚ) / str1.length + ((m + 1 : ℕ) : ℚ) / str2.length +
        (((m + 1 : ℕ) : ℚ) - (t : ℚ) / 2) / ((m + 1 : ℕ) : ℚ)) / 3) := by
  have l1 : str1.length ≠ 0 := fun e => h1 (List.length_eq_zero.mp e)
  have l2 : str2.length ≠ 0 := fun e => h2 (List.length_eq_zero.mp e)
  have hw' : ¬ (max str1.length str2.length / 2 - 1 < 1) := by omega
  unfold calculateJaroSimilarity
  simp only [l1, l2, hw', hm, ht, and_self, or_self, if_false, Nat.succ_ne_zero]

/-- `calculateSimilarity` returns, and its value lies in `[0, 1]`, for all options. -/
theorem calculateSimilarity_total (lower : Str → Str) (a b : Str) (options : SimilarityOptions) :
    ∃ v, calculateSimilarity lower a b options = some v ∧ 0 ≤ v ∧ v ≤ 1 := by
  by_cases ha : a = []
  · subst ha
    by_cases hb : b = []
    · subst hb
      exact ⟨1, by simp [calculateSimilarity], by norm_num, le_rfl⟩
    · have hb' : b.isEmpty = false := by cases b <;> simp_all
      exact ⟨0, by simp [calculateSimilarity, hb'], le_rfl, by norm_num⟩
  · by_cases hb : b = []
    · subst hb
      have ha' : a.isEmpty = false := by cases a <;> simp_all
      exact ⟨0, by simp [calculateSimilarity, ha'], le_rfl, by norm_num⟩
    · by_cases hab : a = b
      · subst hab
        have ha' : a.isEmpty = false := by cases a <;> simp_all
        exact ⟨1, by simp [calculateSimilarity, ha'], by norm_num, le_rfl⟩
      · obtain ⟨j, w, _, _, hj0, hj1, hw0, hw1, h⟩ :=
          calculateSimilarity_of_ne lower a b options ha hb hab
        refine ⟨_, h, ?_⟩
        have hl := calculateLevenshteinSimilarity_bounds (normalizeForSimilarity lower options a)
          (normalizeForSimilarity lower options b)
        have hc := calculateLCSSimilarity_bounds (normalizeForSimilarity lower options a)
          (normalizeForSimilarity lower options b)
        have hn := calculateNGramSimilarity_bounds (normalizeForSimilarity lower options a)
          (normalizeForSimilarity lower options b) 2
        split
        · split <;> norm_num
        · split
          · norm_num
          · constructor
            · apply div_nonneg _ (by norm_num); linarith [hl.1, hc.1, hn.1]
            · rw [div_le_one (by norm_num)]; linarith [hl.2, hc.2, hn.2]


/-! ### Symmetry of the Jaro metric -/

/-- Two greedy matchings over a symmetric compatibility relation, one built from
each side, are the same matching. -/
theorem greedy_symm (C R R' : Nat → Nat → Prop)
    (hR : ∀ i j, R i j ↔
      C i j ∧ (∀ i', i' < i → ¬ R i' j) ∧ ∀ j', j' < j → C i j' → ∃ i', i' < i ∧ R i' j')
    (hR' : ∀ j i, R' j i ↔
      C i j ∧ (∀ j', j' < j → ¬ R' j' i) ∧ ∀ i', i' < i → C i' j → ∃ j', j' < j ∧ R' j' i') :
    ∀ n i j, i + j = n → (R i j ↔ R' j i) := by
  intro n
  induction n using Nat.strong_induction_on with
  | _ n ih =>
    intro i j hn
    constructor
    · intro h
      obtain ⟨hc, hfree, hleast⟩ := (hR i j).mp h
      refine (hR' j i).mpr ⟨hc, ?_, ?_⟩
      · intro j' hj' h'
        have h1 : R i j' := (ih (i + j') (by omega) i j' rfl).mpr h'
        obtain ⟨i', hi', h2⟩ := hleast j' hj' ((hR i j').mp h1).1
        exact ((hR i j').mp h1).2.1 i' hi' h2
      · intro i' hi' hc'
        -- the least index of `str2` that `i'` can take
        have hex : ∃ x, C i' x ∧ ∀ i'', i'' < i' → ¬ R i'' x :=
          ⟨j, hc', fun i'' hi'' => hfree i'' (by omega)⟩
        classical
        obtain ⟨hcx, hfx⟩ := Nat.find_spec hex
        have hxle : Nat.find hex ≤ j := Nat.find_min' hex ⟨hc', fun i'' hi'' => hfree i'' (by omega)⟩
        have hRx : R i' (Nat.find hex) := by
          refine (hR i' _).mpr ⟨hcx, hfx, ?_⟩
          intro j' hj' hcj'
          by_contra hno
          exact Nat.find_min hex hj' ⟨hcj', fun i'' hi'' hr => hno ⟨i'', hi'', hr⟩⟩
        have hne : Nat.find hex ≠ j := by
          intro e
          rw [e] at hRx
          exact hfree i' hi' hRx
        have hlt : Nat.find hex < j := lt_of_le_of_ne hxle hne
        exact ⟨_, hlt, (ih (i' + Nat.find hex) (by omega) i' _ rfl).mp hRx⟩
    · intro h
      obtain ⟨hc, hfree, hleast⟩ := (hR' j i).mp h
      refine (hR i j).mpr ⟨hc, ?_, ?_⟩
      · intro i' hi' h'
        have h1 : R' j i' := (ih (i' + j) (by omega) i' j rfl).mp h'
        obtain ⟨j', hj', h2⟩ := hleast i' hi' ((hR' j i').mp h1).1
        exact ((hR' j i').mp h1).2.1 j' hj' h2
      · intro j' hj' hc'
        have hex : ∃ x, C x j' ∧ ∀ j'', j'' < j' → ¬ R' j'' x :=
          ⟨i, hc', fun j'' hj'' => hfree j'' (by omega)⟩
        classical
        obtain ⟨hcx, hfx⟩ := Nat.find_spec hex
        have hxle : Nat.find hex ≤ i := Nat.find_min' hex ⟨hc', fun j'' hj'' => hfree j'' (by omega)⟩
        have hRx : R' j' (Nat.find hex) := by
          refine (hR' j' _).mpr ⟨hcx, hfx, ?_⟩
          intro i' hi' hci'
          by_contra hno
          exact Nat.find_min hex hi' ⟨hci', fun j'' hj'' hr => hno ⟨j'', hj'', hr⟩⟩
        have hne : Nat.find hex ≠ i := by
          intro e
          rw [e] at hRx
          exact hfree j' hj' hRx
        have hlt : Nat.find hex < i := lt_of_le_of_ne hxle hne
        exact ⟨_, hlt, (ih (Nat.find hex + j') (by omega) _ j' rfl).mpr hRx⟩

theorem find?_range'_eq_some (p : Nat → Bool) (n : Nat) :
    ∀ s j, (List.range' s n).find? p = some j ↔
      s ≤ j ∧ j < s + n ∧ p j = true ∧ ∀ j', s ≤ j' → j' < j → p j' = false := by
  induction n with
  | zero =>
    intro s j
    simp only [List.range'_zero, List.find?_nil]
    constructor
    · intro h; exact absurd h (by simp)
    · rintro ⟨h1, h2, _⟩
      omega
  | succ n ih =>
    intro s j
    rw [List.range'_succ, List.find?_cons]
    cases hp : p s with
    | true =>
      simp only [Option.some.injEq]
      constructor
      · intro e
        subst e
        exact ⟨le_rfl, by omega, hp, fun j' h1 h2 => absurd h2 (by omega)⟩
      · rintro ⟨h1, _, _, h4⟩
        by_contra hne
        have := h4 s le_rfl (lt_of_le_of_ne h1 hne)
        rw [hp] at this
        exact absurd this (by simp)
    | false =>
      simp only
      rw [ih (s + 1) j]
      constructor
      · rintro ⟨h1, h2, h3, h4⟩
        refine ⟨by omega, by omega, h3, ?_⟩
        intro j' hj1 hj2
        by_cases e : j' = s
        · rw [e]; exact hp
        · exact h4 j' (by omega) hj2
      · rintro ⟨h1, h2, h3, h4⟩
        have hne : s ≠ j := by
          intro e
          rw [e] at hp
          rw [hp] at h3
          exact absurd h3 (by simp)
        exact ⟨by omega, by omega, h3, fun j' hj1 hj2 => h4 j' (by omega) hj2⟩

theorem getD_set_true (l : List Bool) (j x : Nat) (hj : j < l.length) :
    (l.set j true).getD x false = true ↔ (x = j ∨ l.getD x false = true) := by
  rw [List.getD_eq_getElem?_getD, List.getD_eq_getElem?_getD, List.getElem?_set]
  by_cases h : j = x
  · subst h
    simp [hj]
  · have h' : ¬ x = j := fun e => h e.symm
    simp [h, h']

theorem jaroStateAt_succ (str1 str2 : Str) (w i : Nat) :
    jaroStateAt str1 str2 w (i + 1) =
      match jaroPartner str1 str2 w i with
      | some j =>
        ⟨(jaroStateAt str1 str2 w i).str1Matches.set i true,
          (jaroStateAt str1 str2 w i).str2Matches.set j true,
          (jaroStateAt str1 str2 w i).«matches» + 1⟩
      | none => jaroStateAt str1 str2 w i := by
  unfold jaroStateAt jaroPartner
  rw [List.range_succ, List.foldl_append]
  rfl

theorem jaroStateAt_inv (str1 str2 : Str) (w i : Nat) (hi : i ≤ str1.length) :
    JaroInv str1.length str2.length i (jaroStateAt str1 str2 w i) :=
  jaroMatchPass_inv_aux str1 str2 w i hi

theorem jaroPartner_lt (str1 str2 : Str) (w i j : Nat)
    (h : jaroPartner str1 str2 w i = some j) : j < str2.length := by
  unfold jaroPartner at h
  exact lt_of_lt_of_le (jaroFind_some h).1 (min_le_right _ _)

/-- An index of `str2` is marked before iteration `i` exactly when an earlier
iteration chose it. -/
theorem jaroStateAt_str2Matches (str1 str2 : Str) (w : Nat) :
    ∀ i, i ≤ str1.length → ∀ j,
      ((jaroStateAt str1 str2 w i).str2Matches.getD j false = true ↔
        ∃ i', i' < i ∧ jaroPartner str1 str2 w i' = some j) := by
  intro i
  induction i with
  | zero =>
    intro _ j
    have : (jaroStateAt str1 str2 w 0).str2Matches.getD j false = false := by
      unfold jaroStateAt
      simp only [List.range_zero, List.foldl_nil]
      rw [List.getD_eq_getElem?_getD, List.getElem?_replicate]
      split <;> simp
    rw [this]
    simp
  | succ i ih =>
    intro hi j
    have ih' := ih (by omega) j
    have inv := jaroStateAt_inv str1 str2 w i (by omega)
    rw [jaroStateAt_succ]
    cases hp : jaroPartner str1 str2 w i with
    | none =>
      simp only
      rw [ih']
      constructor
      · rintro ⟨i', h1, h2⟩
        exact ⟨i', by omega, h2⟩
      · rintro ⟨i', h1, h2⟩
        by_cases e : i' = i
        · rw [e, hp] at h2
          exact absurd h2 (by simp)
        · exact ⟨i', by omega, h2⟩
    | some j0 =>
      simp only
      have hj0 : j0 < (jaroStateAt str1 str2 w i).str2Matches.length := by
        rw [inv.len2_eq]
        exact jaroPartner_lt str1 str2 w i j0 hp
      rw [getD_set_true _ _ _ hj0, ih']
      constructor
      · rintro (e | ⟨i', h1, h2⟩)
        · exact ⟨i, by omega, by rw [hp, e]⟩
        · exact ⟨i', by omega, h2⟩
      · rintro ⟨i', h1, h2⟩
        by_cases e : i' = i
        · rw [e, hp] at h2
          exact Or.inl (Option.some.inj h2).symm
        · exact Or.inr ⟨i', by omega, h2⟩

/-- An index of `str1` is marked before iteration `i` exactly when it is an
earlier iteration that found a partner. -/
theorem jaroStateAt_str1Matches (str1 str2 : Str) (w : Nat) :
    ∀ i, i ≤ str1.length → ∀ x,
      ((jaroStateAt str1 str2 w i).str1Matches.getD x false = true ↔
        x < i ∧ ∃ j, jaroPartner str1 str2 w x = some j) := by
  intro i
  induction i with
  | zero =>
    intro _ x
    have : (jaroStateAt str1 str2 w 0).str1Matches.getD x false = false := by
      unfold jaroStateAt
      simp only [List.range_zero, List.foldl_nil]
      rw [List.getD_eq_getElem?_getD, List.getElem?_replicate]
      split <;> simp
    rw [this]
    simp
  | succ i ih =>
    intro hi x
    have ih' := ih (by omega) x
    have inv := jaroStateAt_inv str1 str2 w i (by omega)
    rw [jaroStateAt_succ]
    cases hp : jaroPartner str1 str2 w i with
    | none =>
      simp only
      rw [ih']
      constructor
      · rintro ⟨h1, h2⟩
        exact ⟨by omega, h2⟩
      · rintro ⟨h1, j, h2⟩
        by_cases e : x = i
        · rw [e, hp] at h2
          exact absurd h2 (by simp)
        · exact ⟨by omega, j, h2⟩
    | some j0 =>
      simp only
      have hi0 : i < (jaroStateAt str1 str2 w i).str1Matches.length := by
        rw [inv.len1_eq]; omega
      rw [getD_set_true _ _ _ hi0, ih']
      constructor
      · rintro (e | ⟨h1, h2⟩)
        · exact ⟨by omega, j0, by rw [e, hp]⟩
        · exact ⟨by omega, h2⟩
      · rintro ⟨h1, h2⟩
        by_cases e : x = i
        · exact Or.inl e
        · exact Or.inr ⟨by omega, h2⟩

/-- The matching pass is greedy: `i` takes the least compatible index of `str2`
that no earlier index of `str1` has taken. -/
theorem jaroMatched_iff (str1 str2 : Str) (w i j : Nat) :
    JaroMatched str1 str2 w i j ↔
      JaroCompat str1 str2 w i j ∧ (∀ i', i' < i → ¬ JaroMatched str1 str2 w i' j) ∧
        ∀ j', j' < j → JaroCompat str1 str2 w i j' →
          ∃ i', i' < i ∧ JaroMatched str1 str2 w i' j' := by
  unfold JaroMatched JaroCompat
  by_cases hi : i < str1.length
  swap
  · simp [hi]
  have hmark := jaroStateAt_str2Matches str1 str2 w i (by omega)
  have hfalse : ∀ x, (jaroStateAt str1 str2 w i).str2Matches.getD x false = false ↔
      ¬ ∃ i', i' < i ∧ jaroPartner str1 str2 w i' = some x := by
    intro x
    rw [← hmark x]
    simp
  unfold jaroPartner jaroFind
  rw [find?_range'_eq_some]
  simp only [Bool.not_eq_true', Bool.or_eq_false_iff, bne_eq_false_iff_eq, Bool.not_eq_false',
    Bool.or_eq_true, bne_iff_ne, ne_eq, hi, true_and]
  constructor
  · rintro ⟨h1, h2, ⟨h3, h4⟩, h5⟩
    have hj2 : j < str2.length := by omega
    refine ⟨⟨hj2, by omega, by omega, h4⟩, ?_, ?_⟩
    · intro i' hi' hm
      exact (hfalse j).mp h3 ⟨i', hi', hm.2⟩
    · intro j' hj' hc
      rcases h5 j' (by omega) hj' with hm | hne
      · obtain ⟨i', h6, h7⟩ := (hmark j').mp hm
        exact ⟨i', h6, by omega, h7⟩
      · exact absurd hc.2.2.2 hne
  · rintro ⟨⟨hj2, hc1, hc2, hc3⟩, hfree, hleast⟩
    refine ⟨by omega, by omega, ⟨?_, hc3⟩, ?_⟩
    · rw [hfalse j]
      rintro ⟨i', h6, h7⟩
      exact hfree i' h6 ⟨by omega, h7⟩
    · intro j' hj1 hj2'
      by_cases hcj : str1[i]? = str2[j']?
      · left
        obtain ⟨i', h6, h7⟩ := hleast j' hj2' ⟨by omega, by omega, by omega, hcj⟩
        exact (hmark j').mpr ⟨i', h6, h7.2⟩
      · right; exact hcj

theorem jaroCompat_symm (str1 str2 : Str) (w i j : Nat) :
    JaroCompat str2 str1 w j i ↔ JaroCompat str1 str2 w i j := by
  unfold JaroCompat
  constructor
  · rintro ⟨h1, h2, h3, h4, h5⟩
    exact ⟨h2, h1, h4, h3, h5.symm⟩
  · rintro ⟨h1, h2, h3, h4, h5⟩
    exact ⟨h2, h1, h4, h3, h5.symm⟩

/-- The matching pass finds the same pairs from either side. -/
theorem jaroMatched_symm (str1 str2 : Str) (w i j : Nat) :
    JaroMatched str1 str2 w i j ↔ JaroMatched str2 str1 w j i := by
  refine greedy_symm (JaroCompat str1 str2 w) (JaroMatched str1 str2 w)
    (JaroMatched str2 str1 w) (jaroMatched_iff str1 str2 w) ?_ (i + j) i j rfl
  intro j i
  rw [jaroMatched_iff str2 str1 w j i, jaroCompat_symm]
  constructor
  · rintro ⟨h1, h2, h3⟩
    exact ⟨h1, h2, fun i' hi' hc => h3 i' hi' ((jaroCompat_symm str1 str2 w i' j).mpr hc)⟩
  · rintro ⟨h1, h2, h3⟩
    exact ⟨h1, h2, fun i' hi' hc => h3 i' hi' ((jaroCompat_symm str1 str2 w i' j).mp hc)⟩

theorem bool_list_ext (l1 l2 : List Bool) (hl : l1.length = l2.length)
    (h : ∀ x, l1.getD x false = true ↔ l2.getD x false = true) : l1 = l2 := by
  apply List.ext_getElem? 
  intro x
  have hx := h x
  rw [List.getD_eq_getElem?_getD, List.getD_eq_getElem?_getD] at hx
  by_cases h1 : x < l1.length
  · have h2 : x < l2.length := by omega
    rw [List.getElem?_eq_getElem h1, List.getElem?_eq_getElem h2] at hx ⊢
    simp only [Option.getD_some] at hx
    congr 1
    cases ha : l1[x] <;> cases hb : l2[x] <;> simp_all
  · have h2 : ¬ x < l2.length := by omega
    rw [List.getElem?_eq_none (by omega), List.getElem?_eq_none (by omega)]

theorem jaroMatchPass_eq_stateAt (str1 str2 : Str) (w : Nat) :
    jaroMatchPass str1 str2 w = jaroStateAt str1 str2 w str1.length := rfl

/-- The marks left on `str1` by the pass over `(str1, str2)` are the marks left
on it by the pass over `(str2, str1)`. -/
theorem jaroMatchPass_marks_symm (str1 str2 : Str) (w : Nat) :
    (jaroMatchPass str1 str2 w).str1Matches = (jaroMatchPass str2 str1 w).str2Matches := by
  rw [jaroMatchPass_eq_stateAt, jaroMatchPass_eq_stateAt]
  have inv1 := jaroStateAt_inv str1 str2 w str1.length le_rfl
  have inv2 := jaroStateAt_inv str2 str1 w str2.length le_rfl
  apply bool_list_ext
  · rw [inv1.len1_eq, inv2.len2_eq]
  · intro x
    rw [jaroStateAt_str1Matches str1 str2 w str1.length le_rfl x,
      jaroStateAt_str2Matches str2 str1 w str2.length le_rfl x]
    constructor
    · rintro ⟨h1, j, h2⟩
      have := (jaroMatched_symm str1 str2 w x j).mp ⟨h1, h2⟩
      exact ⟨j, this.1, this.2⟩
    · rintro ⟨j, h1, h2⟩
      have := (jaroMatched_symm str1 str2 w x j).mpr ⟨h1, h2⟩
      exact ⟨this.1, j, this.2⟩

theorem mismatches_symm (xs ys : List (Option Nat)) : mismatches xs ys = mismatches ys xs := by
  induction xs generalizing ys with
  | nil => cases ys <;> rfl
  | cons a as ih =>
    cases ys with
    | nil => rfl
    | cons b bs =>
      simp only [mismatches]
      rw [ih bs]
      by_cases h : a = b
      · simp [h]
      · have h' : ¬ b = a := fun e => h e.symm
        simp [h, h']

/-- From `k` on, the marked code units start with the one the loop
`while (!str2Matches[k]) k++` stops at. -/
theorem jaroMarked_skip (m2 : List Bool) (str2 : Str) (k' : Nat) (hk' : k' < m2.length)
    (hm : m2.getD k' false = true) :
    ∀ d k, k + d = m2.length → k ≤ k' →
      (∀ x, k ≤ x → x < k' → m2.getD x false = false) →
      jaroMarked m2 str2 d k =
        str2[k']? :: jaroMarked m2 str2 (m2.length - (k' + 1)) (k' + 1) := by
  intro d
  induction d with
  | zero => intro k h1 h2 _; omega
  | succ d ih =>
    intro k h1 h2 h3
    by_cases e : k = k'
    · subst e
      have : m2.length - (k + 1) = d := by omega
      rw [this]
      simp only [jaroMarked, hm, if_true]
    · have hf := h3 k le_rfl (by omega)
      have := ih (k + 1) (by omega) (by omega) (fun x hx1 hx2 => h3 x (by omega) hx2)
      simp only [jaroMarked, hf, Bool.false_eq_true, if_false]
      exact this

theorem jaroSkip_spec (m2 : List Bool) (k k' : Nat) (h : jaroSkip m2 k = some k') :
    k ≤ k' ∧ k' < m2.length ∧ m2.getD k' false = true ∧
      ∀ x, k ≤ x → x < k' → m2.getD x false = false := by
  unfold jaroSkip at h
  rw [find?_range'_eq_some] at h
  obtain ⟨h1, h2, h3, h4⟩ := h
  exact ⟨h1, by omega, h3, h4⟩

/-- The transposition pass counts the mismatches between the marked code units of
the two strings, taken in order. -/
theorem jaroTransPass_eq (str1 str2 : Str) (m1 m2 : List Bool) :
    ∀ d i k t, i + d = m1.length → (m1.drop i).count true ≤ (m2.drop k).count true →
      ∃ k', (List.range' i d).foldl (jaroTransStep str1 str2 m1 m2) (some (k, t)) =
        some (k', t + mismatches (jaroMarked m1 str1 d i)
          (jaroMarked m2 str2 (m2.length - k) k)) := by
  intro d
  induction d with
  | zero =>
    intro i k t _ _
    exact ⟨k, by simp [jaroMarked, mismatches]⟩
  | succ d ih =>
    intro i k t hi hc
    have hlt : i < m1.length := by omega
    have hdrop := List.drop_eq_getElem_cons hlt
    have hget : m1.getD i false = m1[i] := by
      rw [List.getD_eq_getElem?_getD, List.getElem?_eq_getElem hlt]; rfl
    rw [List.range'_succ, List.foldl_cons]
    by_cases hb : m1[i] = true
    · rw [hdrop, hb] at hc
      simp only [List.count_cons_self] at hc
      obtain ⟨k', hk', _, hcnt⟩ := jaroSkip_of_count m2 _ k rfl (by omega)
      obtain ⟨s1, s2, s3, s4⟩ := jaroSkip_spec m2 k k' hk'
      have hstep : jaroTransStep str1 str2 m1 m2 (some (k, t)) i =
          some (k' + 1, if str1[i]? != str2[k']? then t + 1 else t) := by
        simp only [jaroTransStep, hget, hb, hk']
        rfl
      rw [hstep]
      obtain ⟨k'', hk''⟩ := ih (i + 1) (k' + 1) (if str1[i]? != str2[k']? then t + 1 else t)
        (by omega) (by omega)
      refine ⟨k'', ?_⟩
      rw [hk'']
      have hm1 : jaroMarked m1 str1 (d + 1) i = str1[i]? :: jaroMarked m1 str1 d (i + 1) := by
        simp only [jaroMarked, hget, hb, if_true]
      rw [hm1, jaroMarked_skip m2 str2 k' s2 s3 (m2.length - k) k (by omega) s1 s4]
      simp only [mismatches]
      congr 2
      split <;> omega
    · have hb' : m1[i] = false := by simpa using hb
      rw [hdrop, hb'] at hc
      have hstep : jaroTransStep str1 str2 m1 m2 (some (k, t)) i = some (k, t) := by
        simp only [jaroTransStep, hget, hb', Bool.not_false, if_true]
      rw [hstep]
      obtain ⟨k'', hk''⟩ := ih (i + 1) k t (by omega) (by simpa using hc)
      refine ⟨k'', ?_⟩
      rw [hk'']
      have hm1 : jaroMarked m1 str1 (d + 1) i = jaroMarked m1 str1 d (i + 1) := by
        simp only [jaroMarked, hget, hb', Bool.false_eq_true, if_false]
      rw [hm1]

theorem jaroTranspositions_eq (str1 str2 : Str) (m1 m2 : List Bool)
    (hl : m1.length = str1.length) (hc : m1.count true ≤ m2.count true) :
    jaroTranspositions str1 str2 m1 m2 =
      some (mismatches (jaroMarked m1 str1 m1.length 0) (jaroMarked m2 str2 m2.length 0)) := by
  obtain ⟨k', hk'⟩ := jaroTransPass_eq str1 str2 m1 m2 m1.length 0 0 0 (by omega)
    (by simpa using hc)
  unfold jaroTranspositions
  rw [List.range_eq_range', ← hl, hk']
  simp

/-- `calculateJaroSimilarity` is symmetric. -/
theorem calculateJaroSimilarity_symm (str1 str2 : Str) :
    calculateJaroSimilarity str1 str2 = calculateJaroSimilarity str2 str1 := by
  unfold calculateJaroSimilarity
  simp only
  rw [max_comm str2.length str1.length]
  have inv1 := jaroMatchPass_inv str1 str2 (max str1.length str2.length / 2 - 1)
  have inv2 := jaroMatchPass_inv str2 str1 (max str1.length str2.length / 2 - 1)
  have hm1 := jaroMatchPass_marks_symm str1 str2 (max str1.length str2.length / 2 - 1)
  have hm2 := jaroMatchPass_marks_symm str2 str1 (max str1.length str2.length / 2 - 1)
  have hmatches : (jaroMatchPass str2 str1 (max str1.length str2.length / 2 - 1)).«matches» =
      (jaroMatchPass str1 str2 (max str1.length str2.length / 2 - 1)).«matches» := by
    rw [← inv2.count2, ← hm1, inv1.count1]
  have ht1 := jaroTranspositions_eq str1 str2 _ _ inv1.len1_eq
    (le_of_eq (inv1.count1.trans inv1.count2.symm))
  have ht2 := jaroTranspositions_eq str2 str1 _ _ inv2.len1_eq
    (le_of_eq (inv2.count1.trans inv2.count2.symm))
  rw [ht1, ht2, hmatches, ← hm1, hm2,
    mismatches_symm (jaroMarked _ str2 _ 0)]
  have e1 : (str1.length = 0 ∧ str2.length = 0) ↔ (str2.length = 0 ∧ str1.length = 0) := and_comm
  have e2 : (str1.length = 0 ∨ str2.length = 0) ↔ (str2.length = 0 ∨ str1.length = 0) := or_comm
  have e3 : (str1 = str2) ↔ (str2 = str1) := eq_comm
  simp only [e1, e2, e3]
  have e4 : ∀ (m : ℚ) (a b c : ℚ), (m / a + m / b + c) / 3 = (m / b + m / a + c) / 3 := by
    intro m a b c; ring
  simp only [e4 _ (str1.length : ℚ)]

/-! ### The counters of the matcher never run out -/

theorem orElse_none_right (x : Option MState) : (x.orElse fun _ => none) = x := by
  cases x <;> rfl

theorem starLoop_fail (m : Matcher) (greedy : Bool)
    (hm : ∀ st k, (∀ s, k s = none) → m st k = none) :
    ∀ n st k, (∀ s, k s = none) → starLoop m greedy n st k = none := by
  intro n
  induction n with
  | zero => intro st k hk; exact hk st
  | succ n ih =>
    intro st k hk
    have hc : m st (fun st' =>
        if st'.rest.length < st.rest.length then starLoop m greedy n st' k else none) = none := by
      apply hm
      intro s
      split
      · exact ih s k hk
      · rfl
    cases greedy <;> simp [starLoop, hc, hk st]

/-- A matcher whose continuation always fails, fails. -/
theorem Re.run_fail (re : Re) : ∀ st k, (∀ s, k s = none) → re.run st k = none := by
  induction re with
  | eps => intro st k hk; exact hk st
  | cls p =>
    intro st k hk
    simp only [Re.run]
    split
    · rfl
    · split
      · exact hk _
      · rfl
  | wordB =>
    intro st k hk
    simp only [Re.run]
    split
    · exact hk _
    · rfl
  | seq a b iha ihb =>
    intro st k hk
    simp only [Re.run]
    exact iha st _ (fun s => ihb s k hk)
  | alt a b iha ihb =>
    intro st k hk
    simp only [Re.run, iha st k hk, ihb st k hk]
    rfl
  | star a iha =>
    intro st k hk
    simp only [Re.run]
    exact starLoop_fail _ true (fun s c hc => iha s c hc) _ st k hk
  | lazyStar a iha =>
    intro st k hk
    simp only [Re.run]
    exact starLoop_fail _ false (fun s c hc => iha s c hc) _ st k hk
  | group a iha =>
    intro st k hk
    simp only [Re.run]
    exact iha st _ (fun s => hk _)

theorem starLoop_of_length_zero (m : Matcher) (greedy : Bool)
    (hm : ∀ st k, (∀ s, k s = none) → m st k = none) (n : Nat) (st : MState)
    (k : MState → Option MState) (h0 : st.rest.length = 0) :
    starLoop m greedy n st k = k st := by
  cases n with
  | zero => rfl
  | succ n =>
    have hc : m st (fun st' =>
        if st'.rest.length < st.rest.length then starLoop m greedy n st' k else none) = none := by
      apply hm
      intro s
      rw [h0]
      simp
    cases greedy
    · simp only [starLoop, hc, Bool.false_eq_true, if_false]
      exact orElse_none_right _
    · simp only [starLoop, hc, if_true]
      rfl

/-- A repetition gives the same result with any counter that is at least the
length of the remaining input: the counter of `Re.run` never runs out. -/
theorem starLoop_fuel (m : Matcher) (greedy : Bool)
    (hm : ∀ st k, (∀ s, k s = none) → m st k = none) :
    ∀ n n' st k, st.rest.length ≤ n → st.rest.length ≤ n' →
      starLoop m greedy n st k = starLoop m greedy n' st k := by
  intro n
  induction n with
  | zero =>
    intro n' st k h1 _
    rw [starLoop_of_length_zero m greedy hm 0 st k (by omega),
      starLoop_of_length_zero m greedy hm n' st k (by omega)]
  | succ n ih =>
    intro n' st k h1 h2
    cases n' with
    | zero =>
      rw [starLoop_of_length_zero m greedy hm (n + 1) st k (by omega),
        starLoop_of_length_zero m greedy hm 0 st k (by omega)]
    | succ n' =>
      have hk : (fun st' : MState =>
          if st'.rest.length < st.rest.length then starLoop m greedy n st' k else none) =
          (fun st' : MState =>
          if st'.rest.length < st.rest.length then starLoop m greedy n' st' k else none) := by
        funext st'
        split
        · exact ih n' st' k (by omega) (by omega)
        · rfl
      simp only [starLoop, hk]

/-- The scan of `replaceAll` gives the same result with any counter above the
length of the remaining input: the counter of `replaceAll` never runs out. -/
theorem replaceLoop_fuel (re : Re) (f : Str → Str) :
    ∀ n n' prev rest, rest.length < n → rest.length < n' →
      replaceLoop re f n prev rest = replaceLoop re f n' prev rest := by
  intro n
  induction n with
  | zero => intro n' prev rest h; omega
  | succ n ih =>
    intro n' prev rest h1 h2
    cases n' with
    | zero => omega
    | succ n' =>
      simp only [replaceLoop]
      cases hm : re.matchAt prev rest with
      | none =>
        cases rest with
        | nil => rfl
        | cons c cs =>
          simp only
          rw [ih n' (some c) cs (by simpa using h1) (by simpa using h2)]
      | some r =>
        obtain ⟨mt, st⟩ := r
        simp only
        have hmt : mt = rest.take (rest.length - st.rest.length) := by
          unfold Re.matchAt at hm
          split at hm
          · cases hm; rfl
          · exact absurd hm (by simp)
        by_cases he : mt.isEmpty = true
        · simp only [he, if_true]
          cases rest with
          | nil => rfl
          | cons c cs =>
            simp only
            rw [ih n' (some c) cs (by simpa using h1) (by simpa using h2)]
        · simp only [he, Bool.false_eq_true, if_false]
          have hlen : st.rest.length < rest.length := by
            by_contra hge
            apply he
            have : rest.length - st.rest.length = 0 := by omega
            rw [hmt, this]
            rfl
          rw [ih n' st.prev st.rest (by omega) (by omega)]

/-! ### The chunk matcher in closed form -/

/-- What it means for a pair of chunks to qualify. -/
theorem chunkPairQualifies_iff (lower : Str → Str)
    (processedDuplicates : List ProcessedDuplicate) (chunk1 chunk2 : CodeChunk) :
    chunkPairQualifies lower processedDuplicates (chunk1, chunk2) = true ↔
      rangesOverlap chunk1.range chunk2.range = false ∧
      isDuplicateProcessed processedDuplicates chunk1.range chunk2.range = false ∧
      30 ≤ (normalizeCodeForComparison chunk1.code).length ∧
      30 ≤ (normalizeCodeForComparison chunk2.code).length ∧
      ∃ similarity, calculateSimilarity lower (normalizeCodeForComparison chunk1.code)
        (normalizeCodeForComparison chunk2.code) = some similarity ∧ similarity > 0.85 := by
  unfold chunkPairQualifies
  simp only [Bool.and_eq_true, Bool.not_eq_true', decide_eq_true_eq, and_assoc]
  constructor
  · rintro ⟨h1, h2, h3, h4, h5⟩
    refine ⟨h1, h2, h3, h4, ?_⟩
    split at h5
    · rename_i similarity hs
      exact ⟨similarity, hs, by simpa using h5⟩
    · exact absurd h5 (by simp)
  · rintro ⟨h1, h2, h3, h4, similarity, hs, h5⟩
    refine ⟨h1, h2, h3, h4, ?_⟩
    rw [hs]
    simpa using h5

theorem findNextCodeDuplicateInner_cons (lower : Str → Str)
    (processedDuplicates : List ProcessedDuplicate) (chunk1 chunk2 : CodeChunk)
    (rest : List CodeChunk) :
    findNextCodeDuplicateInner lower processedDuplicates chunk1 (chunk2 :: rest) =
      if rangesOverlap chunk1.range chunk2.range then
        findNextCodeDuplicateInner lower processedDuplicates chunk1 rest
      else if isDuplicateProcessed processedDuplicates chunk1.range chunk2.range then
        findNextCodeDuplicateInner lower processedDuplicates chunk1 rest
      else if (normalizeCodeForComparison chunk1.code).length < 30 ∨
          (normalizeCodeForComparison chunk2.code).length < 30 then
        findNextCodeDuplicateInner lower processedDuplicates chunk1 rest
      else
        match calculateSimilarity lower (normalizeCodeForComparison chunk1.code)
            (normalizeCodeForComparison chunk2.code) with
        | none => none
        | some similarity =>
          if similarity > 0.85 then some (some chunk2)
          else findNextCodeDuplicateInner lower processedDuplicates chunk1 rest := rfl

theorem findNextCodeDuplicateOuter_cons (lower : Str → Str)
    (processedDuplicates : List ProcessedDuplicate) (chunk1 : CodeChunk)
    (rest : List CodeChunk) :
    findNextCodeDuplicateOuter lower processedDuplicates (chunk1 :: rest) =
      match findNextCodeDuplicateInner lower processedDuplicates chunk1 rest with
      | none => none
      | some (some chunk2) => some (some (chunk1, chunk2))
      | some none => findNextCodeDuplicateOuter lower processedDuplicates rest := rfl

theorem findNextCodeDuplicateInner_eq (lower : Str → Str)
    (processedDuplicates : List ProcessedDuplicate) (chunk1 : CodeChunk) (rest : List CodeChunk) :
    findNextCodeDuplicateInner lower processedDuplicates chunk1 rest =
      some (rest.find? fun chunk2 =>
        chunkPairQualifies lower processedDuplicates (chunk1, chunk2)) := by
  induction rest with
  | nil => rfl
  | cons chunk2 rest ih =>
    obtain ⟨s, hs, _, _⟩ := calculateSimilarity_total lower
      (normalizeCodeForComparison chunk1.code) (normalizeCodeForComparison chunk2.code) {}
    have hq := chunkPairQualifies_iff lower processedDuplicates chunk1 chunk2
    rw [findNextCodeDuplicateInner_cons]
    by_cases hyes : chunkPairQualifies lower processedDuplicates (chunk1, chunk2) = true
    · obtain ⟨h1, h2, h3, h4, s', hs', h5⟩ := hq.mp hyes
      rw [hs] at hs'
      cases hs'
      rw [List.find?_cons_of_pos
          (p := fun c => chunkPairQualifies lower processedDuplicates (chunk1, c)) _ hyes, if_neg (by simp [h1]), if_neg (by simp [h2]),
        if_neg (by omega), hs]
      simp only
      rw [if_pos h5]
    · rw [List.find?_cons_of_neg
        (p := fun c => chunkPairQualifies lower processedDuplicates (chunk1, c)) _ hyes, ← ih]
      by_cases h1 : rangesOverlap chunk1.range chunk2.range = true
      · rw [if_pos h1]
      rw [if_neg h1]
      by_cases h2 : isDuplicateProcessed processedDuplicates chunk1.range chunk2.range = true
      · rw [if_pos h2]
      rw [if_neg h2]
      by_cases h3 : (normalizeCodeForComparison chunk1.code).length < 30 ∨
          (normalizeCodeForComparison chunk2.code).length < 30
      · rw [if_pos h3]
      rw [if_neg h3, hs]
      simp only
      by_cases h5 : s > 0.85
      · exfalso
        apply hyes
        exact hq.mpr ⟨by simpa using h1, by simpa using h2, by omega, by omega, s, hs, h5⟩
      · rw [if_neg h5]

theorem findNextCodeDuplicateOuter_eq (lower : Str → Str)
    (processedDuplicates : List ProcessedDuplicate) (chunks : List CodeChunk) :
    findNextCodeDuplicateOuter lower processedDuplicates chunks =
      some ((orderedPairs chunks).find? (chunkPairQualifies lower processedDuplicates)) := by
  induction chunks with
  | nil => rfl
  | cons chunk1 rest ih =>
    rw [findNextCodeDuplicateOuter_cons, findNextCodeDuplicateInner_eq, orderedPairs,
      List.find?_append, List.find?_map]
    have hc : (chunkPairQualifies lower processedDuplicates ∘ fun y => (chunk1, y)) =
        fun chunk2 => chunkPairQualifies lower processedDuplicates (chunk1, chunk2) := rfl
    rw [hc]
    cases h : rest.find? fun chunk2 =>
        chunkPairQualifies lower processedDuplicates (chunk1, chunk2) with
    | none =>
      simp only [Option.map_none', Option.none_or]
      exact ih
    | some chunk2 =>
      simp only [Option.map_some', Option.or_some]

/-- `findNextCodeDuplicate` returns, and returns what the specification says. -/
theorem findNextCodeDuplicate_eq (lower : Str → Str) (chunks : List CodeChunk)
    (processedDuplicates : List ProcessedDuplicate) :
    findNextCodeDuplicate lower chunks processedDuplicates =
      some (specFindNext lower chunks processedDuplicates) := by
  unfold findNextCodeDuplicate specFindNext
  rw [findNextCodeDuplicateOuter_eq]
  cases (orderedPairs chunks).find? (chunkPairQualifies lower processedDuplicates) with
  | none => rfl
  | some p => rfl

/-! ### The function matcher in closed form -/

theorem findDuplicateFunctionsInner_cons (lower : Str → Str) (func1 func2 : FunctionInfo)
    (rest : List FunctionInfo) (duplicates : List DuplicateFunction) :
    findDuplicateFunctionsInner lower func1 (func2 :: rest) duplicates =
      if func1.name = func2.name then findDuplicateFunctionsInner lower func1 rest duplicates
      else
        match calculateSimilarity lower func1.normalizedBody func2.normalizedBody with
        | none => none
        | some similarity =>
          if similarity > 0.95 then
            findDuplicateFunctionsInner lower func1 rest
              (duplicates ++ [⟨func1.name, func1.range, func2.name, func2.range⟩])
          else findDuplicateFunctionsInner lower func1 rest duplicates := rfl

theorem findDuplicateFunctionsOuter_cons (lower : Str → Str) (func1 : FunctionInfo)
    (rest : List FunctionInfo) (duplicates : List DuplicateFunction) :
    findDuplicateFunctionsOuter lower (func1 :: rest) duplicates =
      match findDuplicateFunctionsInner lower func1 rest duplicates with
      | none => none
      | some duplicates' => findDuplicateFunctionsOuter lower rest duplicates' := rfl

theorem functionsMatch_iff (lower : Str → Str) (func1 func2 : FunctionInfo) :
    functionsMatch lower func1 func2 = true ↔
      func1.name ≠ func2.name ∧
      ∃ similarity, calculateSimilarity lower func1.normalizedBody func2.normalizedBody =
        some similarity ∧ similarity > 0.95 := by
  unfold functionsMatch similarityExceeds
  simp only [Bool.and_eq_true, bne_iff_ne, ne_eq]
  constructor
  · rintro ⟨h1, h2⟩
    refine ⟨h1, ?_⟩
    split at h2
    · rename_i similarity hs
      exact ⟨similarity, hs, by simpa using h2⟩
    · exact absurd h2 (by simp)
  · rintro ⟨h1, similarity, hs, h2⟩
    refine ⟨h1, ?_⟩
    rw [hs]
    simpa using h2

theorem findDuplicateFunctionsInner_eq (lower : Str → Str) (func1 : FunctionInfo)
    (rest : List FunctionInfo) :
    ∀ duplicates, findDuplicateFunctionsInner lower func1 rest duplicates =
      some (duplicates ++
        ((rest.filter fun func2 => functionsMatch lower func1 func2).map
          fun func2 => functionPair func1 func2)) := by
  induction rest with
  | nil => intro duplicates; simp [findDuplicateFunctionsInner]
  | cons func2 rest ih =>
    intro duplicates
    obtain ⟨s, hs, _, _⟩ := calculateSimilarity_total lower func1.normalizedBody
      func2.normalizedBody {}
    have hm := functionsMatch_iff lower func1 func2
    rw [findDuplicateFunctionsInner_cons]
    by_cases hyes : functionsMatch lower func1 func2 = true
    · obtain ⟨h1, s', hs', h2⟩ := hm.mp hyes
      rw [hs] at hs'
      cases hs'
      rw [if_neg h1, hs]
      simp only
      rw [if_pos h2, ih, List.filter_cons_of_pos (p := fun f => functionsMatch lower func1 f) hyes]
      simp [functionPair]
    · rw [List.filter_cons_of_neg (p := fun f => functionsMatch lower func1 f) hyes]
      by_cases h1 : func1.name = func2.name
      · rw [if_pos h1, ih]
      · rw [if_neg h1, hs]
        simp only
        by_cases h2 : s > 0.95
        · exact absurd (hm.mpr ⟨h1, s, hs, h2⟩) hyes
        · rw [if_neg h2, ih]

theorem findDuplicateFunctionsOuter_eq (lower : Str → Str) (functions : List FunctionInfo) :
    ∀ duplicates, findDuplicateFunctionsOuter lower functions duplicates =
      some (duplicates ++ specDuplicateFunctions lower functions) := by
  induction functions with
  | nil => intro duplicates; simp [findDuplicateFunctionsOuter, specDuplicateFunctions, orderedPairs]
  | cons func1 rest ih =>
    intro duplicates
    rw [findDuplicateFunctionsOuter_cons, findDuplicateFunctionsInner_eq]
    simp only
    rw [ih]
    simp only [specDuplicateFunctions, orderedPairs, List.filter_append, List.map_append,
      List.filter_map, List.map_map, List.append_assoc]
    rfl

/-- `findDuplicateFunctions` returns, and returns the matching pairs in order. -/
theorem findDuplicateFunctions_eq (lower : Str → Str) (functions : List FunctionInfo) :
    findDuplicateFunctions lower functions = some (specDuplicateFunctions lower functions) := by
  unfold findDuplicateFunctions
  rw [findDuplicateFunctionsOuter_eq]
  simp

/-! ### The session tracker under repeated calls -/

theorem length_orderedPairs {α : Type} (l : List α) :
    (orderedPairs l).length = l.length * (l.length - 1) / 2 := by
  induction l with
  | nil => simp [orderedPairs]
  | cons x xs ih =>
    simp only [orderedPairs, List.length_append, List.length_map, List.length_cons, ih,
      Nat.add_sub_cancel]
    have h2 : xs.length * (xs.length - 1) % 2 = 0 := by
      rcases Nat.even_or_odd xs.length with h | h
      · obtain ⟨k, hk⟩ := h
        rw [hk]
        have : (k + k) * (k + k - 1) = 2 * (k * (k + k - 1)) := by ring
        rw [this]; simp
      · obtain ⟨k, hk⟩ := h
        rw [hk]
        have : (2 * k + 1) * (2 * k + 1 - 1) = 2 * ((2 * k + 1) * k) := by
          simp only [Nat.add_sub_cancel]; ring
        rw [this]; simp
    have h3 : (xs.length + 1) * xs.length = 2 * xs.length + xs.length * (xs.length - 1) := by
      cases xs.length with
      | zero => rfl
      | succ n => simp only [Nat.add_sub_cancel]; ring
    rw [h3]
    omega

/-- Appending records can only mark more pairs as processed. -/
theorem isDuplicateProcessed_append (p q : List ProcessedDuplicate) (range1 range2 : Range) :
    isDuplicateProcessed (p ++ q) range1 range2 =
      (isDuplicateProcessed p range1 range2 || isDuplicateProcessed q range1 range2) := by
  simp [isDuplicateProcessed, truthy, List.any_append]

/-- The record of a pair marks the pair as processed. -/
theorem isDuplicateProcessed_codeRecord (p : CodeChunk × CodeChunk) :
    isDuplicateProcessed [codeRecord p] p.1.range p.2.range = true := by
  simp [isDuplicateProcessed, truthy, codeRecord]

theorem filter_length_lt {α : Type} (f g : α → Bool) (l : List α)
    (hfg : ∀ x, g x = true → f x = true) (x : α) (hx : x ∈ l) (hf : f x = true)
    (hg : g x = false) : (l.filter g).length < (l.filter f).length := by
  induction l with
  | nil => exact absurd hx (List.not_mem_nil _)
  | cons y ys ih =>
    have hle : (ys.filter g).length ≤ (ys.filter f).length := by
      clear ih hx
      induction ys with
      | nil => simp
      | cons z zs ihz =>
        by_cases hgz : g z = true
        · rw [List.filter_cons_of_pos hgz, List.filter_cons_of_pos (hfg z hgz)]
          simpa using ihz
        · rw [List.filter_cons_of_neg hgz]
          by_cases hfz : f z = true
          · rw [List.filter_cons_of_pos hfz]
            simp only [List.length_cons]
            omega
          · rw [List.filter_cons_of_neg hfz]
            exact ihz
    rcases List.mem_cons.mp hx with e | hmem
    · subst e
      rw [List.filter_cons_of_pos hf, List.filter_cons_of_neg (by simp [hg])]
      simp only [List.length_cons]
      omega
    · have := ih hmem
      by_cases hgy : g y = true
      · rw [List.filter_cons_of_pos hgy, List.filter_cons_of_pos (hfg y hgy)]
        simpa using this
      · rw [List.filter_cons_of_neg hgy]
        by_cases hfy : f y = true
        · rw [List.filter_cons_of_pos hfy]
          simp only [List.length_cons]
          omega
        · rw [List.filter_cons_of_neg hfy]
          exact this

/-- Recording a pair that was not recorded leaves fewer unrecorded pairs. -/
theorem unrecordedPairs_lt (chunks : List CodeChunk) (processedDuplicates : List ProcessedDuplicate)
    (p : CodeChunk × CodeChunk) (hp : p ∈ orderedPairs chunks)
    (hn : isDuplicateProcessed processedDuplicates p.1.range p.2.range = false) :
    unrecordedPairs chunks (processedDuplicates ++ [codeRecord p]) <
      unrecordedPairs chunks processedDuplicates := by
  unfold unrecordedPairs
  apply filter_length_lt _ _ _ _ p hp
  · simp [hn]
  · simp [isDuplicateProcessed_append, isDuplicateProcessed_codeRecord]
  · intro x hx
    simp only [isDuplicateProcessed_append, Bool.not_eq_true', Bool.or_eq_false_iff] at hx ⊢
    exact hx.1

theorem unrecordedPairs_le (chunks : List CodeChunk)
    (processedDuplicates : List ProcessedDuplicate) :
    unrecordedPairs chunks processedDuplicates ≤ chunks.length * (chunks.length - 1) / 2 := by
  unfold unrecordedPairs
  rw [← length_orderedPairs]
  exact List.length_filter_le _ _

theorem trackerAfterCalls_succ (lower : Str → Str) (chunks : List CodeChunk) (k : Nat)
    (processedDuplicates : List ProcessedDuplicate) :
    trackerAfterCalls lower chunks (k + 1) processedDuplicates =
      trackerAfterCalls lower chunks k (specFindNext lower chunks processedDuplicates).2 := by
  simp only [trackerAfterCalls, findNextCodeDuplicate_eq]

/-- Repeated calls reach an empty result after at most as many non-empty results
as there are unrecorded pairs. -/
theorem findNextCodeDuplicate_exhausts (lower : Str → Str) (chunks : List CodeChunk) :
    ∀ m processedDuplicates, unrecordedPairs chunks processedDuplicates ≤ m →
      ∃ k, k ≤ m ∧ ∃ final,
        trackerAfterCalls lower chunks k processedDuplicates = some final ∧
        findNextCodeDuplicate lower chunks final = some ([], final) ∧
        ∀ i, i < k → ∃ before d after,
          trackerAfterCalls lower chunks i processedDuplicates = some before ∧
          findNextCodeDuplicate lower chunks before = some ([d], after) := by
  intro m
  induction m with
  | zero =>
    intro processedDuplicates hm
    refine ⟨0, le_rfl, processedDuplicates, rfl, ?_, fun i hi => absurd hi (by omega)⟩
    rw [findNextCodeDuplicate_eq]
    unfold specFindNext
    cases hf : (orderedPairs chunks).find? (chunkPairQualifies lower processedDuplicates) with
    | none => rfl
    | some p =>
      exfalso
      have hq := List.find?_some hf
      have hmem := List.mem_of_find?_eq_some hf
      have hn := ((chunkPairQualifies_iff lower processedDuplicates p.1 p.2).mp hq).2.1
      have := unrecordedPairs_lt chunks processedDuplicates p hmem hn
      omega
  | succ m ih =>
    intro processedDuplicates hm
    cases hf : (orderedPairs chunks).find? (chunkPairQualifies lower processedDuplicates) with
    | none =>
      refine ⟨0, by omega, processedDuplicates, rfl, ?_, fun i hi => absurd hi (by omega)⟩
      rw [findNextCodeDuplicate_eq]
      unfold specFindNext
      rw [hf]
    | some p =>
      have hq := List.find?_some hf
      have hmem := List.mem_of_find?_eq_some hf
      have hn := ((chunkPairQualifies_iff lower processedDuplicates p.1 p.2).mp hq).2.1
      have hlt := unrecordedPairs_lt chunks processedDuplicates p hmem hn
      have hspec : specFindNext lower chunks processedDuplicates =
          ([⟨p.1.range, p.2.range⟩], processedDuplicates ++ [codeRecord p]) := by
        unfold specFindNext
        rw [hf]
      obtain ⟨k, hk, final, h1, h2, h3⟩ := ih (processedDuplicates ++ [codeRecord p]) (by omega)
      refine ⟨k + 1, by omega, final, ?_, h2, ?_⟩
      · rw [trackerAfterCalls_succ, hspec]
        exact h1
      · intro i hi
        cases i with
        | zero =>
          exact ⟨processedDuplicates, _, _, rfl, by rw [findNextCodeDuplicate_eq, hspec]⟩
        | succ i =>
          obtain ⟨before, d, after, hb, hd⟩ := h3 i (by omega)
          refine ⟨before, d, after, ?_, hd⟩
          rw [trackerAfterCalls_succ, hspec]
          exact hb

/-! ### The chunks of the twenty-line document -/

theorem orderedPairs_documentChunks :
    orderedPairs documentChunks = [(chunk0, chunk5), (chunk0, chunk10), (chunk5, chunk10)] := rfl

set_option maxRecDepth 100000 in
theorem chunk0_chunk10_normalized :
    normalizeCodeForComparison chunk0.code = normalizeCodeForComparison chunk10.code := by
  decide

set_option maxRecDepth 100000 in
theorem chunk0_normalized_length : 30 ≤ (normalizeCodeForComparison chunk0.code).length := by
  decide

/-- With no record, the first qualifying pair of the document is the pair of
the two functions' chunks. -/
theorem documentChunks_find_empty :
    (orderedPairs documentChunks).find? (chunkPairQualifies asciiLower []) =
      some (chunk0, chunk10) := by
  have h1 : chunkPairQualifies asciiLower [] (chunk0, chunk5) = false := by decide
  have h2 : chunkPairQualifies asciiLower [] (chunk0, chunk10) = true := by
    rw [chunkPairQualifies_iff]
    refine ⟨by decide, by decide, chunk0_normalized_length, ?_, 1, ?_, by norm_num⟩
    · rw [← chunk0_chunk10_normalized]; exact chunk0_normalized_length
    · rw [← chunk0_chunk10_normalized]; exact calculateSimilarity_same asciiLower _ {}
  rw [orderedPairs_documentChunks, List.find?_cons_of_neg _ (by simp [h1]),
    List.find?_cons_of_pos _ h2]

/-- With the record of kind `functions`, no pair of the document qualifies. -/
theorem documentChunks_find_record :
    (orderedPairs documentChunks).find? (chunkPairQualifies asciiLower [functionsRecord]) =
      none := by
  have h1 : chunkPairQualifies asciiLower [functionsRecord] (chunk0, chunk5) = false := by
    decide
  have h2 : chunkPairQualifies asciiLower [functionsRecord] (chunk0, chunk10) = false := by
    decide
  have h3 : chunkPairQualifies asciiLower [functionsRecord] (chunk5, chunk10) = false := by
    decide
  rw [orderedPairs_documentChunks, List.find?_cons_of_neg _ (by simp [h1]),
    List.find?_cons_of_neg _ (by simp [h2]), List.find?_cons_of_neg _ (by simp [h3])]
  rfl

set_option maxRecDepth 100000 in
theorem alphaFn_betaFn_normalized : alphaFn.normalizedBody = betaFn.normalizedBody := by
  decide

set_option maxRecDepth 100000 in
/-- The function matcher reports `alpha` and `beta` of the document as a pair. -/
theorem findDuplicateFunctions_alpha_beta :
    findDuplicateFunctions asciiLower [alphaFn, betaFn] =
      some [⟨js "alpha", ⟨⟨0, 0⟩, ⟨9, 1⟩⟩, js "beta", ⟨⟨10, 0⟩, ⟨19, 1⟩⟩⟩] := by
  have hm : functionsMatch asciiLower alphaFn betaFn = true := by
    rw [functionsMatch_iff]
    refine ⟨by decide, 1, ?_, by norm_num⟩
    rw [alphaFn_betaFn_normalized]
    exact calculateSimilarity_same asciiLower _ {}
  have ho : orderedPairs [alphaFn, betaFn] = [(alphaFn, betaFn)] := rfl
  rw [findDuplicateFunctions_eq, specDuplicateFunctions, ho,
    List.filter_cons_of_pos
      (p := fun p : FunctionInfo × FunctionInfo => functionsMatch asciiLower p.1 p.2) hm]
  rfl

/-! ### The early termination of the Levenshtein table -/

/-- The running minimum after a cell is the minimum of the old one and the new
entry. -/
theorem levCell_snd (str1 str2 : Str) (i : Nat) (prev : List Nat) (st : List Nat × Nat)
    (j : Nat) (hj : j < st.1.length) :
    (levCell str1 str2 i prev st j).2 =
      min st.2 ((levCell str1 str2 i prev st j).1.getD j 0) := by
  unfold levCell
  simp only
  rw [getD_set_self _ _ _ hj]

/-- The running minimum of row `i + 1` is at most every entry filled so far. -/
theorem levInner_min (str1 str2 : Str) (i : Nat) (prev curr : List Nat)
    (hp : RowIs str2.length (levFn str1 str2 i) prev)
    (hl : curr.length = str2.length + 1) :
    ∀ n, n ≤ str2.length → ∀ j, j ≤ n →
      ((List.range' 1 n).foldl (levCell str1 str2 (i + 1) prev)
        (curr.set 0 (i + 1), i + 1)).2 ≤ levFn str1 str2 (i + 1) j := by
  intro n
  induction n with
  | zero =>
    intro _ j hj
    have : j = 0 := by omega
    subst this
    simp only [List.range'_zero, List.foldl_nil]
    rw [levFn_zero_right]
  | succ n ih =>
    intro hn j hj
    obtain ⟨hlen, _⟩ := levInner_spec str1 str2 i prev curr hp hl n (by omega)
    obtain ⟨_, hval⟩ := levInner_spec str1 str2 i prev curr hp hl (n + 1) hn
    have hv := hval (n + 1) le_rfl
    rw [List.range'_concat, List.foldl_append] at hv ⊢
    simp only [List.foldl_cons, List.foldl_nil, one_mul] at hv ⊢
    rw [levCell_snd _ _ _ _ _ _ (by omega)]
    have e : 1 + n = n + 1 := by omega
    rw [e] at hv ⊢
    rw [hv]
    by_cases hjn : j = n + 1
    · subst hjn
      exact min_le_right _ _
    · exact le_trans (min_le_left _ _) (ih (by omega) j (by omega))

/-- An early termination happens at a row all of whose entries exceed half the
longer length. -/
theorem levRows_none (str1 str2 : Str) (n : Nat) :
    ∀ (i : Nat) (prev curr : List Nat), RowIs str2.length (levFn str1 str2 i) prev →
      curr.length = str2.length + 1 →
      levRows str1 str2 (List.range' (i + 1) n) prev curr = none →
      ∃ i', i < i' ∧ i' ≤ i + n ∧ ∀ j, j ≤ str2.length →
        max str1.length str2.length < 2 * levFn str1 str2 i' j := by
  induction n with
  | zero =>
    intro i prev curr _ _ h
    simp [levRows] at h
  | succ n ih =>
    intro i prev curr hp hc h
    rw [List.range'_succ] at h
    simp only [levRows] at h
    split at h
    · rename_i hexit
      refine ⟨i + 1, by omega, by omega, ?_⟩
      intro j hj
      have := levInner_min str1 str2 i prev curr hp hc str2.length le_rfl j hj
      unfold levRow at hexit
      omega
    · obtain ⟨rl, rv⟩ := levInner_spec str1 str2 i prev curr hp hc str2.length le_rfl
      obtain ⟨i', h1, h2, h3⟩ := ih (i + 1) _ _ ⟨rl, rv⟩ hp.1 h
      exact ⟨i', by omega, by omega, h3⟩

/-- The first row of the table. -/
theorem rowIs_range (str1 str2 : Str) :
    RowIs str2.length (levFn str1 str2 0) (List.range (str2.length + 1)) := by
  refine ⟨by simp, ?_⟩
  intro j hj
  rw [List.getD_eq_getElem?_getD, List.getElem?_range (by omega)]
  rfl

/-- An early termination of the table happens at a row all of whose entries
exceed half the longer length. -/
theorem levTable_none (str1 str2 : Str) (h : levTable str1 str2 = none) :
    ∃ i, 0 < i ∧ i ≤ str1.length ∧ ∀ j, j ≤ str2.length →
      max str1.length str2.length < 2 * levFn str1 str2 i j := by
  unfold levTable at h
  obtain ⟨i, h1, h2, h3⟩ :=
    levRows_none str1 str2 str1.length 0 _ _ (rowIs_range str1 str2) (by simp) h
  exact ⟨i, h1, by omega, h3⟩

/-- A bound below the entries of the columns `0 .. len2` of a row is below the
entries of the later rows, and so below the last entry of the table. -/
theorem levFn_last_of_row (str1 str2 : Str) (t i : Nat) (hi : i ≤ str1.length)
    (h : ∀ j, j ≤ str2.length → t < levFn str1 str2 i j) :
    t < levFn str1 str2 str1.length str2.length := by
  have key : ∀ d, ∀ j, j ≤ str2.length → t < levFn str1 str2 (i + d) j := by
    intro d
    induction d with
    | zero => simpa using h
    | succ d ih =>
      intro j
      induction j with
      | zero =>
        intro _
        have := ih 0 (by omega)
        rw [levFn_zero_right] at this
        have e : i + (d + 1) = (i + d) + 1 := by omega
        rw [e, levFn_zero_right]
        omega
      | succ j ihj =>
        intro hj
        have e : i + (d + 1) = (i + d) + 1 := by omega
        rw [e, levFn_succ_succ]
        have h1 := ih (j + 1) hj
        have h2 := ih j (by omega)
        have h3 := ihj (by omega)
        rw [e] at h3
        split_ifs <;> omega
  have := key (str1.length - i) str2.length le_rfl
  have e : i + (str1.length - i) = str1.length := by omega
  rwa [e] at this

/-- The diagonal of the table of a string against itself is zero. -/
theorem levFn_diag (s : Str) : ∀ i, levFn s s i i = 0 := by
  intro i
  induction i with
  | zero => rfl
  | succ i ih =>
    rw [levFn_succ_succ, ih]
    simp

/-- The table of a string against itself has no early termination. -/
theorem levTable_self (s : Str) : ∃ res, levTable s s = some res := by
  cases h : levTable s s with
  | some res => exact ⟨res, rfl⟩
  | none =>
    obtain ⟨i, _, hi, hrow⟩ := levTable_none s s h
    have := hrow i hi
    rw [levFn_diag] at this
    omega

/-- `calculateLevenshteinSimilarity` of a string against itself is 1. -/
theorem calculateLevenshteinSimilarity_self (s : Str) :
    calculateLevenshteinSimilarity s s = 1 := by
  obtain ⟨res, h⟩ := levTable_self s
  unfold calculateLevenshteinSimilarity
  rw [h]
  simp only
  rw [levTable_eq _ _ _ h, levFn_diag]
  simp

/-! ### The table recurrence computes the edit distance -/

theorem editDistance_nil_left (b : Str) : editDistance [] b = b.length := by
  unfold editDistance
  induction b with
  | nil => simp
  | cons y ys ih => simp [ih]; omega

theorem editDistance_nil_right (a : Str) : editDistance a [] = a.length := by
  unfold editDistance
  induction a with
  | nil => simp
  | cons x xs ih => simp [ih]; omega

theorem editDistance_cons_cons (x : Nat) (xs : Str) (y : Nat) (ys : Str) :
    editDistance (x :: xs) (y :: ys) =
      min (1 + editDistance xs (y :: ys))
        (min (1 + editDistance (x :: xs) ys) ((if x = y then 0 else 1) + editDistance xs ys)) := by
  unfold editDistance
  simp

/-- The edit distance, defined from the front of the strings, obeys the
recurrence of the table, which works from their end. -/
theorem editDistance_snoc_snoc (xs : Str) :
    ∀ (ys : Str) (x y : Nat), editDistance (xs ++ [x]) (ys ++ [y]) =
      min (min (editDistance xs (ys ++ [y]) + 1) (editDistance (xs ++ [x]) ys + 1))
        (editDistance xs ys + if x = y then 0 else 1) := by
  induction xs with
  | nil =>
    intro ys x y
    induction ys with
    | nil =>
      have e1 := editDistance_cons_cons x [] y []
      simp only [List.nil_append, editDistance_nil_left, editDistance_nil_right,
        List.length_cons, List.length_nil] at e1 ⊢
      omega
    | cons b ys ih =>
      have e1 := editDistance_cons_cons x [] b (ys ++ [y])
      have e2 := editDistance_cons_cons x [] b ys
      simp only [List.nil_append, List.cons_append, editDistance_nil_left,
        editDistance_nil_right, List.length_cons, List.length_nil, List.length_append]
        at e1 e2 ih ⊢
      omega
  | cons a xs ihx =>
    intro ys x y
    induction ys with
    | nil =>
      have e1 := editDistance_cons_cons a (xs ++ [x]) y []
      have e2 := editDistance_cons_cons a xs y []
      have e3 := ihx [] x y
      simp only [List.nil_append, List.cons_append, editDistance_nil_left,
        editDistance_nil_right, List.length_cons, List.length_nil, List.length_append]
        at e1 e2 e3 ⊢
      omega
    | cons b ys ihy =>
      have e1 := editDistance_cons_cons a (xs ++ [x]) b (ys ++ [y])
      have e2 := editDistance_cons_cons a xs b (ys ++ [y])
      have e3 := editDistance_cons_cons a (xs ++ [x]) b ys
      have e4 := editDistance_cons_cons a xs b ys
      have p1 := ihx (b :: ys) x y
      have p3 := ihx ys x y
      simp only [List.cons_append] at e1 e2 e3 e4 p1 p3 ihy ⊢
      rw [e1, p1, ihy, p3, e2, e3, e4]
      simp only [← Nat.add_min_add_left, ← Nat.add_min_add_right]
      ac_rfl

/-- Entry `(i, j)` of the table recurrence is the edit distance of the first
`i` code units of `str1` and the first `j` code units of `str2`. -/
theorem levFn_eq_editDistance (str1 str2 : Str) :
    ∀ i, i ≤ str1.length → ∀ j, j ≤ str2.length →
      levFn str1 str2 i j = editDistance (str1.take i) (str2.take j) := by
  intro i
  induction i with
  | zero =>
    intro _ j hj
    simp [levFn, editDistance_nil_left, hj]
  | succ i ihi =>
    intro hi j
    induction j with
    | zero =>
      intro _
      rw [levFn_zero_right]
      simp [editDistance_nil_right]
      omega
    | succ j ihj =>
      intro hj
      have h1 : str1[i]? = some str1[i] := List.getElem?_eq_getElem (by omega)
      have h2 : str2[j]? = some str2[j] := List.getElem?_eq_getElem (by omega)
      rw [levFn_succ_succ, ihi (by omega) (j + 1) hj, ihj (by omega), ihi (by omega) j (by omega)]
      rw [List.take_succ (l := str1), List.take_succ (l := str2), h1, h2]
      simp only [Option.toList_some]
      rw [editDistance_snoc_snoc]
      simp only [Option.some.injEq]

/-- The last entry of the table recurrence is the edit distance. -/
theorem levFn_last (str1 str2 : Str) :
    levFn str1 str2 str1.length str2.length = editDistance str1 str2 := by
  rw [levFn_eq_editDistance str1 str2 _ le_rfl _ le_rfl]
  simp

/-! ### The full table of the legacy similarity -/

theorem getD_set_eq {α : Type} (l : List α) (i : Nat) (x d : α) (j : Nat) :
    (l.set i x).getD j d = if i = j ∧ i < l.length then x else l.getD j d := by
  by_cases h : i = j
  · subst h
    by_cases h2 : i < l.length
    · simp [List.getD_eq_getElem?_getD, h2]
    · have h3 : l.length ≤ i := by omega
      simp [List.getD_eq_getElem?_getD, h2, List.getElem?_eq_none, h3]
  · simp [List.getD_eq_getElem?_getD, List.getElem?_set, h]

namespace Legacy

theorem dpSet_shape (r c : Nat) (dp : List (List Nat)) (i j v : Nat) (h : DpShape r c dp) :
    DpShape r c (dpSet dp i j v) := by
  unfold dpSet
  refine ⟨by simpa using h.1, ?_⟩
  intro i' hi'
  rw [getD_set_eq]
  split_ifs with hc
  · rw [List.length_set]
    exact h.2 i (by have := h.1; omega)
  · exact h.2 i' hi'

theorem dpGet_dpSet_self (r c : Nat) (dp : List (List Nat)) (i j v : Nat) (h : DpShape r c dp)
    (hi : i < r) (hj : j < c) : dpGet (dpSet dp i j v) i j = v := by
  unfold dpGet dpSet
  rw [getD_set_eq, if_pos ⟨rfl, by rw [h.1]; exact hi⟩, getD_set_eq,
    if_pos ⟨rfl, by rw [h.2 i hi]; exact hj⟩]

theorem dpGet_dpSet_other (dp : List (List Nat)) (i j v i' j' : Nat)
    (hne : ¬ (i = i' ∧ j = j')) : dpGet (dpSet dp i j v) i' j' = dpGet dp i' j' := by
  unfold dpGet dpSet
  rw [getD_set_eq]
  split_ifs with hc
  · obtain ⟨h1, _⟩ := hc
    subst h1
    rw [getD_set_eq, if_neg (fun hh => hne ⟨rfl, hh.1⟩)]
  · rfl

theorem dpCell_inv (str1 str2 : Str) (r c : Nat) (dp : List (List Nat))
    (hr : r < str1.length) (hc : c < str2.length) (h : DpInv str1 str2 (r + 1) c dp) :
    DpInv str1 str2 (r + 1) (c + 1) (dpCell str1 str2 (r + 1) dp (c + 1)) := by
  obtain ⟨hs, hv⟩ := h
  unfold dpCell
  simp only [Nat.add_sub_cancel]
  refine ⟨dpSet_shape _ _ _ _ _ _ hs, ?_⟩
  intro i j hi hj hk
  by_cases hij : r + 1 = i ∧ c + 1 = j
  · obtain ⟨h1, h2⟩ := hij
    subst h1; subst h2
    rw [dpGet_dpSet_self _ _ _ _ _ _ hs (by omega) (by omega)]
    rw [hv r (c + 1) (by omega) (by omega) (Or.inl (by omega)),
      hv (r + 1) c (by omega) (by omega) (Or.inr (Or.inl ⟨rfl, le_rfl⟩)),
      hv r c (by omega) (by omega) (Or.inl (by omega)), levFn_succ_succ]
  · rw [dpGet_dpSet_other _ _ _ _ _ _ hij]
    apply hv i j hi hj
    rcases hk with hk | hk | hk | hk
    · exact Or.inl hk
    · refine Or.inr (Or.inl ⟨hk.1, ?_⟩)
      by_contra hcon
      exact hij ⟨hk.1.symm, by omega⟩
    · exact Or.inr (Or.inr (Or.inl hk))
    · exact Or.inr (Or.inr (Or.inr hk))

theorem dpInner_inv (str1 str2 : Str) (r : Nat) (dp : List (List Nat))
    (hr : r < str1.length) (h : DpInv str1 str2 (r + 1) 0 dp) :
    ∀ n, n ≤ str2.length →
      DpInv str1 str2 (r + 1) n ((List.range' 1 n).foldl (dpCell str1 str2 (r + 1)) dp) := by
  intro n
  induction n with
  | zero => intro _; simpa using h
  | succ n ih =>
    intro hn
    rw [List.range'_concat, List.foldl_append]
    simp only [List.foldl_cons, List.foldl_nil, one_mul]
    have e : 1 + n = n + 1 := by omega
    rw [e]
    exact dpCell_inv str1 str2 r n _ hr (by omega) (ih (by omega))

theorem dpOuter_inv (str1 str2 : Str) (dp : List (List Nat))
    (h : DpInv str1 str2 0 str2.length dp) :
    ∀ n, n ≤ str1.length →
      DpInv str1 str2 n str2.length
        ((List.range' 1 n).foldl
          (fun dp i => (List.range' 1 str2.length).foldl (dpCell str1 str2 i) dp) dp) := by
  intro n
  induction n with
  | zero => intro _; simpa using h
  | succ n ih =>
    intro hn
    rw [List.range'_concat, List.foldl_append]
    simp only [List.foldl_cons, List.foldl_nil, one_mul]
    have e : 1 + n = n + 1 := by omega
    rw [e]
    apply dpInner_inv str1 str2 n _ (by omega) _ str2.length le_rfl
    obtain ⟨hs, hv⟩ := ih (by omega)
    refine ⟨hs, ?_⟩
    intro i j hi hj hk
    apply hv i j hi hj
    rcases hk with hk | hk | hk | hk
    · by_cases hin : i = n
      · exact Or.inr (Or.inl ⟨hin, hj⟩)
      · exact Or.inl (by omega)
    · exact Or.inr (Or.inr (Or.inl (by omega)))
    · exact Or.inr (Or.inr (Or.inl hk))
    · exact Or.inr (Or.inr (Or.inr hk))

theorem dpInit_col (r c : Nat) (dp : List (List Nat)) (h : DpShape r (c + 1) dp) :
    ∀ n, n ≤ r →
      DpShape r (c + 1) ((List.range n).foldl (fun dp i => dpSet dp i 0 i) dp) ∧
      ∀ i, i < n → dpGet ((List.range n).foldl (fun dp i => dpSet dp i 0 i) dp) i 0 = i := by
  intro n
  induction n with
  | zero => intro _; exact ⟨by simpa using h, by intro i hi; omega⟩
  | succ n ih =>
    intro hn
    obtain ⟨hs, hv⟩ := ih (by omega)
    rw [List.range_succ, List.foldl_append]
    simp only [List.foldl_cons, List.foldl_nil]
    refine ⟨dpSet_shape _ _ _ _ _ _ hs, ?_⟩
    intro i hi
    by_cases hin : n = i
    · subst hin
      exact dpGet_dpSet_self _ _ _ _ _ _ hs (by omega) (by omega)
    · rw [dpGet_dpSet_other _ _ _ _ _ _ (fun hh => hin hh.1)]
      exact hv i (by omega)

theorem dpInit_row (r c : Nat) (dp : List (List Nat)) (h : DpShape (r + 1) c dp)
    (hcol : ∀ i, i ≤ r → dpGet dp i 0 = i) :
    ∀ n, n ≤ c →
      DpShape (r + 1) c ((List.range n).foldl (fun dp j => dpSet dp 0 j j) dp) ∧
      (∀ i, i ≤ r → dpGet ((List.range n).foldl (fun dp j => dpSet dp 0 j j) dp) i 0 = i) ∧
      ∀ j, j < n → dpGet ((List.range n).foldl (fun dp j => dpSet dp 0 j j) dp) 0 j = j := by
  intro n
  induction n with
  | zero => intro _; exact ⟨by simpa using h, by simpa using hcol, by intro j hj; omega⟩
  | succ n ih =>
    intro hn
    obtain ⟨hs, hc, hv⟩ := ih (by omega)
    rw [List.range_succ, List.foldl_append]
    simp only [List.foldl_cons, List.foldl_nil]
    refine ⟨dpSet_shape _ _ _ _ _ _ hs, ?_, ?_⟩
    · intro i hi
      by_cases hin : 0 = i ∧ n = 0
      · obtain ⟨h1, h2⟩ := hin
        subst h1; subst h2
        exact dpGet_dpSet_self _ _ _ _ _ _ hs (by omega) (by omega)
      · rw [dpGet_dpSet_other _ _ _ _ _ _ hin]
        exact hc i hi
    · intro j hj
      by_cases hin : n = j
      · subst hin
        exact dpGet_dpSet_self _ _ _ _ _ _ hs (by omega) (by omega)
      · rw [dpGet_dpSet_other _ _ _ _ _ _ (fun hh => hin hh.2)]
        exact hv j (by omega)

/-- The last entry of the full table is the value of the recurrence. -/
theorem dpTable_last (str1 str2 : Str) :
    dpGet (dpTable str1 str2) str1.length str2.length =
      levFn str1 str2 str1.length str2.length := by
  have h0 : DpShape (str1.length + 1) (str2.length + 1)
      (List.replicate (str1.length + 1) (List.replicate (str2.length + 1) 0)) := by
    refine ⟨by simp, ?_⟩
    intro i hi
    rw [List.getD_eq_getElem?_getD, List.getElem?_replicate]
    simp [hi]
  obtain ⟨h1s, h1v⟩ := dpInit_col _ _ _ h0 (str1.length + 1) le_rfl
  obtain ⟨h2s, h2c, h2v⟩ := dpInit_row _ _ _ h1s (fun i hi => h1v i (by omega))
    (str2.length + 1) le_rfl
  have hinv : DpInv str1 str2 0 str2.length
      ((List.range (str2.length + 1)).foldl (fun dp j => dpSet dp 0 j j)
        ((List.range (str1.length + 1)).foldl (fun dp i => dpSet dp i 0 i)
          (List.replicate (str1.length + 1) (List.replicate (str2.length + 1) 0)))) := by
    refine ⟨h2s, ?_⟩
    intro i j hi hj hk
    have hrow : ∀ j, j ≤ str2.length → dpGet _ 0 j = levFn str1 str2 0 j :=
      fun j hj => h2v j (by omega)
    rcases hk with hk | hk | hk | hk
    · omega
    · rw [hk.1]; exact hrow j hj
    · rw [hk, levFn_zero_right]; exact h2c i hi
    · rw [hk]; exact hrow j hj
  exact (dpOuter_inv str1 str2 _ hinv str1.length le_rfl).2 _ _ le_rfl le_rfl
    (Or.inr (Or.inl ⟨rfl, le_rfl⟩))

/-- Behind its length gate the legacy `calculateSimilarity` is the Levenshtein
score of the specification. -/
theorem calculateSimilarity_eq (str1 str2 : Str)
    (hgate : ¬ |(str1.length : ℚ) - str2.length| > (min str1.length str2.length : ℕ) * 0.3) :
    calculateSimilarity str1 str2 = specLevenshtein str1 str2 := by
  unfold calculateSimilarity specLevenshtein
  simp only
  rw [if_neg hgate, dpTable_last, levFn_last]

end Legacy

/-! ### The LCS recurrence computes the longest common subsequence -/

/-- A subsequence of `xs ++ [x]` is a subsequence of `xs`, or one of `xs`
followed by `x`. -/
theorem sublist_snoc_iff (l xs : Str) (x : Nat) :
    l.Sublist (xs ++ [x]) ↔ l.Sublist xs ∨ ∃ l', l = l' ++ [x] ∧ l'.Sublist xs := by
  rw [List.sublist_append_iff]
  constructor
  · rintro ⟨l1, l2, rfl, h1, h2⟩
    rcases List.sublist_singleton.mp h2 with rfl | rfl
    · left; simpa using h1
    · right; exact ⟨l1, rfl, h1⟩
  · rintro (h | ⟨l', rfl, h⟩)
    · exact ⟨l, [], by simp, h, List.nil_sublist _⟩
    · exact ⟨l', [x], rfl, h, List.Sublist.refl _⟩

theorem isLongest_nil_left (ys : Str) : IsLongestCommonLength 0 [] ys := by
  refine ⟨⟨[], List.nil_sublist _, List.nil_sublist _, rfl⟩, ?_⟩
  intro l h _
  rw [List.sublist_nil.mp h]
  exact le_rfl

theorem isLongest_nil_right (xs : Str) : IsLongestCommonLength 0 xs [] := by
  refine ⟨⟨[], List.nil_sublist _, List.nil_sublist _, rfl⟩, ?_⟩
  intro l _ h
  rw [List.sublist_nil.mp h]
  exact le_rfl

/-- Two strings that end with the same code unit. -/
theorem isLongest_snoc_eq (n : Nat) (xs ys : Str) (x : Nat)
    (h : IsLongestCommonLength n xs ys) :
    IsLongestCommonLength (n + 1) (xs ++ [x]) (ys ++ [x]) := by
  obtain ⟨⟨l0, h1, h2, h3⟩, hmax⟩ := h
  refine ⟨⟨l0 ++ [x], List.Sublist.append h1 (List.Sublist.refl _),
    List.Sublist.append h2 (List.Sublist.refl _), by simp [h3]⟩, ?_⟩
  intro l hx hy
  rw [sublist_snoc_iff] at hx hy
  rcases hx with hx | ⟨l1, rfl, hx⟩
  · rcases hy with hy | ⟨l2, rfl, hy⟩
    · exact le_trans (hmax l hx hy) (Nat.le_succ _)
    · have := hmax l2 ((List.sublist_append_left l2 [x]).trans hx) hy
      simp only [List.length_append, List.length_singleton]
      omega
  · rcases hy with hy | ⟨l2, e, hy⟩
    · have := hmax l1 hx ((List.sublist_append_left l1 [x]).trans hy)
      simp only [List.length_append, List.length_singleton]
      omega
    · have e' : l1 = l2 := List.append_cancel_right e
      subst e'
      have := hmax l1 hx hy
      simp only [List.length_append, List.length_singleton]
      omega

/-- Two strings that end with different code units. -/
theorem isLongest_snoc_ne (n1 n2 : Nat) (xs ys : Str) (x y : Nat) (hne : x ≠ y)
    (h1 : IsLongestCommonLength n1 xs (ys ++ [y]))
    (h2 : IsLongestCommonLength n2 (xs ++ [x]) ys) :
    IsLongestCommonLength (max n1 n2) (xs ++ [x]) (ys ++ [y]) := by
  obtain ⟨⟨l1, a1, b1, c1⟩, hmax1⟩ := h1
  obtain ⟨⟨l2, a2, b2, c2⟩, hmax2⟩ := h2
  constructor
  · rcases le_total n1 n2 with hle | hle
    · rw [max_eq_right hle]
      exact ⟨l2, a2, b2.trans (List.sublist_append_left ys [y]), c2⟩
    · rw [max_eq_left hle]
      exact ⟨l1, a1.trans (List.sublist_append_left xs [x]), b1, c1⟩
  · intro l hx hy
    rcases (sublist_snoc_iff l xs x).mp hx with hx' | ⟨l', e1, _⟩
    · exact le_trans (hmax1 l hx' hy) (le_max_left _ _)
    · rcases (sublist_snoc_iff l ys y).mp hy with hy' | ⟨l'', e2, _⟩
      · exact le_trans (hmax2 l hx hy') (le_max_right _ _)
      · exfalso
        rw [e1] at e2
        have := List.append_inj' e2 rfl
        simp only [List.cons.injEq, and_true] at this
        exact hne this.2

/-- Entry `(i, j)` of the LCS recurrence is the length of a longest common
subsequence of the first `i` code units of `str1` and the first `j` code units
of `str2`. -/
theorem lcsFn_isLongest (str1 str2 : Str) :
    ∀ i, i ≤ str1.length → ∀ j, j ≤ str2.length →
      IsLongestCommonLength (lcsFn str1 str2 i j) (str1.take i) (str2.take j) := by
  intro i
  induction i with
  | zero =>
    intro _ j _
    simpa [lcsFn] using isLongest_nil_left (str2.take j)
  | succ i ihi =>
    intro hi j
    induction j with
    | zero =>
      intro _
      rw [lcsFn_zero_right]
      simpa using isLongest_nil_right (str1.take (i + 1))
    | succ j ihj =>
      intro hj
      have h1 : str1[i]? = some str1[i] := List.getElem?_eq_getElem (by omega)
      have h2 : str2[j]? = some str2[j] := List.getElem?_eq_getElem (by omega)
      have t1 : str1.take (i + 1) = str1.take i ++ [str1[i]] := by
        rw [List.take_succ, h1]; rfl
      have t2 : str2.take (j + 1) = str2.take j ++ [str2[j]] := by
        rw [List.take_succ, h2]; rfl
      rw [lcsFn_succ_succ, h1, h2]
      by_cases he : str1[i] = str2[j]
      · rw [if_pos (by rw [he]), t1, t2, he]
        exact isLongest_snoc_eq _ _ _ _ (ihi (by omega) j (by omega))
      · rw [if_neg (by simpa using he)]
        have a := ihi (by omega) (j + 1) hj
        have b := ihj (by omega)
        rw [t2] at a
        rw [t1] at b
        rw [t1, t2]
        exact isLongest_snoc_ne _ _ _ _ _ _ he a b

/-- The last entry of the table of `calculateLCSSimilarity` is the length of a
longest common subsequence of the two strings. -/
theorem lcsTable_isLongest (str1 str2 : Str) :
    IsLongestCommonLength ((lcsTable str1 str2).getD str2.length 0) str1 str2 := by
  rw [lcsTable_eq]
  simpa using lcsFn_isLongest str1 str2 str1.length le_rfl str2.length le_rfl

/-- The diagonal of the LCS table of a string against itself. -/
theorem lcsFn_diag (s : Str) : ∀ i, lcsFn s s i i = i := by
  intro i
  induction i with
  | zero => rfl
  | succ i ih =>
    rw [lcsFn_succ_succ, ih]
    simp

/-- `calculateLCSSimilarity` of a string against itself is 1. -/
theorem calculateLCSSimilarity_self (s : Str) : calculateLCSSimilarity s s = 1 := by
  unfold calculateLCSSimilarity
  simp only
  rw [lcsTable_eq, lcsFn_diag]
  by_cases h : s.length = 0
  · simp [h]
  · have hpos : (s.length : ℚ) ≠ 0 := by exact_mod_cast h
    simp [h, hpos]

/-! ### The metrics on identical strings -/

/-- In the matching pass of a string against itself every index is matched to
itself. -/
theorem jaroPartner_self (s : Str) (w : Nat) :
    ∀ i, i < s.length → jaroPartner s s w i = some i := by
  intro i
  induction i using Nat.strong_induction_on with
  | _ i ih =>
    intro hi
    have h : JaroMatched s s w i i := by
      rw [jaroMatched_iff]
      refine ⟨⟨hi, hi, by omega, by omega, rfl⟩, ?_, ?_⟩
      · intro i' hi' hm
        have := ih i' hi' hm.1
        rw [hm.2] at this
        simp only [Option.some.injEq] at this
        omega
      · intro j' hj' _
        exact ⟨j', hj', by omega, ih j' hj' (by omega)⟩
    exact h.2

theorem getD_replicate_true (n x : Nat) :
    (List.replicate n true).getD x false = true ↔ x < n := by
  rw [List.getD_eq_getElem?_getD, List.getElem?_replicate]
  by_cases h : x < n <;> simp [h]

/-- After the matching pass of a string against itself every index of the
first array is marked. -/
theorem jaroMatchPass_self_str1 (s : Str) (w : Nat) :
    (jaroMatchPass s s w).str1Matches = List.replicate s.length true := by
  apply bool_list_ext
  · rw [(jaroMatchPass_inv s s w).len1_eq]; simp
  · intro x
    rw [jaroMatchPass_eq_stateAt, jaroStateAt_str1Matches s s w s.length le_rfl x,
      getD_replicate_true]
    constructor
    · exact fun h => h.1
    · exact fun h => ⟨h, x, jaroPartner_self s w x h⟩

/-- And every index of the second array is marked. -/
theorem jaroMatchPass_self_str2 (s : Str) (w : Nat) :
    (jaroMatchPass s s w).str2Matches = List.replicate s.length true := by
  apply bool_list_ext
  · rw [(jaroMatchPass_inv s s w).len2_eq]; simp
  · intro x
    rw [jaroMatchPass_eq_stateAt, jaroStateAt_str2Matches s s w s.length le_rfl x,
      getD_replicate_true]
    constructor
    · rintro ⟨i', hi', hp⟩
      rw [jaroPartner_self s w i' hi'] at hp
      simp only [Option.some.injEq] at hp
      omega
    · exact fun h => ⟨x, h, jaroPartner_self s w x h⟩

theorem mismatches_self (l : List (Option Nat)) : mismatches l l = 0 := by
  induction l with
  | nil => rfl
  | cons a l ih => simp [mismatches, ih]

/-- `calculateJaroSimilarity` of a string against itself is 1. -/
theorem calculateJaroSimilarity_self (s : Str) : calculateJaroSimilarity s s = some 1 := by
  by_cases h0 : s.length = 0
  · unfold calculateJaroSimilarity
    simp [h0]
  · by_cases hw : 1 ≤ max s.length s.length / 2 - 1
    · have hs : s ≠ [] := fun h => h0 (by rw [h]; rfl)
      have hm1 := jaroMatchPass_self_str1 s (max s.length s.length / 2 - 1)
      have hm2 := jaroMatchPass_self_str2 s (max s.length s.length / 2 - 1)
      have hcount : (jaroMatchPass s s (max s.length s.length / 2 - 1)).«matches» =
          (s.length - 1) + 1 := by
        rw [← (jaroMatchPass_inv s s _).count1, hm1]
        simp
        omega
      have ht : jaroTranspositions s s
          (jaroMatchPass s s (max s.length s.length / 2 - 1)).str1Matches
          (jaroMatchPass s s (max s.length s.length / 2 - 1)).str2Matches = some 0 := by
        rw [jaroTranspositions_eq s s _ _ (jaroMatchPass_inv s s _).len1_eq
          (by rw [hm1, hm2]), hm1, hm2, mismatches_self]
      rw [calculateJaroSimilarity_eval s s (s.length - 1) 0 hs hs hw hcount ht]
      have e : s.length - 1 + 1 = s.length := by omega
      rw [e]
      have hpos : (s.length : ℚ) ≠ 0 := by exact_mod_cast h0
      congr 1
      field_simp
      ring
    · unfold calculateJaroSimilarity
      simp only
      rw [if_neg (by omega), if_neg (by omega), if_pos (by omega)]
      simp

/-- `calculateJaroWinklerSimilarity` of a string against itself is 1. -/
theorem calculateJaroWinklerSimilarity_self (s : Str) :
    calculateJaroWinklerSimilarity s s = some 1 := by
  unfold calculateJaroWinklerSimilarity
  rw [calculateJaroSimilarity_self]
  simp only
  rw [if_neg (by norm_num)]
  congr 1
  ring

/-- `calculateNGramSimilarity` of a string against itself is 1. -/
theorem calculateNGramSimilarity_self (s : Str) (n : Nat) :
    calculateNGramSimilarity s s n = 1 := by
  unfold calculateNGramSimilarity
  simp only
  by_cases h : (getNGrams s n).length = 0
  · rw [if_pos ⟨h, h⟩]
  · rw [if_neg (fun hh => h hh.1), if_neg (fun hh => h (hh.elim id id))]
    have hf : (getNGrams s n).filter (fun x => (getNGrams s n).contains x) = getNGrams s n := by
      rw [List.filter_eq_self]
      intro a ha
      simpa using ha
    rw [hf, length_setOf, length_setOf]
    have hu : (getNGrams s n ++ getNGrams s n).toFinset = (getNGrams s n).toFinset := by
      ext x
      simp
    rw [hu]
    have hne : ((getNGrams s n).toFinset.card : ℚ) ≠ 0 := by
      have : (getNGrams s n).toFinset.card ≠ 0 := by
        intro hc
        rw [Finset.card_eq_zero, List.toFinset_eq_empty_iff] at hc
        exact h (by rw [hc]; rfl)
      exact_mod_cast this
    exact div_self hne

/-! ### The ordered pairs of a list by their indices -/

theorem indexPairs_succ (n : Nat) :
    indexPairs (n + 1) =
      (List.range' 1 n).map (fun j => (0, j)) ++
        (indexPairs n).map (fun p => (p.1 + 1, p.2 + 1)) := by
  unfold indexPairs
  rw [List.range_succ_eq_map, List.flatMap_cons, List.flatMap_map, List.map_flatMap]
  congr 1
  congr 1
  funext i
  have e : n + 1 - (i.succ + 1) = n - (i + 1) := by omega
  rw [e, List.map_map]
  have e2 : List.range' (i.succ + 1) (n - (i + 1)) =
      (List.range' (i + 1) (n - (i + 1))).map (fun x => 1 + x) := by
    rw [List.map_add_range']
    congr 1
    omega
  rw [e2, List.map_map]
  apply List.map_congr_left
  intro j _
  simp only [Function.comp_apply, Nat.succ_eq_add_one]
  congr 1
  omega

theorem mem_indexPairs (n i j : Nat) : (i, j) ∈ indexPairs n ↔ i < j ∧ j < n := by
  unfold indexPairs
  simp only [List.mem_flatMap, List.mem_range, List.mem_map, List.mem_range'_1, Prod.mk.injEq]
  constructor
  · rintro ⟨a, ha, b, hb, rfl, rfl⟩
    omega
  · rintro ⟨h1, h2⟩
    exact ⟨i, by omega, j, by omega, rfl, rfl⟩

/-- The index pairs are in strictly ascending lexicographic order. -/
theorem indexPairs_sorted (n : Nat) :
    (indexPairs n).Pairwise fun p q => p.1 < q.1 ∨ (p.1 = q.1 ∧ p.2 < q.2) := by
  induction n with
  | zero => simp [indexPairs]
  | succ n ih =>
    rw [indexPairs_succ, List.pairwise_append]
    refine ⟨?_, ?_, ?_⟩
    · rw [List.pairwise_map]
      have := List.pairwise_lt_range' 1 n
      exact this.imp fun h => Or.inr ⟨rfl, h⟩
    · rw [List.pairwise_map]
      exact ih.imp fun h => by
        rcases h with h | ⟨h1, h2⟩
        · exact Or.inl (by omega)
        · exact Or.inr ⟨by omega, by omega⟩
    · intro p hp q hq
      simp only [List.mem_map] at hp hq
      obtain ⟨j, _, rfl⟩ := hp
      obtain ⟨q', _, rfl⟩ := hq
      exact Or.inl (by simp)

theorem filterMap_range_getElem? {α β : Type} (f : α → β) (l : List α) :
    (List.range l.length).filterMap (fun i => (l[i]?).map f) = l.map f := by
  induction l with
  | nil => rfl
  | cons x xs ih =>
    rw [List.length_cons, List.range_succ_eq_map, List.filterMap_cons]
    simp only [List.getElem?_cons_zero, Option.map_some', List.map_cons]
    rw [List.filterMap_map]
    congr 1
    rw [← ih]
    apply List.filterMap_congr
    intro i _
    simp

/-- The ordered pairs of a list are its elements at the index pairs. -/
theorem orderedPairs_eq_indexPairs {α : Type} (l : List α) :
    orderedPairs l = (indexPairs l.length).filterMap (atPair l) := by
  induction l with
  | nil => rfl
  | cons x xs ih =>
    rw [List.length_cons, indexPairs_succ, List.filterMap_append, List.filterMap_map,
      List.filterMap_map]
    unfold orderedPairs
    congr 1
    · rw [← filterMap_range_getElem? (fun y => (x, y)) xs, List.range'_eq_map_range,
        List.filterMap_map]
      apply List.filterMap_congr
      intro i _
      simp only [Function.comp_apply, atPair, List.getElem?_cons_zero]
      have e : 1 + i = i + 1 := by omega
      rw [e, List.getElem?_cons_succ]
      cases xs[i]? <;> rfl
    · rw [ih]
      apply List.filterMap_congr
      intro p _
      simp only [Function.comp_apply, atPair, List.getElem?_cons_succ]

/-- The result in the words of the specification is the result over the ordered
pairs. -/
theorem specPairwiseFunctions_eq (lower : Str → Str) (functions : List FunctionInfo) :
    specPairwiseFunctions lower functions = specDuplicateFunctions lower functions := by
  unfold specPairwiseFunctions specDuplicateFunctions
  rw [orderedPairs_eq_indexPairs, List.filter_filterMap, List.map_filterMap]
  apply List.filterMap_congr
  intro p _
  cases h : atPair functions p with
  | none => simp
  | some q =>
    obtain ⟨func1, func2⟩ := q
    simp only [Option.bind_some, Option.map]
    by_cases hm : functionsMatch lower func1 func2 = true
    · have hm' := hm
      unfold functionsMatch at hm'
      simp only [Bool.and_eq_true, bne_iff_ne, ne_eq] at hm'
      rw [if_pos hm']
      simp [Option.filter, hm, functionPair]
    · have hm' : ¬ (func1.name ≠ func2.name ∧
          similarityExceeds lower func1.normalizedBody func2.normalizedBody 0.95 = true) := by
        intro hh
        apply hm
        unfold functionsMatch
        simp only [Bool.and_eq_true, bne_iff_ne, ne_eq]
        exact hh
      rw [if_neg hm']
      simp [Option.filter, hm]

/-! ### A pair of units scoring between 0.9 and 0.95 -/

set_option maxRecDepth 100000 in
/-- The normalized bodies of `inc` and `dec` score 772/825. -/
theorem incFn_decFn_similarity :
    calculateSimilarity asciiLower incFn.normalizedBody decFn.normalizedBody =
      some (772 / 825) := by
  have b1 : incFn.normalizedBody = js "return __ID__+__NUM__;" := by decide
  have b2 : decFn.normalizedBody = js "return __ID__-__NUM__;" := by decide
  have n1 : specNormalized asciiLower (js "return __ID__+__NUM__;") =
      js "return __id__+__num__;" := by decide
  have n2 : specNormalized asciiLower (js "return __ID__-__NUM__;") =
      js "return __id__-__num__;" := by decide
  have l1 : (js "return __id__+__num__;").length = 22 := by decide
  have l2 : (js "return __id__-__num__;").length = 22 := by decide
  have t : levTable (js "return __id__+__num__;") (js "return __id__-__num__;") =
      some [22, 21, 20, 19, 18, 17, 16, 15, 14, 13, 12, 11, 10, 9, 9, 8, 7, 6, 5, 4, 3, 2, 1] := by
    decide
  have c : lcsTable (js "return __id__+__num__;") (js "return __id__-__num__;") =
      [0, 1, 2, 3, 4, 5, 6, 7, 8, 9, 10, 11, 12, 13, 13, 14, 15, 16, 17, 18, 19, 20, 21] := by
    decide
  have hm : (jaroMatchPass (js "return __id__+__num__;") (js "return __id__-__num__;")
      (max (js "return __id__+__num__;").length (js "return __id__-__num__;").length / 2 - 1)).«matches»
      = 20 + 1 := by decide
  have ht : jaroTranspositions (js "return __id__+__num__;") (js "return __id__-__num__;")
      (jaroMatchPass (js "return __id__+__num__;") (js "return __id__-__num__;")
        (max (js "return __id__+__num__;").length (js "return __id__-__num__;").length / 2 - 1)).str1Matches
      (jaroMatchPass (js "return __id__+__num__;") (js "return __id__-__num__;")
        (max (js "return __id__+__num__;").length (js "return __id__-__num__;").length / 2 - 1)).str2Matches
      = some 0 := by decide
  have hjaro : calculateJaroSimilarity (js "return __id__+__num__;")
      (js "return __id__-__num__;") = some (32 / 33) := by
    rw [calculateJaroSimilarity_eval _ _ 20 0 (by decide) (by decide) (by decide) hm ht, l1, l2]
    norm_num
  have hp : commonPrefixLength (js "return __id__+__num__;") (js "return __id__-__num__;")
      (min 4 (min (js "return __id__+__num__;").length (js "return __id__-__num__;").length)) = 4 := by
    decide
  have hjw : calculateJaroWinklerSimilarity (js "return __id__+__num__;")
      (js "return __id__-__num__;") = some (54 / 55) := by
    unfold calculateJaroWinklerSimilarity
    rw [hjaro]
    simp only
    rw [if_neg (by norm_num), hp]
    norm_num
  have hg : ¬ ((getNGrams (js "return __id__+__num__;") 2).length = 0 ∧
      (getNGrams (js "return __id__-__num__;") 2).length = 0) := by decide
  have hg' : ¬ ((getNGrams (js "return __id__+__num__;") 2).length = 0 ∨
      (getNGrams (js "return __id__-__num__;") 2).length = 0) := by decide
  have hi : (setOf ((getNGrams (js "return __id__+__num__;") 2).filter fun x =>
      (getNGrams (js "return __id__-__num__;") 2).contains x)).length = 18 := by decide
  have hu : (setOf (getNGrams (js "return __id__+__num__;") 2 ++
      getNGrams (js "return __id__-__num__;") 2)).length = 22 := by decide
  have hn : calculateNGramSimilarity (js "return __id__+__num__;")
      (js "return __id__-__num__;") 2 = 18 / 22 := by
    unfold calculateNGramSimilarity
    simp only
    rw [if_neg hg, if_neg hg', hi, hu]
    norm_num
  have hl : calculateLevenshteinSimilarity (js "return __id__+__num__;")
      (js "return __id__-__num__;") = 21 / 22 := by
    unfold calculateLevenshteinSimilarity
    rw [t]
    simp only [l1, l2]
    norm_num
  have hc : calculateLCSSimilarity (js "return __id__+__num__;")
      (js "return __id__-__num__;") = 21 / 22 := by
    unfold calculateLCSSimilarity
    rw [c]
    simp only [l1, l2]
    norm_num
  obtain ⟨j, w, hj, hw, h⟩ := calculateSimilarity_eq_specBlend asciiLower
    (js "return __ID__+__NUM__;") (js "return __ID__-__NUM__;") (by decide) (by decide)
    (by decide)
  rw [n1, n2] at hj hw h
  rw [hjaro] at hj
  rw [hjw] at hw
  cases hj
  cases hw
  rw [b1, b2, h]
  unfold specBlend
  rw [hl, hc, hn, l1, l2]
  norm_num

/-! ### The bigrams of the empty string -/

theorem mem_setOf (xs : List Str) (x : Str) : x ∈ setOf xs ↔ x ∈ xs := by
  unfold setOf
  rw [mem_foldl_setAdd]
  simp

/-- The n-grams as the set of the windows of the padded string. -/
theorem getNGrams_eq_setOf (str : Str) (n : Nat) :
    getNGrams str n =
      if n ≤ (List.replicate (n - 1) 32 ++ str ++ List.replicate (n - 1) 32).length then
        setOf ((List.range
          ((List.replicate (n - 1) 32 ++ str ++ List.replicate (n - 1) 32).length - n + 1)).map
            fun i => ((List.replicate (n - 1) 32 ++ str ++ List.replicate (n - 1) 32).drop i).take n)
      else [] := by
  unfold getNGrams setOf
  simp only
  split_ifs
  · rw [List.foldl_map]
  · rfl

theorem infix_pair_iff (a b : Nat) (l : Str) :
    [a, b] <:+: l ↔ ∃ i, i + 2 ≤ l.length ∧ (l.drop i).take 2 = [a, b] := by
  constructor
  · rintro ⟨p, q, rfl⟩
    refine ⟨p.length, by simp, ?_⟩
    simp
  · rintro ⟨i, _, h⟩
    refine ⟨l.take i, (l.drop i).drop 2, ?_⟩
    rw [← h, List.append_assoc, List.take_append_drop, List.take_append_drop]

/-- A bigram of a string is a pair of adjacent code units of the string padded
with one space on both sides. -/
theorem mem_getNGrams_two (s : Str) (a b : Nat) :
    [a, b] ∈ getNGrams s 2 ↔ [a, b] <:+: ([32] ++ s ++ [32]) := by
  rw [getNGrams_eq_setOf, infix_pair_iff]
  have hp : List.replicate (2 - 1) 32 ++ s ++ List.replicate (2 - 1) 32 = [32] ++ s ++ [32] := rfl
  rw [hp, if_pos (by simp), mem_setOf]
  simp only [List.mem_map, List.mem_range]
  have hl : ([32] ++ s ++ [32]).length = s.length + 2 := by
    simp only [List.length_append, List.length_singleton]
    omega
  constructor
  · rintro ⟨i, hi, h⟩
    exact ⟨i, by omega, h⟩
  · rintro ⟨i, hi, h⟩
    exact ⟨i, by omega, h⟩

theorem getNGrams_nil_two : getNGrams [] 2 = [[32, 32]] := by decide

theorem getNGrams_two_ne_nil (s : Str) : getNGrams s 2 ≠ [] := by
  intro h
  have hm : ((([32] ++ s ++ [32]).drop 0).take 2) ∈ getNGrams s 2 := by
    rw [getNGrams_eq_setOf]
    have hp : List.replicate (2 - 1) 32 ++ s ++ List.replicate (2 - 1) 32 = [32] ++ s ++ [32] :=
      rfl
    rw [hp, if_pos (by simp), mem_setOf]
    exact List.mem_map.mpr ⟨0, by simp, rfl⟩
  rw [h] at hm
  simp at hm

/-- The bigram score of the empty string against `s` is zero exactly when the
padded `s` has no two adjacent spaces. -/
theorem calculateNGramSimilarity_nil_left (s : Str) :
    calculateNGramSimilarity [] s 2 = 0 ↔ ¬ [32, 32] <:+: ([32] ++ s ++ [32]) := by
  rw [← mem_getNGrams_two]
  unfold calculateNGramSimilarity
  simp only
  rw [getNGrams_nil_two]
  have hne := getNGrams_two_ne_nil s
  have hlen : (getNGrams s 2).length ≠ 0 := fun h => hne (List.length_eq_zero.mp h)
  rw [if_neg (by simp [hlen]), if_neg (by simp [hlen])]
  by_cases hm : [32, 32] ∈ getNGrams s 2
  · have hi : [[32, 32]].filter (fun x => (getNGrams s 2).contains x) = [[32, 32]] := by
      simp [hm]
    rw [hi]
    have h1 : (setOf [[32, 32]]).length = 1 := by decide
    have hu : (setOf ([[32, 32]] ++ getNGrams s 2)).length ≠ 0 := by
      intro h0
      have := (mem_setOf ([[32, 32]] ++ getNGrams s 2) [32, 32]).mpr (by simp)
      rw [List.length_eq_zero.mp h0] at this
      simp at this
    have hu' : ((setOf ([[32, 32]] ++ getNGrams s 2)).length : ℚ) ≠ 0 := by exact_mod_cast hu
    rw [h1]
    constructor
    · intro h
      exfalso
      rw [div_eq_zero_iff] at h
      rcases h with h | h
      · norm_num at h
      · exact hu' h
    · intro h
      exact absurd hm h
  · have hi : [[32, 32]].filter (fun x => (getNGrams s 2).contains x) = [] := by
      simp [hm]
    rw [hi]
    constructor
    · intro _
      exact hm
    · intro _
      simp [setOf]

/-- The padded string has two adjacent spaces when the string is empty, starts
or ends with a space, or has two adjacent spaces itself. -/
theorem padded_double_space (s : Str) :
    [32, 32] <:+: ([32] ++ s ++ [32]) ↔
      s = [] ∨ s.head? = some 32 ∨ s.getLast? = some 32 ∨ [32, 32] <:+: s := by
  have e : [32] ++ s ++ [32] = 32 :: (s ++ [32]) := rfl
  have hsuf : ([32, 32] = [] ∨ ∃ t, [32, 32] = t ++ [32] ∧ t <:+ s) ↔
      s.getLast? = some 32 := by
    rw [List.getLast?_eq_some_iff]
    constructor
    · rintro (h | ⟨t, ht, ys, rfl⟩)
      · exact absurd h (by simp)
      · have h1 : t = [32] :=
          List.append_cancel_right (show t ++ [32] = [32] ++ [32] from ht.symm)
        subst h1
        exact ⟨ys, rfl⟩
    · rintro ⟨ys, rfl⟩
      exact Or.inr ⟨[32], rfl, ys, rfl⟩
  have hpre : (32 = 32 ∧ [32] <+: s ++ [32]) ↔ s = [] ∨ s.head? = some 32 := by
    cases s with
    | nil => simp
    | cons c t =>
      simp only [List.cons_append, List.cons_prefix_cons, List.nil_prefix, and_true, true_and,
        List.head?_cons, Option.some.injEq, reduceCtorEq, false_or]
      exact eq_comm
  rw [e, List.infix_cons_iff, List.cons_prefix_cons, List.infix_concat_iff,
    List.suffix_concat_iff, hsuf, hpre]
  tauto

theorem padded_no_double_space (s : Str) :
    ¬ [32, 32] <:+: ([32] ++ s ++ [32]) ↔
      s ≠ [] ∧ s.head? ≠ some 32 ∧ s.getLast? ≠ some 32 ∧ ¬ [32, 32] <:+: s := by
  rw [padded_double_space]
  tauto

/-! ### The loop of the chunk extraction -/

/-- The text of a range from the start of a line to the end of a later line. -/
theorem getText_lines (document : TextDocument) (i last : Nat) (hi : i ≤ last)
    (hl : last < document.lineCount) :
    document.getText ⟨⟨i, 0⟩, ⟨last, (document.lineAt last).length⟩⟩ =
      List.intercalate document.eol ((document.lines.drop i).take (last + 1 - i)) := by
  unfold TextDocument.getText TextDocument.lineCount at *
  simp only
  rw [if_neg (by omega), List.take_length, List.drop_zero]
  congr 1
  have e : last + 1 - i = (last - i) + 1 := by omega
  rw [e, List.take_succ, List.getElem?_drop]
  have e2 : i + (last - i) = last := by omega
  rw [e2]
  unfold TextDocument.lineAt
  rw [List.getD_eq_getElem?_getD, List.getElem?_eq_getElem hl]
  rfl

theorem extractCodeChunksLoop_succ (document : TextDocument) (fuel i : Nat)
    (chunks : List CodeChunk) :
    extractCodeChunksLoop document (fuel + 1) i chunks =
      if i < document.lineCount then
        if min (i + 10) document.lineCount > i then
          if (trim (document.getText
                ⟨⟨i, 0⟩, ⟨min (i + 10) document.lineCount - 1,
                  (document.lineAt (min (i + 10) document.lineCount - 1)).length⟩⟩)).length > 30 ∧
              isCommentOnly (trim (document.getText
                ⟨⟨i, 0⟩, ⟨min (i + 10) document.lineCount - 1,
                  (document.lineAt (min (i + 10) document.lineCount - 1)).length⟩⟩)) = false ∧
              hasCodeStructure (trim (document.getText
                ⟨⟨i, 0⟩, ⟨min (i + 10) document.lineCount - 1,
                  (document.lineAt (min (i + 10) document.lineCount - 1)).length⟩⟩)) = true then
            extractCodeChunksLoop document fuel (i + 5)
              (chunks ++ [⟨trim (document.getText
                ⟨⟨i, 0⟩, ⟨min (i + 10) document.lineCount - 1,
                  (document.lineAt (min (i + 10) document.lineCount - 1)).length⟩⟩),
                ⟨⟨i, 0⟩, ⟨min (i + 10) document.lineCount - 1,
                  (document.lineAt (min (i + 10) document.lineCount - 1)).length⟩⟩⟩])
          else extractCodeChunksLoop document fuel (i + 5) chunks
        else extractCodeChunksLoop document fuel (i + 5) chunks
      else chunks := rfl

/-- One iteration of the loop pushes the window of its start line if it
qualifies. -/
theorem extractCodeChunksLoop_step (document : TextDocument) (fuel i : Nat)
    (chunks : List CodeChunk) (hi : i < document.lineCount) :
    extractCodeChunksLoop document (fuel + 1) i chunks =
      extractCodeChunksLoop document fuel (i + 5)
        (chunks ++ [specWindow document i].filter fun chunk => chunkQualifies chunk.code) := by
  have hlast : min (i + 10) document.lineCount - 1 = windowLast document.lineCount i := by
    unfold windowLast
    omega
  have htext : trim (document.getText
      ⟨⟨i, 0⟩, ⟨windowLast document.lineCount i,
        (document.lineAt (windowLast document.lineCount i)).length⟩⟩) =
      (specWindow document i).code := by
    unfold specWindow
    simp only
    rw [getText_lines document i _ (by unfold windowLast; omega) (by unfold windowLast; omega)]
  have hrange : (⟨⟨i, 0⟩, ⟨windowLast document.lineCount i,
        (document.lineAt (windowLast document.lineCount i)).length⟩⟩ : Range) =
      (specWindow document i).range := rfl
  rw [extractCodeChunksLoop_succ, if_pos hi, if_pos (by omega), hlast, htext, hrange]
  by_cases hq : chunkQualifies (specWindow document i).code = true
  · have hq' := hq
    unfold chunkQualifies at hq'
    simp only [Bool.and_eq_true, decide_eq_true_eq, Bool.not_eq_true'] at hq'
    rw [if_pos ⟨hq'.1.1, hq'.1.2, hq'.2⟩,
      List.filter_cons_of_pos (p := fun chunk : CodeChunk => chunkQualifies chunk.code) hq]
    rfl
  · have hq' : ¬ ((specWindow document i).code.length > 30 ∧
        isCommentOnly (specWindow document i).code = false ∧
        hasCodeStructure (specWindow document i).code = true) := by
      intro h
      apply hq
      unfold chunkQualifies
      simp only [Bool.and_eq_true, decide_eq_true_eq, Bool.not_eq_true']
      exact ⟨⟨h.1, h.2.1⟩, h.2.2⟩
    rw [if_neg hq',
      List.filter_cons_of_neg (p := fun chunk : CodeChunk => chunkQualifies chunk.code) hq]
    simp

/-- The loop from window `k` on, with enough fuel, pushes the qualifying windows
from `k` on. -/
theorem extractCodeChunksLoop_eq (document : TextDocument) :
    ∀ fuel k chunks, (document.lineCount + 4) / 5 ≤ fuel + k →
      extractCodeChunksLoop document fuel (5 * k) chunks =
        chunks ++
          (((List.range' k ((document.lineCount + 4) / 5 - k)).map fun k => 5 * k).map
            (specWindow document)).filter fun chunk => chunkQualifies chunk.code := by
  intro fuel
  induction fuel with
  | zero =>
    intro k chunks h
    have e : (document.lineCount + 4) / 5 - k = 0 := by omega
    rw [e]
    simp [extractCodeChunksLoop]
  | succ fuel ih =>
    intro k chunks h
    by_cases hi : 5 * k < document.lineCount
    · rw [extractCodeChunksLoop_step document fuel (5 * k) chunks hi]
      have e5 : 5 * k + 5 = 5 * (k + 1) := by omega
      rw [e5, ih (k + 1) _ (by omega)]
      have e : (document.lineCount + 4) / 5 - k = ((document.lineCount + 4) / 5 - (k + 1)) + 1 := by
        omega
      rw [e, List.range'_succ, List.map_cons, List.map_cons, List.append_assoc]
      congr 1
      rw [← List.filter_append]
      rfl
    · have e : (document.lineCount + 4) / 5 - k = 0 := by omega
      rw [e, extractCodeChunksLoop_succ, if_neg hi]
      simp

/-- `extractCodeChunks` returns the qualifying windows in ascending order. -/
theorem extractCodeChunks_eq (document : TextDocument) :
    extractCodeChunks document = specCodeChunks document := by
  unfold extractCodeChunks specCodeChunks windowStarts
  have := extractCodeChunksLoop_eq document document.lineCount 0 [] (by omega)
  rw [Nat.mul_zero] at this
  rw [this, List.nil_append, Nat.sub_zero, List.range_eq_range']

theorem mem_windowStarts (n i : Nat) : i ∈ windowStarts n ↔ i % 5 = 0 ∧ i < n := by
  unfold windowStarts
  simp only [List.mem_map, List.mem_range]
  constructor
  · rintro ⟨k, hk, rfl⟩
    omega
  · rintro ⟨h1, h2⟩
    exact ⟨i / 5, by omega, by omega⟩

theorem windowStarts_sorted (n : Nat) : (windowStarts n).Pairwise (· < ·) := by
  unfold windowStarts
  rw [List.pairwise_map]
  exact (List.pairwise_lt_range _).imp fun h => by omega

/-- Two consecutive windows share the lines from the start of the later one to
the end of the earlier one. -/
theorem sharedLines_windows (document : TextDocument) (i : Nat)
    (h : i + 5 < document.lineCount) :
    sharedLines (specWindow document i).range (specWindow document (i + 5)).range =
      min 5 (document.lineCount - (i + 5)) := by
  unfold sharedLines specWindow windowLast
  simp only
  omega

/-! ### The matcher against the matches of a pattern -/

theorem lastOr_nil (prev : Option Nat) : lastOr [] prev = prev := rfl

theorem lastOr_cons (c : Nat) (m : Str) (prev : Option Nat) :
    lastOr (c :: m) prev = lastOr m (some c) := by
  unfold lastOr
  cases m with
  | nil => rfl
  | cons d m =>
    rw [List.getLast?_cons_cons]
    cases h : (d :: m).getLast? with
    | some x => rfl
    | none => exact absurd h (by simp)

theorem lastOr_append (m1 m2 : Str) (prev : Option Nat) :
    lastOr (m1 ++ m2) prev = lastOr m2 (lastOr m1 prev) := by
  induction m1 generalizing prev with
  | nil => rfl
  | cons c m1 ih => rw [List.cons_append, lastOr_cons, lastOr_cons, ih]

theorem lastOr_concat (m : Str) (c : Nat) (prev : Option Nat) :
    lastOr (m ++ [c]) prev = some c := by
  rw [lastOr_append]
  rfl

/-- A repetition that returns has gone through a chain of matches of its body. -/
theorem starLoop_sound (m : Matcher) (D : Option Nat × Str → Option Nat × Str → Prop)
    (hm : ∀ st k r, m st k = some r →
      ∃ st', D (st.prev, st.rest) (st'.prev, st'.rest) ∧ k st' = some r)
    (greedy : Bool) :
    ∀ n st k r, starLoop m greedy n st k = some r →
      ∃ st', Relation.ReflTransGen D (st.prev, st.rest) (st'.prev, st'.rest) ∧
        k st' = some r := by
  intro n
  induction n with
  | zero =>
    intro st k r h
    exact ⟨st, Relation.ReflTransGen.refl, h⟩
  | succ n ih =>
    intro st k r h
    have hstep : ∀ r', (m st fun st' =>
        if st'.rest.length < st.rest.length then starLoop m greedy n st' k else none) = some r' →
        ∃ st', Relation.ReflTransGen D (st.prev, st.rest) (st'.prev, st'.rest) ∧
          k st' = some r' := by
      intro r' h1
      obtain ⟨st1, hd, hk⟩ := hm _ _ _ h1
      split at hk
      · obtain ⟨st2, hchain, hk2⟩ := ih st1 k r' hk
        exact ⟨st2, Relation.ReflTransGen.head hd hchain, hk2⟩
      · exact absurd hk (by simp)
    cases greedy with
    | true =>
      simp only [starLoop, if_true] at h
      cases h1 : (m st fun st' =>
          if st'.rest.length < st.rest.length then starLoop m true n st' k else none) with
      | some x =>
        rw [h1] at h
        simp only [Option.orElse] at h
        cases h
        exact hstep _ h1
      | none =>
        rw [h1] at h
        simp only [Option.orElse] at h
        exact ⟨st, Relation.ReflTransGen.refl, h⟩
    | false =>
      simp only [starLoop, Bool.false_eq_true, if_false] at h
      cases h1 : k st with
      | some x =>
        rw [h1] at h
        simp only [Option.orElse] at h
        cases h
        exact ⟨st, Relation.ReflTransGen.refl, h1⟩
      | none =>
        rw [h1] at h
        simp only [Option.orElse] at h
        exact hstep r h

/-- The matcher is sound: when it returns, the pattern has a match from the
start position to the position handed to the continuation. -/
theorem Re.run_sound (re : Re) :
    ∀ (st : MState) (k : MState → Option MState) (r : MState), re.run st k = some r →
      ∃ st', re.Den (st.prev, st.rest) (st'.prev, st'.rest) ∧ k st' = some r := by
  induction re with
  | eps =>
    intro st k r h
    exact ⟨st, rfl, h⟩
  | cls p =>
    intro st k r h
    simp only [Re.run] at h
    split at h
    · exact absurd h (by simp)
    · rename_i c cs hrest
      split at h
      · rename_i hp
        exact ⟨{ st with prev := some c, rest := cs }, ⟨c, hrest, hp, rfl⟩, h⟩
      · exact absurd h (by simp)
  | wordB =>
    intro st k r h
    simp only [Re.run] at h
    split at h
    · rename_i hb
      exact ⟨st, ⟨rfl, by simpa using hb⟩, h⟩
    · exact absurd h (by simp)
  | seq a b iha ihb =>
    intro st k r h
    simp only [Re.run] at h
    obtain ⟨st1, hd1, h1⟩ := iha _ _ _ h
    obtain ⟨st2, hd2, h2⟩ := ihb _ _ _ h1
    exact ⟨st2, ⟨_, hd1, hd2⟩, h2⟩
  | alt a b iha ihb =>
    intro st k r h
    simp only [Re.run] at h
    cases h1 : a.run st k with
    | some x =>
      rw [h1] at h
      simp only [Option.orElse] at h
      cases h
      obtain ⟨st1, hd, hk⟩ := iha _ _ _ h1
      exact ⟨st1, Or.inl hd, hk⟩
    | none =>
      rw [h1] at h
      simp only [Option.orElse] at h
      obtain ⟨st1, hd, hk⟩ := ihb _ _ _ h
      exact ⟨st1, Or.inr hd, hk⟩
  | star a iha =>
    intro st k r h
    simp only [Re.run] at h
    exact starLoop_sound _ _ (fun st k r h => iha st k r h) true _ st k r h
  | lazyStar a iha =>
    intro st k r h
    simp only [Re.run] at h
    exact starLoop_sound _ _ (fun st k r h => iha st k r h) false _ st k r h
  | group a iha =>
    intro st k r h
    simp only [Re.run] at h
    obtain ⟨st1, hd, hk⟩ := iha _ _ _ h
    exact ⟨{ st1 with cap := some (st.rest.take (st.rest.length - st1.rest.length)) }, hd, hk⟩

/-- A match consumes a piece of the text from its start position, and ends
after the last code unit of that piece. -/
theorem Re.den_append (re : Re) :
    ∀ a b, re.Den a b → ∃ m, a.2 = m ++ b.2 ∧ b.1 = lastOr m a.1 := by
  induction re with
  | eps =>
    intro a b h
    simp only [Re.Den] at h
    subst h
    exact ⟨[], rfl, rfl⟩
  | cls p =>
    intro a b h
    obtain ⟨c, h1, _, h3⟩ := h
    exact ⟨[c], h1, h3⟩
  | wordB =>
    intro a b h
    obtain ⟨h1, _⟩ := h
    subst h1
    exact ⟨[], rfl, rfl⟩
  | seq x y ihx ihy =>
    intro a b h
    obtain ⟨m, h1, h2⟩ := h
    obtain ⟨m1, e1, p1⟩ := ihx _ _ h1
    obtain ⟨m2, e2, p2⟩ := ihy _ _ h2
    refine ⟨m1 ++ m2, by rw [e1, e2, List.append_assoc], ?_⟩
    rw [p2, p1, lastOr_append]
  | alt x y ihx ihy =>
    intro a b h
    rcases h with h | h
    · exact ihx _ _ h
    · exact ihy _ _ h
  | star x ih =>
    intro a b h
    simp only [Re.Den] at h
    induction h with
    | refl => exact ⟨[], rfl, rfl⟩
    | tail _ hstep ihc =>
      obtain ⟨m1, e1, p1⟩ := ihc
      obtain ⟨m2, e2, p2⟩ := ih _ _ hstep
      refine ⟨m1 ++ m2, by rw [e1, e2, List.append_assoc], ?_⟩
      rw [p2, p1, lastOr_append]
  | lazyStar x ih =>
    intro a b h
    simp only [Re.Den] at h
    induction h with
    | refl => exact ⟨[], rfl, rfl⟩
    | tail _ hstep ihc =>
      obtain ⟨m1, e1, p1⟩ := ihc
      obtain ⟨m2, e2, p2⟩ := ih _ _ hstep
      refine ⟨m1 ++ m2, by rw [e1, e2, List.append_assoc], ?_⟩
      rw [p2, p1, lastOr_append]
  | group x ih =>
    intro a b h
    exact ih _ _ h

/-- A successful match attempt: the pattern has a match of the returned text
from the position of the attempt to the returned position. -/
theorem Re.matchAt_sound (re : Re) (prev : Option Nat) (rest m : Str) (st : MState)
    (h : re.matchAt prev rest = some (m, st)) :
    re.Den (prev, rest) (st.prev, st.rest) ∧ rest = m ++ st.rest ∧ st.prev = lastOr m prev := by
  unfold Re.matchAt at h
  split at h
  · rename_i st0 hrun
    simp only [Option.some.injEq, Prod.mk.injEq] at h
    obtain ⟨hm, hst⟩ := h
    subst hst
    obtain ⟨st1, hd, hk⟩ := Re.run_sound re _ _ _ hrun
    simp only [Option.some.injEq] at hk
    subst hk
    obtain ⟨m', e, p⟩ := Re.den_append re _ _ hd
    simp only at e p
    have hm' : m = m' := by
      rw [← hm, e]
      simp
    subst hm'
    exact ⟨hd, e, p⟩
  · exact absurd h (by simp)

/-! ### The greedy repetition of a class -/

theorem cls_run_nil (p : Nat → Bool) (prev : Option Nat) (cap : Option Str)
    (k : MState → Option MState) : (Re.cls p).run ⟨prev, [], cap⟩ k = none := rfl

theorem cls_run_cons (p : Nat → Bool) (prev : Option Nat) (c : Nat) (cs : Str)
    (cap : Option Str) (k : MState → Option MState) :
    (Re.cls p).run ⟨prev, c :: cs, cap⟩ k = if p c then k ⟨some c, cs, cap⟩ else none := rfl

theorem starLoop_zero (m : Matcher) (greedy : Bool) (st : MState)
    (k : MState → Option MState) : starLoop m greedy 0 st k = k st := rfl

theorem starLoop_greedy_succ (m : Matcher) (n : Nat) (st : MState)
    (k : MState → Option MState) :
    starLoop m true (n + 1) st k =
      (m st fun st' =>
        if st'.rest.length < st.rest.length then starLoop m true n st' k else none).orElse
        fun _ => k st := rfl

/-- The greedy repetition of a class takes the longest run of the class when
the continuation accepts the position after it. -/
theorem starLoop_cls_max (p : Nat → Bool) (k : MState → Option MState) (r : MState) :
    ∀ (rest : Str) (n : Nat) (prev : Option Nat) (cap : Option Str), rest.length ≤ n →
      k ⟨lastOr (rest.takeWhile p) prev, rest.dropWhile p, cap⟩ = some r →
      starLoop (fun s c => (Re.cls p).run s c) true n ⟨prev, rest, cap⟩ k = some r := by
  intro rest
  induction rest with
  | nil =>
    intro n prev cap _ hk
    cases n with
    | zero => exact hk
    | succ n =>
      rw [starLoop_greedy_succ, cls_run_nil]
      exact hk
  | cons c cs ih =>
    intro n prev cap hn hk
    cases n with
    | zero => simp at hn
    | succ n =>
      rw [starLoop_greedy_succ, cls_run_cons]
      by_cases hp : p c = true
      · rw [if_pos hp]
        simp only [List.length_cons, Nat.lt_succ_self, if_true]
        rw [List.takeWhile_cons, if_pos hp, List.dropWhile_cons, if_pos hp, lastOr_cons] at hk
        rw [ih n (some c) cap (by simpa using hn) hk]
        rfl
      · rw [if_neg hp]
        rw [List.takeWhile_cons, if_neg hp, List.dropWhile_cons, if_neg hp] at hk
        exact hk

/-! ### Whitespace collapsing -/

theorem spacesRe_matchAt_nil (prev : Option Nat) : spacesRe.matchAt prev [] = none := rfl

theorem spacesRe_matchAt_cons_neg (prev : Option Nat) (c : Nat) (cs : Str)
    (hc : isSpace c = false) : spacesRe.matchAt prev (c :: cs) = none := by
  unfold Re.matchAt spacesRe Re.plus
  simp only [Re.run, hc, Bool.false_eq_true, if_false]

/-- At a whitespace character the pattern `\s+` matches the whole run of
whitespace. -/
theorem spacesRe_matchAt_cons_pos (prev : Option Nat) (c : Nat) (cs : Str)
    (hc : isSpace c = true) :
    ∃ m st, spacesRe.matchAt prev (c :: cs) = some (m, st) ∧ m ≠ [] ∧
      st.rest = cs.dropWhile isSpace := by
  have hrun : spacesRe.run ⟨prev, c :: cs, none⟩ some =
      some ⟨lastOr (cs.takeWhile isSpace) (some c), cs.dropWhile isSpace, none⟩ := by
    unfold spacesRe Re.plus
    simp only [Re.run, hc, if_true]
    exact starLoop_cls_max isSpace some _ cs cs.length (some c) none le_rfl rfl
  unfold Re.matchAt
  rw [hrun]
  refine ⟨_, _, rfl, ?_, rfl⟩
  have hle : (cs.dropWhile isSpace).length ≤ cs.length :=
    (List.dropWhile_suffix isSpace).length_le
  intro h
  have := congrArg List.length h
  simp only [List.length_take, List.length_cons, List.length_nil] at this
  omega

theorem singleSpaced_nil : SingleSpaced [] := ⟨by simp, List.chain'_nil⟩

theorem singleSpaced_cons (c : Nat) (t : Str) :
    SingleSpaced (c :: t) ↔
      (isSpace c = true → c = 32) ∧ SingleSpaced t ∧
        (isSpace c = true → ∀ d, t.head? = some d → isSpace d = false) := by
  unfold SingleSpaced
  rw [List.chain'_cons']
  constructor
  · rintro ⟨h1, h2, h3⟩
    refine ⟨h1 c (List.mem_cons_self _ _), ⟨fun d hd => h1 d (List.mem_cons_of_mem _ hd), h3⟩, ?_⟩
    intro hc d hd
    have := h2 d (by simp [hd])
    cases hs : isSpace d
    · rfl
    · exact absurd ⟨hc, hs⟩ this
  · rintro ⟨h1, ⟨h2, h3⟩, h4⟩
    refine ⟨?_, ?_, h3⟩
    · intro d hd
      rcases List.mem_cons.mp hd with rfl | hd
      · exact h1
      · exact h2 d hd
    · intro d hd
      rintro ⟨hc, hs⟩
      have := h4 hc d (by simpa using hd)
      rw [this] at hs
      exact absurd hs (by simp)

theorem singleSpaced_suffix (s t : Str) (h : SingleSpaced s) (hst : t <:+ s) :
    SingleSpaced t :=
  ⟨fun c hc => h.1 c (hst.subset hc), List.Chain'.suffix h.2 hst⟩

theorem singleSpaced_initial (s t : Str) (h : SingleSpaced s) (hst : t <+: s) :
    SingleSpaced t :=
  ⟨fun c hc => h.1 c (hst.subset hc), List.Chain'.prefix h.2 hst⟩

theorem singleSpaced_append (r t : Str) (hr : SingleSpaced r) (ht : SingleSpaced t)
    (hl : ∀ c, r.getLast? = some c → isSpace c = false) : SingleSpaced (r ++ t) := by
  refine ⟨?_, ?_⟩
  · intro c hc
    rcases List.mem_append.mp hc with h | h
    · exact hr.1 c h
    · exact ht.1 c h
  · rw [List.chain'_append]
    refine ⟨hr.2, ht.2, ?_⟩
    intro x hx y _
    rintro ⟨hxs, _⟩
    rw [hl x (by simpa using hx)] at hxs
    exact absurd hxs (by simp)

/-- The output of the whitespace pass is single-spaced, and starts with
whitespace only if the input does. -/
theorem replaceLoop_spaces (n : Nat) :
    ∀ (prev : Option Nat) (rest : Str), rest.length < n →
      SingleSpaced (replaceLoop spacesRe (fun _ => js " ") n prev rest) ∧
        ∀ c, (replaceLoop spacesRe (fun _ => js " ") n prev rest).head? = some c →
          isSpace c = true → ∃ d, rest.head? = some d ∧ isSpace d = true := by
  induction n with
  | zero => intro prev rest h; omega
  | succ n ih =>
    intro prev rest hlen
    cases rest with
    | nil =>
      simp only [replaceLoop, spacesRe_matchAt_nil]
      exact ⟨singleSpaced_nil, by simp⟩
    | cons c cs =>
      cases hc : isSpace c with
      | false =>
        simp only [replaceLoop, spacesRe_matchAt_cons_neg prev c cs hc]
        obtain ⟨h1, _⟩ := ih (some c) cs (by simpa using hlen)
        refine ⟨(singleSpaced_cons _ _).mpr ⟨by simp [hc], h1, by simp [hc]⟩, ?_⟩
        intro d hd hs
        simp only [List.head?_cons, Option.some.injEq] at hd
        subst hd
        rw [hc] at hs
        exact absurd hs (by simp)
      | true =>
        obtain ⟨m, st, hm, hne, hrest⟩ := spacesRe_matchAt_cons_pos prev c cs hc
        have hempty : m.isEmpty = false := by
          cases m with
          | nil => exact absurd rfl hne
          | cons _ _ => rfl
        simp only [replaceLoop, hm, hempty, Bool.false_eq_true, if_false]
        have hle : (cs.dropWhile isSpace).length ≤ cs.length :=
          (List.dropWhile_suffix isSpace).length_le
        obtain ⟨h1, h2⟩ := ih st.prev st.rest (by
          rw [hrest]
          simp only [List.length_cons] at hlen
          omega)
        have hhead : ∀ d, (replaceLoop spacesRe (fun _ => js " ") n st.prev st.rest).head? =
            some d → isSpace d = false := by
          intro d hd
          cases hs : isSpace d with
          | false => rfl
          | true =>
            obtain ⟨e, he, hes⟩ := h2 d hd hs
            rw [hrest] at he
            have := List.head?_dropWhile_not isSpace cs
            rw [he] at this
            simp only at this
            rw [this] at hes
            exact absurd hes (by simp)
        refine ⟨?_, ?_⟩
        · exact (singleSpaced_cons 32 _).mpr ⟨fun _ => rfl, h1, fun _ d hd => hhead d hd⟩
        · intro d _ _
          exact ⟨c, rfl, hc⟩

/-- A pass that replaces non-empty matches by a fixed text without whitespace
at its ends keeps a single-spaced string single-spaced. -/
theorem replaceLoop_singleSpaced (re : Re) (r : Str) (hr : SingleSpaced r) (hr0 : r ≠ [])
    (hrh : ∀ c, r.head? = some c → isSpace c = false)
    (hrl : ∀ c, r.getLast? = some c → isSpace c = false)
    (hmatch : ∀ prev rest m st, re.matchAt prev rest = some (m, st) → m ≠ []) (n : Nat) :
    ∀ (prev : Option Nat) (rest : Str), rest.length < n → SingleSpaced rest →
      SingleSpaced (replaceLoop re (fun _ => r) n prev rest) ∧
        ∀ c, (replaceLoop re (fun _ => r) n prev rest).head? = some c →
          isSpace c = true → ∃ d, rest.head? = some d ∧ isSpace d = true := by
  induction n with
  | zero => intro prev rest h; omega
  | succ n ih =>
    intro prev rest hlen hss
    cases hm : re.matchAt prev rest with
    | some p =>
      obtain ⟨m, st⟩ := p
      have hne := hmatch prev rest m st hm
      have hempty : m.isEmpty = false := by
        cases m with
        | nil => exact absurd rfl hne
        | cons _ _ => rfl
      obtain ⟨_, hsplit, _⟩ := Re.matchAt_sound re prev rest m st hm
      have hlt : st.rest.length < n := by
        have := congrArg List.length hsplit
        rw [List.length_append] at this
        have : 0 < m.length := List.length_pos.mpr hne
        omega
      have hsuf : st.rest <:+ rest := ⟨m, hsplit.symm⟩
      obtain ⟨h1, _⟩ := ih st.prev st.rest hlt (singleSpaced_suffix _ _ hss hsuf)
      simp only [replaceLoop, hm, hempty, Bool.false_eq_true, if_false]
      refine ⟨singleSpaced_append _ _ hr h1 hrl, ?_⟩
      intro c hc hs
      exfalso
      cases r with
      | nil => exact hr0 rfl
      | cons d ds =>
        simp only [List.cons_append, List.head?_cons, Option.some.injEq] at hc
        subst hc
        rw [hrh d rfl] at hs
        exact absurd hs (by simp)
    | none =>
      cases rest with
      | nil =>
        simp only [replaceLoop, hm]
        exact ⟨singleSpaced_nil, by simp⟩
      | cons c cs =>
        simp only [replaceLoop, hm]
        obtain ⟨hc1, hc2, hc3⟩ := (singleSpaced_cons c cs).mp hss
        obtain ⟨h1, h2⟩ := ih (some c) cs (by simpa using hlen) hc2
        refine ⟨(singleSpaced_cons _ _).mpr ⟨hc1, h1, ?_⟩, ?_⟩
        · intro hcs d hd
          cases hs : isSpace d with
          | false => rfl
          | true =>
            obtain ⟨e, he, hes⟩ := h2 d hd hs
            rw [hc3 hcs e he] at hes
            exact absurd hes (by simp)
        · intro d hd hs
          simp only [List.head?_cons, Option.some.injEq] at hd
          subst hd
          exact ⟨c, rfl, hs⟩

/-! ### The normal forms are collapsed -/

theorem Re.den_length_le (re : Re) (a b : Option Nat × Str) (h : re.Den a b) :
    b.2.length ≤ a.2.length := by
  obtain ⟨m, e, _⟩ := Re.den_append re a b h
  rw [e, List.length_append]
  omega

/-- A match of a pattern that starts with a class is not empty. -/
theorem matchAt_seq_cls_ne_nil (p : Nat → Bool) (x : Re) (prev : Option Nat) (rest m : Str)
    (st : MState) (h : (Re.seq (.cls p) x).matchAt prev rest = some (m, st)) : m ≠ [] := by
  obtain ⟨hd, hsplit, _⟩ := Re.matchAt_sound _ prev rest m st h
  obtain ⟨mid, ⟨c, hc, _, _⟩, hx⟩ := hd
  have hle := Re.den_length_le x _ _ hx
  intro hm
  subst hm
  simp only at hc hle
  rw [List.nil_append] at hsplit
  rw [hsplit] at hc
  have := congrArg List.length hc
  simp only [List.length_cons] at this
  omega

theorem stringRe_matchAt_ne_nil (prev : Option Nat) (rest m : Str) (st : MState)
    (h : stringRe.matchAt prev rest = some (m, st)) : m ≠ [] :=
  matchAt_seq_cls_ne_nil _ _ prev rest m st h

theorem numberRe_matchAt_ne_nil (prev : Option Nat) (rest m : Str) (st : MState)
    (h : numberRe.matchAt prev rest = some (m, st)) : m ≠ [] := by
  obtain ⟨hd, hsplit, _⟩ := Re.matchAt_sound _ prev rest m st h
  obtain ⟨m1, ⟨h1, _⟩, m2, ⟨m3, ⟨c, hc, _, _⟩, hstar⟩, ⟨h2, _⟩⟩ := hd
  have hle := Re.den_length_le _ _ _ hstar
  intro hm
  subst hm
  subst h1
  subst h2
  simp only at hc hle
  rw [List.nil_append] at hsplit
  rw [hsplit] at hc
  have := congrArg List.length hc
  simp only [List.length_cons] at this
  omega

/-- Trimming a single-spaced string gives a collapsed string. -/
theorem collapsed_trim (s : Str) (h : SingleSpaced s) : Collapsed (trim s) := by
  have h1 : SingleSpaced (s.dropWhile isSpace) :=
    singleSpaced_suffix _ _ h (List.dropWhile_suffix isSpace)
  have hpre : trim s <+: s.dropWhile isSpace := by
    unfold trim
    rw [← List.reverse_suffix, List.reverse_reverse]
    exact List.dropWhile_suffix isSpace
  refine ⟨singleSpaced_initial _ _ h1 hpre, ?_, ?_⟩
  · intro c hc
    obtain ⟨t, ht⟩ := hpre
    have hhead : (s.dropWhile isSpace).head? = some c := by
      rw [← ht]
      cases hts : trim s with
      | nil => rw [hts] at hc; simp at hc
      | cons d ds =>
        rw [hts] at hc
        simpa using hc
    have := List.head?_dropWhile_not isSpace s
    rw [hhead] at this
    exact this
  · intro c hc
    unfold trim at hc
    rw [List.getLast?_reverse] at hc
    have := List.head?_dropWhile_not isSpace (s.dropWhile isSpace).reverse
    rw [hc] at this
    exact this

theorem singleSpaced_of_no_space (r : Str) (h : ∀ c, c ∈ r → isSpace c = false) :
    SingleSpaced r := by
  refine ⟨?_, ?_⟩
  · intro c hc hs
    rw [h c hc] at hs
    exact absurd hs (by simp)
  · apply List.Pairwise.chain'
    refine List.Pairwise.imp_of_mem ?_
      (List.pairwise_of_forall (R := fun _ _ => True) (fun _ _ => trivial))
    intro a b ha _ _
    rintro ⟨hs, _⟩
    rw [h a ha] at hs
    exact absurd hs (by simp)

theorem replaceAll_spaces_singleSpaced (s : Str) :
    SingleSpaced (replaceAll s spacesRe fun _ => js " ") :=
  (replaceLoop_spaces (s.length + 1) none s (Nat.lt_succ_self _)).1

theorem replaceAll_string_singleSpaced (s : Str) (h : SingleSpaced s) :
    SingleSpaced (replaceAll s stringRe fun _ => js "\"__STR__\"") :=
  (replaceLoop_singleSpaced stringRe (js "\"__STR__\"") (singleSpaced_of_no_space _ (by decide)) (by decide) (by decide) (by decide)
    stringRe_matchAt_ne_nil (s.length + 1) none s (Nat.lt_succ_self _) h).1

theorem replaceAll_number_singleSpaced (s : Str) (h : SingleSpaced s) :
    SingleSpaced (replaceAll s numberRe fun _ => js "__NUM__") :=
  (replaceLoop_singleSpaced numberRe (js "__NUM__") (singleSpaced_of_no_space _ (by decide)) (by decide) (by decide) (by decide)
    numberRe_matchAt_ne_nil (s.length + 1) none s (Nat.lt_succ_self _) h).1

/-! ### The matches of the function-body pattern -/

theorem den_star_cls (p : Nat → Bool) (a b : Option Nat × Str)
    (h : (Re.star (.cls p)).Den a b) :
    ∃ xs, a.2 = xs ++ b.2 ∧ (∀ c, c ∈ xs → p c = true) ∧ b.1 = lastOr xs a.1 := by
  simp only [Re.Den] at h
  induction h with
  | refl => exact ⟨[], rfl, by simp, rfl⟩
  | tail _ hstep ih =>
    obtain ⟨xs, e, hp, hl⟩ := ih
    obtain ⟨c, hc, hpc, hb⟩ := hstep
    refine ⟨xs ++ [c], by rw [e, hc, List.append_assoc]; rfl, ?_, ?_⟩
    · intro d hd
      rcases List.mem_append.mp hd with hd | hd
      · exact hp d hd
      · rw [List.mem_singleton.mp hd]; exact hpc
    · rw [hb, lastOr_concat]

theorem den_plus_cls (p : Nat → Bool) (a b : Option Nat × Str)
    (h : (Re.plus (.cls p)).Den a b) :
    ∃ xs, xs ≠ [] ∧ a.2 = xs ++ b.2 ∧ (∀ c, c ∈ xs → p c = true) ∧ b.1 = lastOr xs a.1 := by
  obtain ⟨mid, ⟨c, hc, hpc, hm⟩, hstar⟩ := h
  obtain ⟨xs, e, hp, hl⟩ := den_star_cls p mid b hstar
  refine ⟨c :: xs, by simp, by rw [hc, e]; rfl, ?_, ?_⟩
  · intro d hd
    rcases List.mem_cons.mp hd with rfl | hd
    · exact hpc
    · exact hp d hd
  · rw [hl, hm, lastOr_cons]

theorem den_chr (c : Nat) (a b : Option Nat × Str) (h : (Re.chr c).Den a b) :
    a.2 = c :: b.2 ∧ b.1 = some c := by
  obtain ⟨d, hd, hp, hb⟩ := h
  have : d = c := by simpa using hp
  subst this
  exact ⟨hd, hb⟩

theorem litI_cons (c : Nat) (w : Str) :
    Re.litI (c :: w) =
      .seq (.cls fun x => asciiLower [x] == asciiLower [c]) (Re.litI w) := rfl

theorem asciiLower_cons (x : Nat) (kw : Str) :
    asciiLower (x :: kw) = asciiLower [x] ++ asciiLower kw := rfl

theorem den_litI (w : Str) :
    ∀ a b, (Re.litI w).Den a b →
      ∃ kw, a.2 = kw ++ b.2 ∧ EqIgnoreCase kw w ∧ b.1 = lastOr kw a.1 := by
  induction w with
  | nil =>
    intro a b h
    have : b = a := h
    subst this
    exact ⟨[], rfl, rfl, rfl⟩
  | cons c w ih =>
    intro a b h
    rw [litI_cons] at h
    obtain ⟨mid, ⟨x, hx, hpx, hm⟩, hrest⟩ := h
    obtain ⟨kw, e, hkw, hl⟩ := ih mid b hrest
    refine ⟨x :: kw, by rw [hx, e]; rfl, ?_, ?_⟩
    · unfold EqIgnoreCase at hkw ⊢
      rw [asciiLower_cons, asciiLower_cons c w, hkw]
      congr 1
      simpa using hpx
    · rw [hl, hm, lastOr_cons]

/-- A match of the function-body pattern starts with a function header. -/
theorem den_functionBodyRe (a b : Option Nat × Str) (h : functionBodyRe.Den a b) :
    ∃ hd r, a.2 = hd ++ r ∧ IsFunctionHeader hd := by
  obtain ⟨s1, h1, s2, h2, s3, h3, s4, h4, s5, h5, s6, h6, s7, h7, s8, h8, s9, h9, _⟩ := h
  obtain ⟨kw, e1, hkw, _⟩ := den_litI _ _ _ h1
  obtain ⟨ws1, n1, e2, p2, _⟩ := den_plus_cls _ _ _ h2
  obtain ⟨name, n3, e3, p3, _⟩ := den_plus_cls _ _ _ h3
  obtain ⟨ws2, e4, p4, _⟩ := den_star_cls _ _ _ h4
  obtain ⟨e5, _⟩ := den_chr _ _ _ h5
  obtain ⟨params, e6, p6, _⟩ := den_star_cls _ _ _ h6
  obtain ⟨e7, _⟩ := den_chr _ _ _ h7
  obtain ⟨ws3, e8, p8, _⟩ := den_star_cls _ _ _ h8
  obtain ⟨e9, _⟩ := den_chr _ _ _ h9
  refine ⟨kw ++ (ws1 ++ (name ++ (ws2 ++ (40 :: (params ++ (41 :: (ws3 ++ [123]))))))), s9.2,
    ?_, kw, ws1, name, ws2, params, ws3, rfl, hkw, n1, p2, n3, p3, p4, ?_, p8⟩
  · rw [e1, e2, e3, e4, e5, e6, e7, e8, e9]
    simp [List.append_assoc]
  · intro c hc
    simpa using p6 c hc

/-! ### The matcher on a function header -/

theorem run_seq (a b : Re) (st : MState) (k : MState → Option MState) :
    (Re.seq a b).run st k = a.run st fun st' => b.run st' k := rfl

theorem run_chr (c : Nat) (prev : Option Nat) (rest : Str) (cap : Option Str)
    (k : MState → Option MState) :
    (Re.chr c).run ⟨prev, c :: rest, cap⟩ k = k ⟨some c, rest, cap⟩ := by
  unfold Re.chr
  rw [cls_run_cons]
  simp

theorem run_litI (w : Str) :
    ∀ (kw : Str) (prev : Option Nat) (rest : Str) (cap : Option Str)
      (k : MState → Option MState), EqIgnoreCase kw w →
      (Re.litI w).run ⟨prev, kw ++ rest, cap⟩ k = k ⟨lastOr kw prev, rest, cap⟩ := by
  induction w with
  | nil =>
    intro kw prev rest cap k h
    unfold EqIgnoreCase asciiLower at h
    have : kw = [] := by simpa using h
    subst this
    rfl
  | cons c w ih =>
    intro kw prev rest cap k h
    cases kw with
    | nil =>
      unfold EqIgnoreCase asciiLower at h
      simp at h
    | cons x kw =>
      unfold EqIgnoreCase at h
      rw [asciiLower_cons, asciiLower_cons c w] at h
      have hx : asciiLower [x] = asciiLower [c] := by
        have := List.append_inj_left h (by simp [asciiLower])
        exact this
      have hrest : asciiLower kw = asciiLower w := by
        have := List.append_inj_right h (by simp [asciiLower])
        exact this
      rw [litI_cons, run_seq, List.cons_append, cls_run_cons]
      simp only [hx, beq_self_eq_true, if_true]
      rw [ih kw (some x) rest cap k hrest, lastOr_cons]

theorem takeWhile_append_of_all (p : Nat → Bool) (xs rest : Str)
    (hxs : ∀ c, c ∈ xs → p c = true) (hrest : ∀ d, rest.head? = some d → p d = false) :
    (xs ++ rest).takeWhile p = xs ∧ (xs ++ rest).dropWhile p = rest := by
  induction xs with
  | nil =>
    cases rest with
    | nil => exact ⟨rfl, rfl⟩
    | cons d ds =>
      have := hrest d rfl
      simp [List.takeWhile_cons, List.dropWhile_cons, this]
  | cons x xs ih =>
    have hx := hxs x (List.mem_cons_self _ _)
    obtain ⟨h1, h2⟩ := ih (fun c hc => hxs c (List.mem_cons_of_mem _ hc))
    simp [List.takeWhile_cons, List.dropWhile_cons, hx, h1, h2]

/-- The greedy repetition of a class on a run of the class that ends before a
code unit outside the class. -/
theorem run_star_cls (p : Nat → Bool) (xs rest : Str) (prev : Option Nat) (cap : Option Str)
    (k : MState → Option MState) (r : MState)
    (hxs : ∀ c, c ∈ xs → p c = true) (hrest : ∀ d, rest.head? = some d → p d = false)
    (hk : k ⟨lastOr xs prev, rest, cap⟩ = some r) :
    (Re.star (.cls p)).run ⟨prev, xs ++ rest, cap⟩ k = some r := by
  obtain ⟨h1, h2⟩ := takeWhile_append_of_all p xs rest hxs hrest
  have : (Re.star (.cls p)).run ⟨prev, xs ++ rest, cap⟩ k =
      starLoop (fun s c => (Re.cls p).run s c) true (xs ++ rest).length
        ⟨prev, xs ++ rest, cap⟩ k := rfl
  rw [this]
  apply starLoop_cls_max p k r (xs ++ rest) _ prev cap le_rfl
  rw [h1, h2]
  exact hk

theorem run_plus_cls (p : Nat → Bool) (xs rest : Str) (prev : Option Nat) (cap : Option Str)
    (k : MState → Option MState) (r : MState) (hne : xs ≠ [])
    (hxs : ∀ c, c ∈ xs → p c = true) (hrest : ∀ d, rest.head? = some d → p d = false)
    (hk : k ⟨lastOr xs prev, rest, cap⟩ = some r) :
    (Re.plus (.cls p)).run ⟨prev, xs ++ rest, cap⟩ k = some r := by
  cases xs with
  | nil => exact absurd rfl hne
  | cons x xs =>
    unfold Re.plus
    rw [run_seq, List.cons_append, cls_run_cons, if_pos (hxs x (List.mem_cons_self _ _))]
    apply run_star_cls p xs rest (some x) cap k r
      (fun c hc => hxs c (List.mem_cons_of_mem _ hc)) hrest
    rw [← lastOr_cons]
    exact hk

/-! ### The repetition of any code unit, with backtracking -/

theorem starLoop_any_none (k : MState → Option MState) :
    ∀ (t : Str) (n : Nat) (prev : Option Nat) (cap : Option Str),
      (∀ u v, u ++ v = t → k ⟨lastOr u prev, v, cap⟩ = none) →
      starLoop (fun s c => (Re.cls fun _ => true).run s c) true n ⟨prev, t, cap⟩ k = none := by
  intro t
  induction t with
  | nil =>
    intro n prev cap h
    have h0 := h [] [] rfl
    cases n with
    | zero => exact h0
    | succ n =>
      rw [starLoop_greedy_succ, cls_run_nil]
      exact h0
  | cons c cs ih =>
    intro n prev cap h
    have h0 := h [] (c :: cs) rfl
    cases n with
    | zero => exact h0
    | succ n =>
      rw [starLoop_greedy_succ, cls_run_cons]
      simp only [if_true, List.length_cons, Nat.lt_succ_self]
      rw [ih n (some c) cap (fun u v huv => by
        have := h (c :: u) v (by rw [List.cons_append, huv])
        rw [lastOr_cons] at this
        exact this)]
      exact h0

/-- The greedy repetition of any code unit gives back code units until the
continuation accepts: it returns at the longest split that the continuation
accepts. -/
theorem starLoop_any_backtrack (k : MState → Option MState) (r : MState) :
    ∀ (u v : Str) (n : Nat) (prev : Option Nat) (cap : Option Str), (u ++ v).length ≤ n →
      k ⟨lastOr u prev, v, cap⟩ = some r →
      (∀ u' v', u' ++ v' = u ++ v → u.length < u'.length →
        k ⟨lastOr u' prev, v', cap⟩ = none) →
      starLoop (fun s c => (Re.cls fun _ => true).run s c) true n ⟨prev, u ++ v, cap⟩ k =
        some r := by
  intro u
  induction u with
  | nil =>
    intro v n prev cap _ hk hlong
    cases n with
    | zero => exact hk
    | succ n =>
      cases v with
      | nil =>
        rw [List.nil_append, starLoop_greedy_succ, cls_run_nil]
        exact hk
      | cons c cs =>
        rw [List.nil_append, starLoop_greedy_succ, cls_run_cons]
        simp only [if_true, List.length_cons, Nat.lt_succ_self]
        rw [starLoop_any_none k cs n (some c) cap (fun u' v' huv => by
          have := hlong (c :: u') v' (by rw [List.cons_append, huv]; rfl) (by simp)
          rw [lastOr_cons] at this
          exact this)]
        exact hk
  | cons x u ih =>
    intro v n prev cap hn hk hlong
    cases n with
    | zero => simp at hn
    | succ n =>
      rw [List.cons_append, starLoop_greedy_succ, cls_run_cons]
      simp only [if_true, List.length_cons, Nat.lt_succ_self]
      rw [ih v n (some x) cap (by simpa using hn) (by rw [← lastOr_cons]; exact hk)
        (fun u' v' huv hlt => by
          have := hlong (x :: u') v' (by rw [List.cons_append, huv]; rfl) (by simpa using hlt)
          rw [lastOr_cons] at this
          exact this)]
      rfl

/-! ### The function-body pattern on a function header -/

theorem isSpace_of_isWordChar (c : Nat) (h : isWordChar c = true) : isSpace c = false := by
  unfold isWordChar isDigit at h
  unfold isSpace
  simp only [Bool.or_eq_true, Bool.and_eq_true, decide_eq_true_eq, beq_iff_eq] at h
  simp only [Bool.or_eq_false_iff, Bool.and_eq_false_iff, decide_eq_false_iff_not,
    beq_eq_false_iff_ne, ne_eq]
  omega

theorem isWordChar_of_isSpace (c : Nat) (h : isSpace c = true) : isWordChar c = false := by
  cases hw : isWordChar c with
  | false => rfl
  | true =>
    rw [isSpace_of_isWordChar c hw] at h
    exact absurd h (by simp)

theorem head?_append_cons (xs : Str) (c : Nat) (rest : Str) (d : Nat)
    (h : (xs ++ c :: rest).head? = some d) : d ∈ xs ∨ d = c := by
  cases xs with
  | nil =>
    simp only [List.nil_append, List.head?_cons, Option.some.injEq] at h
    exact Or.inr h.symm
  | cons x xs =>
    simp only [List.cons_append, List.head?_cons, Option.some.injEq] at h
    exact Or.inl (by rw [← h]; exact List.mem_cons_self _ _)

theorem head?_append_of_ne_nil (xs rest : Str) (d : Nat) (hne : xs ≠ [])
    (h : (xs ++ rest).head? = some d) : d ∈ xs := by
  cases xs with
  | nil => exact absurd rfl hne
  | cons x xs =>
    simp only [List.cons_append, List.head?_cons, Option.some.injEq] at h
    rw [← h]
    exact List.mem_cons_self _ _

theorem run_group (a : Re) (st : MState) (k : MState → Option MState) :
    (Re.group a).run st k =
      a.run st fun st' =>
        k { st' with cap := some (st.rest.take (st.rest.length - st'.rest.length)) } := rfl

/-- The end of the function-body pattern, `([\s\S]*)}`, captures the text up to
the last `}`. -/
theorem run_body_group (prev : Option Nat) (body suffix : Str) (cap : Option Str)
    (hsuffix : ∀ c, c ∈ suffix → c ≠ 125) :
    (Re.seq (.group (.star (.cls fun _ => true))) (Re.chr 125)).run
        ⟨prev, body ++ 125 :: suffix, cap⟩ some =
      some ⟨some 125, suffix, some body⟩ := by
  rw [run_seq, run_group]
  have hstar : ∀ (st : MState) (k : MState → Option MState),
      (Re.star (.cls fun _ => true)).run st k =
        starLoop (fun s c => (Re.cls fun _ => true).run s c) true st.rest.length st k :=
    fun _ _ => rfl
  rw [hstar]
  apply starLoop_any_backtrack _ _ body (125 :: suffix) _ prev cap le_rfl
  · simp only
    rw [run_chr]
    congr 3
    have e : (body ++ 125 :: suffix).length - (125 :: suffix).length = body.length := by
      simp
    rw [e, List.take_left']
    rfl
  · intro u' v' huv hlt
    simp only
    cases v' with
    | nil => rfl
    | cons d ds =>
      have hd : d ∈ suffix := by
        rcases List.append_eq_append_iff.mp huv with ⟨a', h1, h2⟩ | ⟨c', h1, h2⟩
        · have hl := congrArg List.length h1
          rw [List.length_append] at hl
          omega
        · cases c' with
          | nil =>
            have hl := congrArg List.length h1
            simp at hl
            omega
          | cons e es =>
            simp only [List.cons_append, List.cons.injEq] at h2
            rw [h2.2]
            simp
      have hne := hsuffix d hd
      unfold Re.chr
      rw [cls_run_cons]
      simp [hne]

/-- On a function header followed by a body, `}` and a text without `}`, the
function-body pattern matches up to that `}` and captures the body. -/
theorem functionBodyRe_run (prev : Option Nat)
    (kw ws1 name ws2 params ws3 body suffix : Str)
    (hkw : EqIgnoreCase kw (js "function"))
    (hws1 : ws1 ≠ []) (hws1s : ∀ c, c ∈ ws1 → isSpace c = true)
    (hname : name ≠ []) (hnamew : ∀ c, c ∈ name → isWordChar c = true)
    (hws2 : ∀ c, c ∈ ws2 → isSpace c = true)
    (hparams : ∀ c, c ∈ params → c ≠ 41)
    (hws3 : ∀ c, c ∈ ws3 → isSpace c = true)
    (hsuffix : ∀ c, c ∈ suffix → c ≠ 125) :
    functionBodyRe.run
        ⟨prev, kw ++ (ws1 ++ (name ++ (ws2 ++ (40 :: (params ++ (41 :: (ws3 ++
          (123 :: (body ++ 125 :: suffix))))))))), none⟩ some =
      some ⟨some 125, suffix, some body⟩ := by
  unfold functionBodyRe
  rw [run_seq, run_litI _ kw _ _ _ _ hkw, run_seq]
  apply run_plus_cls isSpace ws1 _ _ _ _ _ hws1 hws1s
  · intro d hd
    exact isSpace_of_isWordChar d (hnamew d (head?_append_of_ne_nil _ _ d hname hd))
  beta_reduce
  rw [run_seq]
  apply run_plus_cls isWordChar name _ _ _ _ _ hname hnamew
  · intro d hd
    rcases head?_append_cons _ _ _ d hd with h | h
    · exact isWordChar_of_isSpace d (hws2 d h)
    · rw [h]; decide
  beta_reduce
  rw [run_seq]
  apply run_star_cls isSpace ws2 _ _ _ _ _ hws2
  · intro d hd
    simp only [List.head?_cons, Option.some.injEq] at hd
    rw [← hd]; decide
  beta_reduce
  rw [run_seq, run_chr, run_seq]
  apply run_star_cls (fun c => c != 41) params _ _ _ _ _ (fun c hc => by simpa using hparams c hc)
  · intro d hd
    simp only [List.head?_cons, Option.some.injEq] at hd
    rw [← hd]; decide
  beta_reduce
  rw [run_seq, run_chr, run_seq]
  apply run_star_cls isSpace ws3 _ _ _ _ _ hws3
  · intro d hd
    simp only [List.head?_cons, Option.some.injEq] at hd
    rw [← hd]; decide
  beta_reduce
  rw [run_seq, run_chr]
  exact run_body_group _ body suffix none hsuffix

/-! ### The leftmost match -/

theorem searchFrom_cons (re : Re) (prev : Option Nat) (c : Nat) (cs : Str) :
    searchFrom re prev (c :: cs) =
      match re.matchAt prev (c :: cs) with
      | some r => some r
      | none => searchFrom re (some c) cs := rfl

/-- The search skips the positions at which the pattern has no match. -/
theorem searchFrom_skip (re : Re) :
    ∀ (pre : Str) (prev : Option Nat) (rest : Str),
      (∀ p1 p2, pre = p1 ++ p2 → p2 ≠ [] → re.matchAt (lastOr p1 prev) (p2 ++ rest) = none) →
      searchFrom re prev (pre ++ rest) = searchFrom re (lastOr pre prev) rest := by
  intro pre
  induction pre with
  | nil => intro prev rest _; rfl
  | cons c cs ih =>
    intro prev rest h
    have h0 := h [] (c :: cs) rfl (by simp)
    rw [lastOr_nil] at h0
    rw [List.cons_append, searchFrom_cons, ← List.cons_append, h0]
    simp only
    rw [ih (some c) rest (fun p1 p2 e hne => by
      have := h (c :: p1) p2 (by rw [e]; rfl) hne
      rw [lastOr_cons] at this
      exact this), lastOr_cons]

theorem searchFrom_of_matchAt (re : Re) (prev : Option Nat) (rest : Str) (r : Str × MState)
    (h : re.matchAt prev rest = some r) : searchFrom re prev rest = some r := by
  cases rest with
  | nil => exact h
  | cons c cs =>
    rw [searchFrom_cons, h]

/-- The leftmost function header decides `normalizeCode`: the text between its
`{` and the last `}` of the text is normalized in place of the whole text. -/
theorem normalizeCode_of_header (pre kw ws1 name ws2 params ws3 body suffix : Str)
    (hkw : EqIgnoreCase kw (js "function"))
    (hws1 : ws1 ≠ []) (hws1s : ∀ c, c ∈ ws1 → isSpace c = true)
    (hname : name ≠ []) (hnamew : ∀ c, c ∈ name → isWordChar c = true)
    (hws2 : ∀ c, c ∈ ws2 → isSpace c = true)
    (hparams : ∀ c, c ∈ params → c ≠ 41)
    (hws3 : ∀ c, c ∈ ws3 → isSpace c = true)
    (hsuffix : ∀ c, c ∈ suffix → c ≠ 125)
    (hfirst : ∀ p h r,
      pre ++ (kw ++ (ws1 ++ (name ++ (ws2 ++ (40 :: (params ++ (41 :: (ws3 ++
        (123 :: (body ++ 125 :: suffix)))))))))) = p ++ (h ++ r) →
      IsFunctionHeader h → pre.length ≤ p.length) :
    normalizeCode
        (pre ++ (kw ++ (ws1 ++ (name ++ (ws2 ++ (40 :: (params ++ (41 :: (ws3 ++
          (123 :: (body ++ 125 :: suffix))))))))))) =
      normalizeCodeContent (trim body) := by
  have hskip := searchFrom_skip functionBodyRe pre none
    (kw ++ (ws1 ++ (name ++ (ws2 ++ (40 :: (params ++ (41 :: (ws3 ++
      (123 :: (body ++ 125 :: suffix))))))))))
    (fun p1 p2 e hne => by
      cases hm : functionBodyRe.matchAt (lastOr p1 none)
          (p2 ++ (kw ++ (ws1 ++ (name ++ (ws2 ++ (40 :: (params ++ (41 :: (ws3 ++
            (123 :: (body ++ 125 :: suffix))))))))))) with
      | none => rfl
      | some res =>
        exfalso
        obtain ⟨m, st⟩ := res
        obtain ⟨hd, _, _⟩ := Re.matchAt_sound _ _ _ _ _ hm
        obtain ⟨h, r, hsplit, hh⟩ := den_functionBodyRe _ _ hd
        simp only at hsplit
        have := hfirst p1 h r (by rw [e, List.append_assoc, hsplit]) hh
        have hl := congrArg List.length e
        rw [List.length_append] at hl
        have : 0 < p2.length := List.length_pos.mpr hne
        omega)
  have hrun := functionBodyRe_run (lastOr pre none) kw ws1 name ws2 params ws3 body suffix hkw
    hws1 hws1s hname hnamew hws2 hparams hws3 hsuffix
  have hmatch : ∃ m, functionBodyRe.matchAt (lastOr pre none)
      (kw ++ (ws1 ++ (name ++ (ws2 ++ (40 :: (params ++ (41 :: (ws3 ++
        (123 :: (body ++ 125 :: suffix)))))))))) =
      some (m, (⟨some 125, suffix, some body⟩ : MState)) := by
    unfold Re.matchAt
    rw [hrun]
    exact ⟨_, rfl⟩
  obtain ⟨m, hm⟩ := hmatch
  unfold normalizeCode matchFirst
  rw [hskip, searchFrom_of_matchAt _ _ _ _ hm]
  rfl

/-! ### Where a function header can start -/

theorem asciiLower_length (s : Str) : (asciiLower s).length = s.length := by
  unfold asciiLower
  simp

theorem asciiLower_take (s : Str) (n : Nat) : asciiLower (s.take n) = (asciiLower s).take n := by
  unfold asciiLower
  rw [List.map_take]

/-- A function header that starts at offset `p.length` of a text puts the word
`function`, in some letter case, at that offset. -/
theorem header_start (text p h r : Str) (e : text = p ++ (h ++ r))
    (hh : IsFunctionHeader h) :
    asciiLower ((text.drop p.length).take 8) = js "function" := by
  obtain ⟨kw, ws1, name, ws2, params, ws3, rfl, hkw, _⟩ := hh
  have hlow : asciiLower kw = js "function" := by
    unfold EqIgnoreCase at hkw
    rw [hkw]
    decide
  have hlen : kw.length = 8 := by
    rw [← asciiLower_length, hlow]
    rfl
  rw [e, List.drop_left, List.append_assoc, List.take_left' hlen]
  exact hlow

/-! ## The claims -/

/-- C1 (as stated, refuted).  With the default options the score of `"aab"`
against `"baa"` is `17/105` and the score of `"baa"` against `"aab"` is `8/35`:
the Levenshtein pass terminates early in the first order only. -/
theorem calculateSimilarity_not_symmetric :
    calculateSimilarity asciiLower (js "aab") (js "baa") = some (17 / 105) ∧
    calculateSimilarity asciiLower (js "baa") (js "aab") = some (8 / 35) ∧
    calculateSimilarity asciiLower (js "aab") (js "baa") ≠
      calculateSimilarity asciiLower (js "baa") (js "aab") := by
  have n1 : specNormalized asciiLower (js "aab") = [97, 97, 98] := by decide
  have n2 : specNormalized asciiLower (js "baa") = [98, 97, 97] := by decide
  have j12 : calculateJaroSimilarity [97, 97, 98] [98, 97, 97] = some 0 := by
    simp [calculateJaroSimilarity]
  have j21 : calculateJaroSimilarity [98, 97, 97] [97, 97, 98] = some 0 := by
    simp [calculateJaroSimilarity]
  have w12 : calculateJaroWinklerSimilarity [97, 97, 98] [98, 97, 97] = some 0 := by
    simp only [calculateJaroWinklerSimilarity, j12]; norm_num
  have w21 : calculateJaroWinklerSimilarity [98, 97, 97] [97, 97, 98] = some 0 := by
    simp only [calculateJaroWinklerSimilarity, j21]; norm_num
  have t12 : levTable [97, 97, 98] [98, 97, 97] = none := by decide
  have t21 : levTable [98, 97, 97] [97, 97, 98] = some [3, 2, 1, 2] := by decide
  have c12 : lcsTable [97, 97, 98] [98, 97, 97] = [0, 1, 1, 2] := by decide
  have c21 : lcsTable [98, 97, 97] [97, 97, 98] = [0, 1, 2, 2] := by decide
  have g1 : getNGrams [97, 97, 98] 2 = [[32, 97], [97, 97], [97, 98], [98, 32]] := by decide
  have g2 : getNGrams [98, 97, 97] 2 = [[32, 98], [98, 97], [97, 97], [97, 32]] := by decide
  have i12 : (setOf ([[32, 97], [97, 97], [97, 98], [98, 32]].filter fun x =>
      [[32, 98], [98, 97], [97, 97], [97, 32]].contains x)).length = 1 := by decide
  have i21 : (setOf ([[32, 98], [98, 97], [97, 97], [97, 32]].filter fun x =>
      [[32, 97], [97, 97], [97, 98], [98, 32]].contains x)).length = 1 := by decide
  have u12 : (setOf ([[32, 97], [97, 97], [97, 98], [98, 32]] ++
      [[32, 98], [98, 97], [97, 97], [97, 32]])).length = 7 := by decide
  have u21 : (setOf ([[32, 98], [98, 97], [97, 97], [97, 32]] ++
      [[32, 97], [97, 97], [97, 98], [98, 32]])).length = 7 := by decide
  have e12 : calculateSimilarity asciiLower (js "aab") (js "baa") = some (17 / 105) := by
    obtain ⟨j, w, hj, hw, h⟩ := calculateSimilarity_eq_specBlend asciiLower (js "aab") (js "baa")
      (by decide) (by decide) (by decide)
    rw [n1, n2] at hj hw h
    rw [j12] at hj; rw [w12] at hw
    cases hj; cases hw
    rw [h]
    simp only [specBlend, calculateLevenshteinSimilarity, calculateLCSSimilarity,
      calculateNGramSimilarity, t12, c12, g1, g2, i12, u12]
    norm_num
  have e21 : calculateSimilarity asciiLower (js "baa") (js "aab") = some (8 / 35) := by
    obtain ⟨j, w, hj, hw, h⟩ := calculateSimilarity_eq_specBlend asciiLower (js "baa") (js "aab")
      (by decide) (by decide) (by decide)
    rw [n1, n2] at hj hw h
    rw [j21] at hj; rw [w21] at hw
    cases hj; cases hw
    rw [h]
    simp only [specBlend, calculateLevenshteinSimilarity, calculateLCSSimilarity,
      calculateNGramSimilarity, t21, c21, g1, g2, i21, u21]
    norm_num
  refine ⟨e12, e21, ?_⟩
  rw [e12, e21]
  norm_num

/-- C1 (amended).  With the default options `calculateSimilarity a b` equals
`calculateSimilarity b a` whenever the Levenshtein pass, run on the lower-cased,
whitespace-collapsed, trimmed strings, terminates early in both orders or in
neither. -/
theorem calculateSimilarity_symm (lower : Str → Str) (a b : Str)
    (hlev : (levTable (specNormalized lower a) (specNormalized lower b)).isSome =
      (levTable (specNormalized lower b) (specNormalized lower a)).isSome) :
    calculateSimilarity lower a b = calculateSimilarity lower b a := by
  by_cases hab : a = b
  · rw [hab]
  by_cases ha : a = []
  · subst ha
    have hb' : b.isEmpty = false := by cases b <;> simp_all
    simp [calculateSimilarity, hb']
  by_cases hb : b = []
  · subst hb
    have ha' : a.isEmpty = false := by cases a <;> simp_all
    simp [calculateSimilarity, ha']
  obtain ⟨j, w, hj, hw, h⟩ := calculateSimilarity_eq_specBlend lower a b ha hb hab
  obtain ⟨j', w', hj', hw', h'⟩ := calculateSimilarity_eq_specBlend lower b a hb ha
    (fun e => hab e.symm)
  have hjaro := calculateJaroSimilarity_symm (specNormalized lower a) (specNormalized lower b)
  have ej : j = j' := by
    rw [hjaro, hj'] at hj
    exact (Option.some.inj hj).symm
  have ew : w = w' := by
    rw [calculateJaroWinklerSimilarity_symm _ _ hjaro, hw'] at hw
    exact (Option.some.inj hw).symm
  rw [h, h', ej, ew,
    specBlend_symm _ _ _ _ (calculateLevenshteinSimilarity_symm _ _ hlev)]

/-- Witness for C1 (amended): `"martha"` against `"marhta"`, where neither order
terminates early. -/
theorem calculateSimilarity_symm_witness :
    calculateSimilarity asciiLower (js "martha") (js "marhta") =
      calculateSimilarity asciiLower (js "marhta") (js "martha") :=
  calculateSimilarity_symm asciiLower (js "martha") (js "marhta") (by decide)

/-- C2.  With the default options `calculateSimilarity` returns a value in `[0, 1]`
for all strings, and each of the five metrics (Levenshtein, Jaro, Jaro-Winkler,
LCS ratio, bigram Jaccard) returns a value in `[0, 1]` on all strings. -/
theorem calculateSimilarity_bounds (lower : Str → Str) (a b : Str) :
    (∃ v, calculateSimilarity lower a b = some v ∧ 0 ≤ v ∧ v ≤ 1) ∧
    (0 ≤ calculateLevenshteinSimilarity a b ∧ calculateLevenshteinSimilarity a b ≤ 1) ∧
    (∃ v, calculateJaroSimilarity a b = some v ∧ 0 ≤ v ∧ v ≤ 1) ∧
    (∃ v, calculateJaroWinklerSimilarity a b = some v ∧ 0 ≤ v ∧ v ≤ 1) ∧
    (0 ≤ calculateLCSSimilarity a b ∧ calculateLCSSimilarity a b ≤ 1) ∧
    (0 ≤ calculateNGramSimilarity a b 2 ∧ calculateNGramSimilarity a b 2 ≤ 1) :=
  ⟨calculateSimilarity_total lower a b {}, calculateLevenshteinSimilarity_bounds a b,
    calculateJaroSimilarity_total a b, calculateJaroWinklerSimilarity_total a b,
    calculateLCSSimilarity_bounds a b, calculateNGramSimilarity_bounds a b 2⟩

/-- C3.  For every string `a`, the empty string included,
`calculateSimilarity a a = 1`. -/
theorem calculateSimilarity_self (lower : Str → Str) (a : Str) :
    calculateSimilarity lower a a = some 1 :=
  calculateSimilarity_same lower a {}

/-- C4 (as stated, refuted).  For `a = "a   "` and `b = "a"` the gate condition
holds on the input strings (`|4 - 1| > 1 * 0.3`), yet `calculateSimilarity a b`
is `1`: both normalized forms are `"a"`. -/
theorem calculateSimilarity_lengthGate_input_fails :
    |(((js "a   ").length : ℕ) : ℚ) - ((js "a").length : ℕ)| >
      ((min (js "a   ").length (js "a").length : ℕ) : ℚ) * 0.3 ∧
    calculateSimilarity asciiLower (js "a   ") (js "a") = some 1 := by
  have l1 : (js "a   ").length = 4 := by decide
  have l2 : (js "a").length = 1 := by decide
  have n1 : specNormalized asciiLower (js "a   ") = [97] := by decide
  have n2 : specNormalized asciiLower (js "a") = [97] := by decide
  constructor
  · rw [l1, l2]; norm_num
  · obtain ⟨j, w, _, _, h⟩ := calculateSimilarity_eq_specBlend asciiLower (js "a   ") (js "a")
      (by decide) (by decide) (by decide)
    rw [h, n1, n2]
    simp [specBlend]

/-- C4 (amended).  The length gate acts on the normalized strings: if the
lower-cased, whitespace-collapsed, trimmed forms `a'`, `b'` satisfy
`|len a' - len b'| > min (len a') (len b') * 0.3`, then
`calculateSimilarity a b = 0` (default options). -/
theorem calculateSimilarity_lengthGate (lower : Str → Str) (a b : Str)
    (h : |((specNormalized lower a).length : ℚ) - (specNormalized lower b).length| >
      (min (specNormalized lower a).length (specNormalized lower b).length : ℕ) * 0.3) :
    calculateSimilarity lower a b = some 0 := by
  have hne : specNormalized lower a ≠ specNormalized lower b := by
    intro e
    rw [e] at h
    simp only [sub_self, abs_zero, gt_iff_lt] at h
    have : (0 : ℚ) ≤
        (min (specNormalized lower b).length (specNormalized lower b).length : ℕ) * 0.3 :=
      mul_nonneg (Nat.cast_nonneg _) (by norm_num)
    linarith
  have hab : a ≠ b := fun e => hne (by rw [e])
  by_cases ha : a = []
  · subst ha
    have hb' : b.isEmpty = false := by cases b <;> simp_all
    simp [calculateSimilarity, hb']
  · by_cases hb : b = []
    · subst hb
      have ha' : a.isEmpty = false := by cases a <;> simp_all
      simp [calculateSimilarity, ha']
    · obtain ⟨j, w, _, _, hs⟩ := calculateSimilarity_eq_specBlend lower a b ha hb hab
      rw [hs]
      simp only [specBlend, hne, if_false, h, if_true, ite_self]

/-- Witness for C4 (amended): `"abcdefgh"` against `"abc"`. -/
theorem calculateSimilarity_lengthGate_witness :
    calculateSimilarity asciiLower (js "abcdefgh") (js "abc") = some 0 := by
  have n1 : specNormalized asciiLower (js "abcdefgh") =
      [97, 98, 99, 100, 101, 102, 103, 104] := by decide
  have n2 : specNormalized asciiLower (js "abc") = [97, 98, 99] := by decide
  apply calculateSimilarity_lengthGate asciiLower (js "abcdefgh") (js "abc")
  rw [n1, n2]
  norm_num

/-- C5.  For non-empty, distinct `a` and `b` with the default options, with `a'`
and `b'` the lower-cased, whitespace-collapsed, trimmed forms: the Jaro and
Jaro-Winkler metrics return on `(a', b')`, and `calculateSimilarity a b` is
`1` or `0` (as `a' = b'` or not) when both forms are shorter than 3, else `0`
when `|len a' - len b'| > min (len a') (len b') * 0.3`, else the arithmetic
mean of the five metric scores of `(a', b')`. -/
theorem calculateSimilarity_reference (lower : Str → Str) (a b : Str)
    (ha : a ≠ []) (hb : b ≠ []) (hab : a ≠ b) :
    ∃ jaro jaroWinkler,
      calculateJaroSimilarity (specNormalized lower a) (specNormalized lower b) = some jaro ∧
      calculateJaroWinklerSimilarity (specNormalized lower a) (specNormalized lower b) =
        some jaroWinkler ∧
      calculateSimilarity lower a b =
        some (specBlend (specNormalized lower a) (specNormalized lower b) jaro jaroWinkler) :=
  calculateSimilarity_eq_specBlend lower a b ha hb hab

/-- Witness for C5: `"Hello  World"` against `"hello wurld!"`. -/
theorem calculateSimilarity_reference_witness :
    ∃ jaro jaroWinkler,
      calculateJaroSimilarity (specNormalized asciiLower (js "Hello  World"))
        (specNormalized asciiLower (js "hello wurld!")) = some jaro ∧
      calculateJaroWinklerSimilarity (specNormalized asciiLower (js "Hello  World"))
        (specNormalized asciiLower (js "hello wurld!")) = some jaroWinkler ∧
      calculateSimilarity asciiLower (js "Hello  World") (js "hello wurld!") =
        some (specBlend (specNormalized asciiLower (js "Hello  World"))
          (specNormalized asciiLower (js "hello wurld!")) jaro jaroWinkler) :=
  calculateSimilarity_reference asciiLower (js "Hello  World") (js "hello wurld!")
    (by decide) (by decide) (by decide)

/-- C6.  `calculateSimilarity "" "" = 1`, and for every non-empty `b` (a
whitespace-only `b` included) `calculateSimilarity "" b` and
`calculateSimilarity b ""` are `0`. -/
theorem calculateSimilarity_trivial (lower : Str → Str) (b : Str) (hb : b ≠ []) :
    calculateSimilarity lower [] [] = some 1 ∧
    calculateSimilarity lower [] b = some 0 ∧ calculateSimilarity lower b [] = some 0 := by
  have : b.isEmpty = false := by cases b <;> simp_all
  simp [calculateSimilarity, this]

/-- Witness for C6: the whitespace-only string `"  "`. -/
theorem calculateSimilarity_trivial_witness :
    calculateSimilarity asciiLower [] [] = some 1 ∧
    calculateSimilarity asciiLower [] (js "  ") = some 0 ∧
    calculateSimilarity asciiLower (js "  ") [] = some 0 :=
  calculateSimilarity_trivial asciiLower (js "  ") (by decide)

set_option maxRecDepth 100000 in
/-- C7 (the code at the failing inputs).  For a function and the named function
nested in it, `findDuplicateFunctions` returns the two as a duplicate pair
although their ranges overlap; for an `if` statement and its `else if` branch,
`findDuplicateIfStatements` does the same. -/
theorem findDuplicates_overlapping :
    (findDuplicateFunctions asciiLower [innerFn, outerFn] =
        some [⟨js "inner", innerFn.range, js "outer", outerFn.range⟩] ∧
      rangesOverlap innerFn.range outerFn.range = true) ∧
    (findDuplicateIfStatements asciiLower [elseIfUnit, wholeIfUnit] =
        some [⟨js "b", elseIfUnit.range, js "a", wholeIfUnit.range⟩] ∧
      rangesOverlap elseIfUnit.range wholeIfUnit.range = true) := by
  have b1 : innerFn.normalizedBody = js "return __NUM__;" := by decide
  have b2 : outerFn.normalizedBody = js "return __NUM__;" := by decide
  have nm : innerFn.name ≠ outerFn.name := by decide
  have c1 : elseIfUnit.normalizedBody = wholeIfUnit.normalizedBody := rfl
  refine ⟨⟨?_, by decide⟩, ⟨?_, by decide⟩⟩
  · simp only [findDuplicateFunctions, findDuplicateFunctionsOuter, findDuplicateFunctionsInner,
      nm, if_false, b1, b2, calculateSimilarity_same]
    norm_num
    decide
  · simp only [findDuplicateIfStatements, findDuplicateIfStatementsOuter,
      findDuplicateIfStatementsInner, c1, calculateSimilarity_same]
    norm_num
    decide

/-- C8 (the code at the failing input).  On the three chunk pairs `pairA`,
`pairB`, `pairC`, where `pairC` lies inside `pairA` and `pairA` lies inside no
other pair, the legacy `filterSubsetDuplicates` returns `[pairB]`: `pairA` is
dropped together with `pairC`. -/
theorem filterSubsetDuplicates_drops_larger :
    Legacy.filterSubsetDuplicates [pairA, pairB, pairC] = [pairB] := by decide

set_option maxRecDepth 100000 in
/-- C9 (the code at the failing input).  `normalizeCode` maps
`if (x) { return x; }` to `__CALL__(__PARAMS__) { return __ID__; }`: the keyword
`if` and the condition are folded into the call placeholder. -/
theorem normalizeCode_drops_if :
    normalizeCode (js "if (x) \x7b return x; \x7d") = js "__CALL__(__PARAMS__) \x7b return __ID__; \x7d" := by
  decide

set_option maxRecDepth 100000 in
/-- C10 (the code at the failing input).  `normalizeCodeContent` maps the
declaration signature `function f(x)` to `function __CALL__(__PARAMS__)`: the
declaration placeholder is folded again by the call pass. -/
theorem normalizeCodeContent_declaration_as_call :
    normalizeCodeContent (js "function f(x)") = js "function __CALL__(__PARAMS__)" := by
  decide

/-- C12.  For every unit list `findDuplicateFunctions` returns, and no returned
pair has `name` equal to `matchName`; two units of the same name, whatever their
bodies, give the empty result. -/
theorem findDuplicateFunctions_distinct_names (lower : Str → Str)
    (functions : List FunctionInfo) :
    ∃ duplicates, findDuplicateFunctions lower functions = some duplicates ∧
      (∀ d, d ∈ duplicates → d.name ≠ d.matchName) ∧
      (∀ func1 func2, functions = [func1, func2] → func1.name = func2.name →
        duplicates = []) := by
  refine ⟨_, findDuplicateFunctions_eq lower functions, ?_, ?_⟩
  · intro d hd
    simp only [specDuplicateFunctions, List.mem_map, List.mem_filter] at hd
    obtain ⟨p, ⟨_, hm⟩, rfl⟩ := hd
    exact ((functionsMatch_iff lower p.1 p.2).mp hm).1
  · intro func1 func2 hf hn
    subst hf
    have : functionsMatch lower func1 func2 = false := by
      simp [functionsMatch, hn]
    simp [specDuplicateFunctions, orderedPairs, this]

set_option maxRecDepth 100000 in
/-- Witness for C12: two units named `helper` with the same body. -/
theorem findDuplicateFunctions_distinct_names_witness :
    findDuplicateFunctions asciiLower [helperA, helperB] = some [] := by
  obtain ⟨duplicates, h, _, h2⟩ :=
    findDuplicateFunctions_distinct_names asciiLower [helperA, helperB]
  rw [h, h2 helperA helperB rfl (by decide)]

set_option maxRecDepth 100000 in
/-- C13.  The bodies `return a+b;` and `return x+y;` both normalize to
`return __ID__+__ID__;`, and for the units `add` and `sum` with these bodies, in
that order, `findDuplicateFunctions` returns exactly one pair: `add` as `name`
and `range`, `sum` as `matchName` and `matchRange`. -/
theorem findDuplicateFunctions_add_sum (lower : Str → Str) (range1 range2 : Range)
    (params1 params2 : List Str) :
    normalizeCode (js "return a+b;") = js "return __ID__+__ID__;" ∧
    normalizeCode (js "return x+y;") = js "return __ID__+__ID__;" ∧
    findDuplicateFunctions lower
        [mkFunctionInfo (js "add") range1 (js "return a+b;") params1,
          mkFunctionInfo (js "sum") range2 (js "return x+y;") params2] =
      some [⟨js "add", range1, js "sum", range2⟩] := by
  have n1 : normalizeCode (js "return a+b;") = js "return __ID__+__ID__;" := by decide
  have n2 : normalizeCode (js "return x+y;") = js "return __ID__+__ID__;" := by decide
  refine ⟨n1, n2, ?_⟩
  have hm : functionsMatch lower (mkFunctionInfo (js "add") range1 (js "return a+b;") params1)
      (mkFunctionInfo (js "sum") range2 (js "return x+y;") params2) = true := by
    rw [functionsMatch_iff]
    refine ⟨by simp only [mkFunctionInfo]; decide, 1, ?_, by norm_num⟩
    simp only [mkFunctionInfo, n1, n2]
    exact calculateSimilarity_same lower _ {}
  have ho : orderedPairs [mkFunctionInfo (js "add") range1 (js "return a+b;") params1,
      mkFunctionInfo (js "sum") range2 (js "return x+y;") params2] =
      [(mkFunctionInfo (js "add") range1 (js "return a+b;") params1,
        mkFunctionInfo (js "sum") range2 (js "return x+y;") params2)] := rfl
  rw [findDuplicateFunctions_eq, specDuplicateFunctions, ho,
    List.filter_cons_of_pos
      (p := fun p : FunctionInfo × FunctionInfo => functionsMatch lower p.1 p.2) hm]
  rfl

set_option maxRecDepth 100000 in
/-- C14.  The bodies `{ doWork(a); log(a); }` and `{ doWork(b); log(b); }` have
the same `normalizeCodeForComparison` form, their similarity is 1, and for two
units with these bodies, whatever their conditions and ranges,
`findDuplicateIfStatements` returns exactly one pair. -/
theorem findDuplicateIfStatements_doWork (lower : Str → Str) (condition1 condition2 : Str)
    (range1 range2 : Range) :
    normalizeCodeForComparison (js "\x7b doWork(a); log(a); \x7d") =
      normalizeCodeForComparison (js "\x7b doWork(b); log(b); \x7d") ∧
    calculateSimilarity lower (normalizeCodeForComparison (js "\x7b doWork(a); log(a); \x7d"))
      (normalizeCodeForComparison (js "\x7b doWork(b); log(b); \x7d")) = some 1 ∧
    findDuplicateIfStatements lower
        [mkIfStatementInfo condition1 range1 (js "\x7b doWork(a); log(a); \x7d"),
          mkIfStatementInfo condition2 range2 (js "\x7b doWork(b); log(b); \x7d")] =
      some [⟨condition1, range1, condition2, range2⟩] := by
  have n : normalizeCodeForComparison (js "\x7b doWork(a); log(a); \x7d") =
      normalizeCodeForComparison (js "\x7b doWork(b); log(b); \x7d") := by decide
  refine ⟨n, by rw [n]; exact calculateSimilarity_same lower _ {}, ?_⟩
  simp only [findDuplicateIfStatements, findDuplicateIfStatementsOuter,
    findDuplicateIfStatementsInner, mkIfStatementInfo, n, calculateSimilarity_same]
  norm_num

/-- C15.  For every chunk list and every tracker state `findNextCodeDuplicate`
returns, and no returned pair has overlapping line spans: neither
`start1 <= end2 and end1 >= start2` nor the same with the ranges exchanged. -/
theorem findNextCodeDuplicate_no_overlap (lower : Str → Str) (chunks : List CodeChunk)
    (processedDuplicates : List ProcessedDuplicate) :
    ∃ r, findNextCodeDuplicate lower chunks processedDuplicates = some r ∧
      ∀ d, d ∈ r.1 →
        rangesOverlap d.range d.matchRange = false ∧
        ¬ (d.range.start.line ≤ d.matchRange.end_.line ∧
          d.range.end_.line ≥ d.matchRange.start.line) := by
  refine ⟨_, findNextCodeDuplicate_eq lower chunks processedDuplicates, ?_⟩
  intro d hd
  unfold specFindNext at hd
  cases hf : (orderedPairs chunks).find? (chunkPairQualifies lower processedDuplicates) with
  | none => rw [hf] at hd; exact absurd hd (List.not_mem_nil _)
  | some p =>
    rw [hf] at hd
    simp only [List.mem_singleton] at hd
    subst hd
    have hq := List.find?_some hf
    have ho := ((chunkPairQualifies_iff lower processedDuplicates p.1 p.2).mp hq).1
    refine ⟨ho, ?_⟩
    intro hc
    simp only [rangesOverlap, Bool.or_eq_false_iff, Bool.and_eq_false_iff, decide_eq_false_iff_not] at ho
    rcases ho.1 with h | h
    · exact h hc.1
    · exact h hc.2

set_option maxRecDepth 100000 in
/-- Witness for C15: the chunks of the twenty-line document, with an empty
tracker. -/
theorem findNextCodeDuplicate_no_overlap_witness :
    ∃ r, findNextCodeDuplicate asciiLower documentChunks [] = some r ∧
      ∀ d, d ∈ r.1 →
        rangesOverlap d.range d.matchRange = false ∧
        ¬ (d.range.start.line ≤ d.matchRange.end_.line ∧
          d.range.end_.line ≥ d.matchRange.start.line) :=
  findNextCodeDuplicate_no_overlap asciiLower documentChunks []

/-- C16.  For a fixed list of `n` chunks and any initial tracker state: no call
of `findNextCodeDuplicate` returns a pair whose line spans are in the tracker
at that call, and after some number `k`, at most `n (n - 1) / 2`, of calls that
each return one pair and record it, the next call returns the empty result and
leaves the tracker as it is. -/
theorem findNextCodeDuplicate_monotonic (lower : Str → Str) (chunks : List CodeChunk)
    (processedDuplicates : List ProcessedDuplicate) :
    (∀ tracker r, findNextCodeDuplicate lower chunks tracker = some r →
      ∀ d, d ∈ r.1 → isDuplicateProcessed tracker d.range d.matchRange = false) ∧
    ∃ k, k ≤ chunks.length * (chunks.length - 1) / 2 ∧ ∃ final,
      trackerAfterCalls lower chunks k processedDuplicates = some final ∧
      findNextCodeDuplicate lower chunks final = some ([], final) ∧
      ∀ i, i < k → ∃ before d after,
        trackerAfterCalls lower chunks i processedDuplicates = some before ∧
        findNextCodeDuplicate lower chunks before = some ([d], after) := by
  constructor
  · intro tracker r hr d hd
    rw [findNextCodeDuplicate_eq] at hr
    cases hr
    unfold specFindNext at hd
    cases hf : (orderedPairs chunks).find? (chunkPairQualifies lower tracker) with
    | none => rw [hf] at hd; exact absurd hd (List.not_mem_nil _)
    | some p =>
      rw [hf] at hd
      simp only [List.mem_singleton] at hd
      subst hd
      exact ((chunkPairQualifies_iff lower tracker p.1 p.2).mp (List.find?_some hf)).2.1
  · obtain ⟨k, hk, h⟩ := findNextCodeDuplicate_exhausts lower chunks _ processedDuplicates le_rfl
    exact ⟨k, le_trans hk (unrecordedPairs_le chunks processedDuplicates), h⟩

/-- Witness for C16: the chunks of the twenty-line document, starting from a
tracker that holds a record of the kind `functions`. -/
theorem findNextCodeDuplicate_monotonic_witness :
    (∀ tracker r, findNextCodeDuplicate asciiLower documentChunks tracker = some r →
      ∀ d, d ∈ r.1 → isDuplicateProcessed tracker d.range d.matchRange = false) ∧
    ∃ k, k ≤ documentChunks.length * (documentChunks.length - 1) / 2 ∧ ∃ final,
      trackerAfterCalls asciiLower documentChunks k [functionsRecord] = some final ∧
      findNextCodeDuplicate asciiLower documentChunks final = some ([], final) ∧
      ∀ i, i < k → ∃ before d after,
        trackerAfterCalls asciiLower documentChunks i [functionsRecord] = some before ∧
        findNextCodeDuplicate asciiLower documentChunks before = some ([d], after) :=
  findNextCodeDuplicate_monotonic asciiLower documentChunks [functionsRecord]

/-- C17.  `findNextCodeDuplicate` returns the specification's result: if some
pair of chunks, taken for `i` ascending and then `j > i` ascending, has ranges
that do not overlap, is not recorded, has both light normal forms of length at
least 30 and a similarity above 0.85, the first such pair is the one pair
returned and exactly its record, of kind `code`, is appended to the tracker;
otherwise the result is empty and the tracker unchanged. -/
theorem findNextCodeDuplicate_first_pair (lower : Str → Str) (chunks : List CodeChunk)
    (processedDuplicates : List ProcessedDuplicate) :
    findNextCodeDuplicate lower chunks processedDuplicates =
        some (specFindNext lower chunks processedDuplicates) ∧
    (specFindNext lower chunks processedDuplicates).1.length ≤ 1 ∧
    (∀ p, (orderedPairs chunks).find? (chunkPairQualifies lower processedDuplicates) = some p →
      specFindNext lower chunks processedDuplicates =
        ([⟨p.1.range, p.2.range⟩],
          processedDuplicates ++
            [⟨p.1.range.start.line, p.1.range.end_.line, p.2.range.start.line,
              p.2.range.end_.line, js "code"⟩])) ∧
    ((∀ p, p ∈ orderedPairs chunks → chunkPairQualifies lower processedDuplicates p = false) →
      specFindNext lower chunks processedDuplicates = ([], processedDuplicates)) := by
  refine ⟨findNextCodeDuplicate_eq lower chunks processedDuplicates, ?_, ?_, ?_⟩
  · unfold specFindNext
    cases (orderedPairs chunks).find? (chunkPairQualifies lower processedDuplicates) <;> simp
  · intro p hp
    unfold specFindNext
    rw [hp]
    rfl
  · intro hall
    unfold specFindNext
    have : (orderedPairs chunks).find? (chunkPairQualifies lower processedDuplicates) = none := by
      rw [List.find?_eq_none]
      intro p hp
      simp [hall p hp]
    rw [this]

/-- Witness for C17: on the chunks of the twenty-line document and an empty
tracker, the first qualifying pair is the pair of the two functions' chunks; it
is returned and its record appended. -/
theorem findNextCodeDuplicate_first_pair_witness :
    findNextCodeDuplicate asciiLower documentChunks [] =
      some ([⟨chunk0.range, chunk10.range⟩], [⟨0, 9, 10, 19, js "code"⟩]) := by
  have h := findNextCodeDuplicate_first_pair asciiLower documentChunks []
  rw [h.1, h.2.2.1 (chunk0, chunk10) documentChunks_find_empty]
  rfl

/-- C18 (the code at the failing input).  On the chunks of the twenty-line
document, `findNextCodeDuplicate` returns the pair of the two functions' chunks
when the tracker is empty, and returns nothing when the tracker holds the
record of kind `functions` that the review of the function pair `alpha`, `beta`
leaves: a record of another kind does make the chunk matcher skip the pair. -/
theorem findNextCodeDuplicate_other_kind_skips :
    findDuplicateFunctions asciiLower [alphaFn, betaFn] =
      some [⟨js "alpha", ⟨⟨0, 0⟩, ⟨9, 1⟩⟩, js "beta", ⟨⟨10, 0⟩, ⟨19, 1⟩⟩⟩] ∧
    functionsRecord = ⟨0, 9, 10, 19, js "functions"⟩ ∧
    findNextCodeDuplicate asciiLower documentChunks [] =
      some ([⟨chunk0.range, chunk10.range⟩], [⟨0, 9, 10, 19, js "code"⟩]) ∧
    findNextCodeDuplicate asciiLower documentChunks [functionsRecord] =
      some ([], [functionsRecord]) := by
  refine ⟨findDuplicateFunctions_alpha_beta, rfl, ?_, ?_⟩
  · rw [findNextCodeDuplicate_eq, specFindNext, documentChunks_find_empty]
    rfl
  · rw [findNextCodeDuplicate_eq, specFindNext, documentChunks_find_record]

/-- C19.  For every tracker state and every non-empty kind `k`,
`clearProcessedDuplicates(k)` keeps a sublist of the records (so their order and
content), keeps no record of kind `k`, and keeps every record of another kind
as often as it occurred; `clearProcessedDuplicates()` empties the tracker. -/
theorem clearProcessedDuplicates_partitioned (processedDuplicates : List ProcessedDuplicate)
    (k : Str) (hk : k ≠ []) :
    (clearProcessedDuplicates processedDuplicates (some k)).Sublist processedDuplicates ∧
    (∀ d, d ∈ clearProcessedDuplicates processedDuplicates (some k) → d.type ≠ k) ∧
    (∀ d, d.type ≠ k →
      (clearProcessedDuplicates processedDuplicates (some k)).count d =
        processedDuplicates.count d) ∧
    clearProcessedDuplicates processedDuplicates (some k) =
      processedDuplicates.filter (fun d => d.type != k) ∧
    clearProcessedDuplicates processedDuplicates = [] := by
  have ht : truthy (some k) = true := by
    cases k with
    | nil => exact absurd rfl hk
    | cons c cs => rfl
  have he : clearProcessedDuplicates processedDuplicates (some k) =
      processedDuplicates.filter (fun d => d.type != k) := by
    unfold clearProcessedDuplicates
    rw [if_pos ht]
    congr 1
  refine ⟨?_, ?_, ?_, he, ?_⟩
  · rw [he]; exact List.filter_sublist _
  · intro d hd
    rw [he, List.mem_filter] at hd
    simpa using hd.2
  · intro d hd
    rw [he, List.count_filter]
    simpa using hd
  · simp [clearProcessedDuplicates, truthy]

/-- Witness for C19: clearing the kind `code` in a tracker with records of the
three kinds. -/
theorem clearProcessedDuplicates_partitioned_witness :
    clearProcessedDuplicates mixedTracker (some (js "code")) =
      [⟨0, 9, 10, 19, js "functions"⟩, ⟨3, 4, 8, 9, js "if_statements"⟩] := by
  rw [(clearProcessedDuplicates_partitioned mixedTracker (js "code") (by decide)).2.2.2.1]
  decide

/-! ## Claims: naming and parse failure -/

set_option maxRecDepth 100000 in
/-- C11 (the code at the failing input).  The two examples of the claim hold:
the function texts and the bare bodies normalize to the same string.  The
general statement fails for `normalizeCode`: the body
`var check = isfunction`, `run()`, `{ stop(); }` (three lines) of a function
normalizes to
`__CALL__(__PARAMS__);`, because the function-body pattern, which has no word
boundary, takes the end of the identifier `isfunction` for the keyword, and the
same body with the identifier renamed to `helper` normalizes to another string,
while `normalizeCodeContent` gives the two bodies the same form. -/
theorem normalizeCode_rename_changes_form :
    normalizeCode (js "function f(x)\x7breturn x+1;\x7d") =
      normalizeCode (js "function g(y)\x7breturn y+1;\x7d") ∧
    normalizeCode (js "return x+1;") = normalizeCode (js "return y+1;") ∧
    normalizeCode (js "\n  var check = isfunction\n  run()\n  \x7b stop(); \x7d\n") =
      js "__CALL__(__PARAMS__);" ∧
    normalizeCode (js "\n  var check = helper\n  run()\n  \x7b stop(); \x7d\n") =
      js "var __ID__ = __ID__ __CALL__(__PARAMS__) \x7b __CALL__(__PARAMS__); \x7d" ∧
    normalizeCode (js "\n  var check = isfunction\n  run()\n  \x7b stop(); \x7d\n") ≠
      normalizeCode (js "\n  var check = helper\n  run()\n  \x7b stop(); \x7d\n") ∧
    normalizeCodeContent (js "\n  var check = isfunction\n  run()\n  \x7b stop(); \x7d\n") =
      normalizeCodeContent (js "\n  var check = helper\n  run()\n  \x7b stop(); \x7d\n") := by
  refine ⟨?_, ?_, ?_, ?_, ?_, ?_⟩ <;> decide

/-- C20 (counterexample).  With a parser that rejects the text `function (`,
`extractFunctions` and `extractIfStatements` do not return the empty list: the
parser's failure leaves them, and the detection pass ends with that failure,
without the duplicates of any kind. -/
theorem extractFunctions_parse_failure_not_empty :
    extractFunctions rejectingHost (js "function (") ≠ .ok [] ∧
    extractIfStatements rejectingHost (js "function (") ≠ .ok [] ∧
    extractFunctions rejectingHost (js "function (") = .error (js "Unexpected token") ∧
    detectDuplicates rejectingHost asciiLower (js "function (") [] [] =
      some (.error (js "Unexpected token"), []) := by
  refine ⟨?_, ?_, ?_, ?_⟩
  · intro h; cases h
  · intro h; cases h
  · rfl
  · rfl

/-- C20 (amended).  When the parser chosen for the text (the PHP parser when
the text contains `<?php`, the JavaScript parser otherwise) fails with the
message `e`, `extractFunctions` and `extractIfStatements` fail with `e`, and
the detection pass ends with `e` for every chunk list and tracker state,
leaving the tracker as it was. -/
theorem extraction_parse_failure_propagates {PhpAst JsAst : Type} (host : Host PhpAst JsAst)
    (text e : Str)
    (hphp : includes text (js "<?php") = true → host.parsePhp text = .error e)
    (hjs : includes text (js "<?php") = false → host.parseJs text = .error e) :
    extractFunctions host text = .error e ∧
    extractIfStatements host text = .error e ∧
    ∀ (lower : Str → Str) (chunks : List CodeChunk)
      (processedDuplicates : List ProcessedDuplicate),
      detectDuplicates host lower text chunks processedDuplicates =
        some (.error e, processedDuplicates) := by
  have hf : extractFunctions host text = .error e := by
    unfold extractFunctions
    cases hi : includes text (js "<?php") with
    | true => simp [hphp hi]
    | false => simp [hjs hi]
  have hg : extractIfStatements host text = .error e := by
    unfold extractIfStatements
    cases hi : includes text (js "<?php") with
    | true => simp [hphp hi]
    | false => simp [hjs hi]
  refine ⟨hf, hg, ?_⟩
  intro lower chunks processedDuplicates
  unfold detectDuplicates
  rw [hf]

/-- Witness for C20: the rejecting parser on the text `function (`. -/
theorem extraction_parse_failure_propagates_witness :
    includes (js "function (") (js "<?php") = false ∧
    rejectingHost.parseJs (js "function (") = .error (js "Unexpected token") ∧
    extractFunctions rejectingHost (js "function (") = .error (js "Unexpected token") ∧
    extractIfStatements rejectingHost (js "function (") = .error (js "Unexpected token") :=
  have h := extraction_parse_failure_propagates rejectingHost (js "function (")
    (js "Unexpected token") (fun h => absurd h (by decide)) (fun _ => rfl)
  ⟨by decide, rfl, h.1, h.2.1⟩

/-! ## Claims: chunks, pairs, metrics and normal forms -/

set_option maxRecDepth 100000 in
/-- C21 (counterexample).  In the document of twelve lines whose last two lines
hold a function, the consecutive windows that start at lines 5 and 10 are both
chunks; they cover lines 5 to 11 and 10 to 11 and share two lines, not five. -/
theorem extractCodeChunks_tail_windows :
    tailDocument.lineCount = 12 ∧
    extractCodeChunks tailDocument =
      [⟨js "function tail(value) \x7b\n  return compute(value) + 1; \x7d", ⟨⟨5, 0⟩, ⟨11, 30⟩⟩⟩,
        ⟨js "function tail(value) \x7b\n  return compute(value) + 1; \x7d",
          ⟨⟨10, 0⟩, ⟨11, 30⟩⟩⟩] ∧
    sharedLines ⟨⟨5, 0⟩, ⟨11, 30⟩⟩ ⟨⟨10, 0⟩, ⟨11, 30⟩⟩ = 2 := by
  refine ⟨by decide, by decide, by decide⟩

/-- C21 (amended).  For a document of `n` lines `extractCodeChunks` returns, in
ascending order, exactly the windows that start at the lines `i = 0, 5, 10, ...`
below `n` and cover the lines `i .. min(i+9, n-1)`, whose trimmed text is longer
than 30 code units, is not comment-only and has code structure.  No chunk spans
more than 10 lines.  Two consecutive windows, starting at `i` and `i + 5`, share
`min(5, n - (i + 5))` lines: five when the earlier window is full
(`i + 10 ≤ n`), fewer at the end of the document. -/
theorem extractCodeChunks_tiling (document : TextDocument) :
    extractCodeChunks document = specCodeChunks document ∧
    (∀ i, i ∈ windowStarts document.lineCount ↔ i % 5 = 0 ∧ i < document.lineCount) ∧
    (windowStarts document.lineCount).Pairwise (· < ·) ∧
    (∀ chunk, chunk ∈ extractCodeChunks document →
      chunk.range.start.line % 5 = 0 ∧ chunk.range.start.line < document.lineCount ∧
      chunk = specWindow document chunk.range.start.line ∧
      chunk.range.end_.line = min (chunk.range.start.line + 9) (document.lineCount - 1) ∧
      chunk.code.length > 30 ∧ isCommentOnly chunk.code = false ∧
      hasCodeStructure chunk.code = true ∧
      chunk.range.end_.line + 1 - chunk.range.start.line ≤ 10) ∧
    (∀ i, i + 5 < document.lineCount →
      sharedLines (specWindow document i).range (specWindow document (i + 5)).range =
        min 5 (document.lineCount - (i + 5))) ∧
    (∀ i, i + 10 ≤ document.lineCount →
      sharedLines (specWindow document i).range (specWindow document (i + 5)).range = 5) := by
  refine ⟨extractCodeChunks_eq document, mem_windowStarts _, windowStarts_sorted _, ?_,
    sharedLines_windows document, ?_⟩
  · intro chunk hc
    rw [extractCodeChunks_eq] at hc
    unfold specCodeChunks at hc
    rw [List.mem_filter, List.mem_map] at hc
    obtain ⟨⟨i, hi, rfl⟩, hq⟩ := hc
    rw [mem_windowStarts] at hi
    unfold chunkQualifies at hq
    simp only [Bool.and_eq_true, decide_eq_true_eq, Bool.not_eq_true'] at hq
    have hs : (specWindow document i).range.start.line = i := rfl
    have he : (specWindow document i).range.end_.line = min (i + 9) (document.lineCount - 1) :=
      rfl
    rw [hs, he]
    exact ⟨hi.1, hi.2, rfl, rfl, hq.1.1, hq.1.2, hq.2, by omega⟩
  · intro i hi
    by_cases h5 : i + 5 < document.lineCount
    · rw [sharedLines_windows document i h5]
      omega
    · unfold sharedLines specWindow windowLast
      simp only
      omega

/-- Witness for C21: in the document of twelve lines the windows that start at
lines 0 and 5 share five lines. -/
theorem extractCodeChunks_tiling_witness :
    sharedLines (specWindow tailDocument 0).range (specWindow tailDocument 5).range = 5 :=
  (extractCodeChunks_tiling tailDocument).2.2.2.2.2 0 (by decide)

/-- C22.  For every unit list, `findDuplicateFunctions` returns the list, over
the index pairs `i < j` in ascending order of `(i, j)`, of the pairs whose names
differ and whose normalized bodies have a similarity strictly above 0.95, each
with unit `i` as `name` and `range` and unit `j` as `matchName` and
`matchRange`.  The units `inc` and `dec`, which score 772/825 (between 0.9 and
0.95), are not reported. -/
theorem findDuplicateFunctions_pairwise (lower : Str → Str) (functions : List FunctionInfo) :
    findDuplicateFunctions lower functions = some (specPairwiseFunctions lower functions) ∧
    (∀ i j, (i, j) ∈ indexPairs functions.length ↔ i < j ∧ j < functions.length) ∧
    (indexPairs functions.length).Pairwise
      (fun p q => p.1 < q.1 ∨ (p.1 = q.1 ∧ p.2 < q.2)) ∧
    (∀ a b : Str, similarityExceeds lower a b 0.95 = true ↔
      ∃ s, calculateSimilarity lower a b = some s ∧ s > 0.95) ∧
    calculateSimilarity asciiLower incFn.normalizedBody decFn.normalizedBody =
      some (772 / 825) ∧
    findDuplicateFunctions asciiLower [incFn, decFn] = some [] := by
  refine ⟨?_, fun i j => mem_indexPairs _ i j, indexPairs_sorted _, ?_,
    incFn_decFn_similarity, ?_⟩
  · rw [findDuplicateFunctions_eq, specPairwiseFunctions_eq]
  · intro a b
    unfold similarityExceeds
    constructor
    · intro h
      split at h
      · rename_i s hs
        exact ⟨s, hs, by simpa using h⟩
      · exact absurd h (by simp)
    · rintro ⟨s, hs, h⟩
      rw [hs]
      simpa using h
  · have hm : ¬ functionsMatch asciiLower incFn decFn = true := by
      intro h
      obtain ⟨_, s, hs, hgt⟩ := (functionsMatch_iff asciiLower incFn decFn).mp h
      rw [incFn_decFn_similarity] at hs
      cases hs
      norm_num at hgt
    have ho : orderedPairs [incFn, decFn] = [(incFn, decFn)] := rfl
    rw [findDuplicateFunctions_eq, specDuplicateFunctions, ho,
      List.filter_cons_of_neg
        (p := fun p : FunctionInfo × FunctionInfo => functionsMatch asciiLower p.1 p.2) hm]
    rfl

/-- C23 (counterexample).  The pair `"a"`, `"ab"` is not cut off by the early
termination, and `calculateLevenshteinSimilarity` returns 1/2 on it, while the
legacy `calculateSimilarity` returns 0: its length gate fires, since the
lengths differ by 1, more than 0.3 times the shorter length. -/
theorem calculateLevenshteinSimilarity_legacy_gate :
    levTable (js "a") (js "ab") = some [1, 0, 1] ∧
    calculateLevenshteinSimilarity (js "a") (js "ab") = 1 / 2 ∧
    Legacy.calculateSimilarity (js "a") (js "ab") = 0 := by
  have h : levTable (js "a") (js "ab") = some [1, 0, 1] := by decide
  refine ⟨h, ?_, ?_⟩
  · unfold calculateLevenshteinSimilarity
    rw [h]
    have h1 : (js "a").length = 1 := by decide
    have h2 : (js "ab").length = 2 := by decide
    simp only [h1, h2]
    norm_num
  · unfold Legacy.calculateSimilarity
    have h1 : (js "a").length = 1 := by decide
    have h2 : (js "ab").length = 2 := by decide
    simp only [h1, h2]
    norm_num

/-- C23 (amended).  For all strings `a` and `b`: when
`calculateLevenshteinSimilarity` takes the early termination, the edit distance
exceeds `max(len a, len b) * 0.5` and the result is 0; when it does not, the
result is `1 - editDistance(a, b) / max(len a, len b)` (1 for two empty
strings); so that value is returned whenever it is at least 0.5, and otherwise
that value or 0; and on every pair that neither the early termination nor the
length gate of the legacy `calculateSimilarity` cuts off, the two functions
agree. -/
theorem calculateLevenshteinSimilarity_sound (a b : Str) :
    (levTable a b = none →
      ((max a.length b.length : ℕ) : ℚ) * 0.5 < editDistance a b ∧
      calculateLevenshteinSimilarity a b = 0) ∧
    (levTable a b ≠ none → calculateLevenshteinSimilarity a b = specLevenshtein a b) ∧
    (0.5 ≤ specLevenshtein a b → calculateLevenshteinSimilarity a b = specLevenshtein a b) ∧
    (calculateLevenshteinSimilarity a b = specLevenshtein a b ∨
      calculateLevenshteinSimilarity a b = 0) ∧
    (levTable a b ≠ none →
      ¬ |(a.length : ℚ) - b.length| > (min a.length b.length : ℕ) * 0.3 →
      calculateLevenshteinSimilarity a b = Legacy.calculateSimilarity a b) := by
  have hnone : levTable a b = none →
      ((max a.length b.length : ℕ) : ℚ) * 0.5 < editDistance a b ∧
      calculateLevenshteinSimilarity a b = 0 := by
    intro h
    constructor
    · obtain ⟨i, _, hi, hrow⟩ := levTable_none a b h
      have hlast := levFn_last_of_row a b (max a.length b.length / 2) i hi
        (fun j hj => by have := hrow j hj; omega)
      rw [levFn_last] at hlast
      have h2 : max a.length b.length < 2 * editDistance a b := by omega
      have h3 : ((max a.length b.length : ℕ) : ℚ) < 2 * (editDistance a b : ℚ) := by
        exact_mod_cast h2
      linarith
    · unfold calculateLevenshteinSimilarity
      rw [h]
  have hsome : levTable a b ≠ none →
      calculateLevenshteinSimilarity a b = specLevenshtein a b := by
    intro h
    cases hres : levTable a b with
    | none => exact absurd hres h
    | some res =>
      unfold calculateLevenshteinSimilarity specLevenshtein
      rw [hres]
      simp only
      rw [levTable_eq _ _ _ hres, levFn_last]
  refine ⟨hnone, hsome, ?_, ?_, ?_⟩
  · intro hhalf
    apply hsome
    intro h
    obtain ⟨hd, _⟩ := hnone h
    unfold specLevenshtein at hhalf
    split_ifs at hhalf with hz
    · rw [hz] at hd
      have : (0 : ℚ) ≤ editDistance a b := Nat.cast_nonneg _
      have hz' : editDistance a b = 0 := by
        have hl := levFn_last a b
        have ha : a.length = 0 := by omega
        have hb : b.length = 0 := by omega
        rw [ha, hb] at hl
        rw [← hl]
        rfl
      rw [hz'] at hd
      norm_num at hd
    · have hpos : (0 : ℚ) < ((max a.length b.length : ℕ) : ℚ) := by
        exact_mod_cast Nat.pos_of_ne_zero hz
      have : (editDistance a b : ℚ) / ((max a.length b.length : ℕ) : ℚ) ≤ 0.5 := by linarith
      rw [div_le_iff₀ hpos] at this
      linarith
  · cases hres : levTable a b with
    | none => exact Or.inr (hnone hres).2
    | some res => exact Or.inl (hsome (by rw [hres]; simp))
  · intro h hgate
    rw [hsome h, Legacy.calculateSimilarity_eq a b hgate]

set_option maxRecDepth 100000 in
/-- Witness for C23: the pair `"abcde"`, `"abxyz"` is cut off at the last row, its
edit distance 3 exceeds 2.5; the pair `"kitten"`, `"sitten"` is cut off by neither
the early termination nor the legacy gate. -/
theorem calculateLevenshteinSimilarity_sound_witness :
    levTable (js "abcde") (js "abxyz") = none ∧
    (((max (js "abcde").length (js "abxyz").length : ℕ) : ℚ) * 0.5 <
        editDistance (js "abcde") (js "abxyz") ∧
      calculateLevenshteinSimilarity (js "abcde") (js "abxyz") = 0) ∧
    calculateLevenshteinSimilarity (js "kitten") (js "sitten") =
      Legacy.calculateSimilarity (js "kitten") (js "sitten") :=
  ⟨by decide,
    (calculateLevenshteinSimilarity_sound (js "abcde") (js "abxyz")).1 (by decide),
    (calculateLevenshteinSimilarity_sound (js "kitten") (js "sitten")).2.2.2.2
      (by decide)
      (by
        have h1 : (js "kitten").length = 6 := by decide
        have h2 : (js "sitten").length = 6 := by decide
        simp only [h1, h2]
        norm_num)⟩

/-- C24.  For all strings `a` and `b`, the entry that `calculateLCSSimilarity`
reads from its two swapped rows is the length of a longest common subsequence
of `a` and `b` (some common subsequence has that length, none is longer), and
the result is that length divided by `max(len a, len b)`, or 1 when both
strings are empty. -/
theorem calculateLCSSimilarity_longest (a b : Str) :
    IsLongestCommonLength ((lcsTable a b).getD b.length 0) a b ∧
    calculateLCSSimilarity a b =
      (if max a.length b.length = 0 then 1
        else (((lcsTable a b).getD b.length 0 : ℕ) : ℚ) / (max a.length b.length : ℕ)) ∧
    (a = [] → b = [] → calculateLCSSimilarity a b = 1) ∧
    ∀ n, IsLongestCommonLength n a b → ¬ (a = [] ∧ b = []) →
      calculateLCSSimilarity a b = (n : ℚ) / (max a.length b.length : ℕ) := by
  have hlong := lcsTable_isLongest a b
  have hval : calculateLCSSimilarity a b =
      (if max a.length b.length = 0 then 1
        else (((lcsTable a b).getD b.length 0 : ℕ) : ℚ) / (max a.length b.length : ℕ)) := rfl
  refine ⟨hlong, hval, ?_, ?_⟩
  · intro ha hb
    rw [hval, ha, hb]
    simp
  · intro n hn hne
    have hn' : n = (lcsTable a b).getD b.length 0 := by
      obtain ⟨⟨l1, a1, b1, c1⟩, m1⟩ := hn
      obtain ⟨⟨l2, a2, b2, c2⟩, m2⟩ := hlong
      have := m1 l2 a2 b2
      have := m2 l1 a1 b1
      omega
    have hmax : max a.length b.length ≠ 0 := by
      intro h
      apply hne
      constructor
      · exact List.length_eq_zero.mp (by omega)
      · exact List.length_eq_zero.mp (by omega)
    rw [hval, if_neg hmax, hn']

/-- Witness for C24: `"ace"` is a longest common subsequence of `"abcde"` and
`"xaxcxe"`, so the score is 3/6. -/
theorem calculateLCSSimilarity_longest_witness :
    calculateLCSSimilarity (js "abcde") (js "xaxcxe") =
      ((3 : ℕ) : ℚ) / (max (js "abcde").length (js "xaxcxe").length : ℕ) := by
  have h := calculateLCSSimilarity_longest (js "abcde") (js "xaxcxe")
  have h3 : (lcsTable (js "abcde") (js "xaxcxe")).getD (js "xaxcxe").length 0 = 3 := by decide
  refine h.2.2.2 3 ?_ (by decide)
  rw [← h3]
  exact h.1

set_option maxRecDepth 100000 in
/-- C25 (counterexample).  The string of one space is not empty, and its bigram
score against the empty string is 1 in both orders: padded, both strings have
the one bigram of two spaces.  For `" a"` the score is 1/3. -/
theorem calculateNGramSimilarity_space :
    js " " ≠ [] ∧
    getNGrams (js "") 2 = [js "  "] ∧ getNGrams (js " ") 2 = [js "  "] ∧
    calculateNGramSimilarity (js "") (js " ") 2 = 1 ∧
    calculateNGramSimilarity (js " ") (js "") 2 = 1 ∧
    calculateNGramSimilarity (js "") (js " a") 2 = 1 / 3 := by
  have g0 : getNGrams (js "") 2 = [js "  "] := by decide
  have g1 : getNGrams (js " ") 2 = [js "  "] := by decide
  have g2 : getNGrams (js " a") 2 = [js "  ", js " a", js "a "] := by decide
  refine ⟨by decide, g0, g1, ?_, ?_, ?_⟩
  · unfold calculateNGramSimilarity
    simp only [g0, g1]
    have h1 : (setOf ([js "  "].filter fun x => [js "  "].contains x)).length = 1 := by decide
    have h2 : (setOf ([js "  "] ++ [js "  "])).length = 1 := by decide
    rw [h1, h2]
    norm_num
  · unfold calculateNGramSimilarity
    simp only [g0, g1]
    have h1 : (setOf ([js "  "].filter fun x => [js "  "].contains x)).length = 1 := by decide
    have h2 : (setOf ([js "  "] ++ [js "  "])).length = 1 := by decide
    rw [h1, h2]
    norm_num
  · unfold calculateNGramSimilarity
    simp only [g0, g2]
    have h1 : (setOf ([js "  "].filter fun x =>
        [js "  ", js " a", js "a "].contains x)).length = 1 := by decide
    have h2 : (setOf ([js "  "] ++ [js "  ", js " a", js "a "])).length = 3 := by decide
    rw [h1, h2]
    norm_num

/-- C25 (amended).  `calculateNGramSimilarity("", "", 2)` is 1, and for every
string `s` the score of `""` against `s`, in either order, is 0 exactly when `s`,
padded with one space on both sides, has no two adjacent spaces: that is, when
`s` is not empty, neither starts nor ends with a space and has no two adjacent
spaces. -/
theorem calculateNGramSimilarity_empty (s : Str) :
    calculateNGramSimilarity [] [] 2 = 1 ∧
    (calculateNGramSimilarity [] s 2 = 0 ↔ ¬ [32, 32] <:+: ([32] ++ s ++ [32])) ∧
    (calculateNGramSimilarity s [] 2 = 0 ↔ ¬ [32, 32] <:+: ([32] ++ s ++ [32])) ∧
    (¬ [32, 32] <:+: ([32] ++ s ++ [32]) ↔
      s ≠ [] ∧ s.head? ≠ some 32 ∧ s.getLast? ≠ some 32 ∧ ¬ [32, 32] <:+: s) := by
  refine ⟨calculateNGramSimilarity_self [] 2, calculateNGramSimilarity_nil_left s, ?_, ?_⟩
  · rw [calculateNGramSimilarity_symm]
    exact calculateNGramSimilarity_nil_left s
  · exact padded_no_double_space s

/-- Witness for C25: the score of `""` against `"a b"` is 0. -/
theorem calculateNGramSimilarity_empty_witness :
    calculateNGramSimilarity (js "") (js "a b") 2 = 0 ∧
    calculateNGramSimilarity (js "a b") (js "") 2 = 0 :=
  ⟨(calculateNGramSimilarity_empty (js "a b")).2.1.mpr (by decide),
    (calculateNGramSimilarity_empty (js "a b")).2.2.1.mpr (by decide)⟩

/-- C26.  For every input, the outputs of `normalizeCodeForComparison` and of
`normalizeCodeContent` are collapsed: every whitespace character in them is a
space, no two whitespace characters are adjacent, and they neither start nor
end with a whitespace character. -/
theorem normalizers_collapsed (code : Str) :
    Collapsed (normalizeCodeForComparison code) ∧ Collapsed (normalizeCodeContent code) := by
  constructor
  · unfold normalizeCodeForComparison
    exact collapsed_trim _ (replaceAll_spaces_singleSpaced _)
  · unfold normalizeCodeContent
    exact collapsed_trim _
      (replaceAll_number_singleSpaced _
        (replaceAll_string_singleSpaced _ (replaceAll_spaces_singleSpaced _)))

set_option maxRecDepth 100000 in
/-- C27 (the code at the failing input).  The example of the claim holds.  A
template literal that spans two lines is a quoted literal, and the light
normalizer does not replace it: its pattern for literals cannot cross a line
terminator, and the whitespace is collapsed only afterwards; the full
normalizer, which collapses the whitespace first, replaces the same literal.  A
literal in double quotes that contains an apostrophe is cut at the apostrophe,
so `"it's"` and `"its"` get different forms. -/
theorem normalizeCodeForComparison_keeps_template_literal :
    normalizeCodeForComparison (js "if (x) \x7b return foo(\"a\", 42); \x7d") =
      js "if (__ID__) \x7b return __ID__(\"__STR__\", __NUM__); \x7d" ∧
    normalizeCodeForComparison (js "x = \x60a\nb\x60;") = js "__ID__ = \x60__ID__ __ID__\x60;" ∧
    normalizeCodeContent (js "x = \x60a\nb\x60;") = js "__ID__ = \"__STR__\";" ∧
    normalizeCodeForComparison (js "x = \"it\x27s\";") = js "__ID__ = \"__STR__\"__ID__\";" ∧
    normalizeCodeForComparison (js "x = \"its\";") = js "__ID__ = \"__STR__\";" := by
  refine ⟨?_, ?_, ?_, ?_, ?_⟩ <;> decide

/-- C28.  For all strings `a` and `b` (and every match window): after the
matching pass the two arrays have the lengths of the strings and the same
number of marks; before every iteration `i` of the transposition pass the
state `(k, transpositions)` is defined, and when `str1Matches[i]` is set the
loop `while (!str2Matches[k]) k++` stops at an index `k' < len(b)` whose mark is
set; and `calculateJaroSimilarity` returns a value. -/
theorem calculateJaroSimilarity_terminates (a b : Str) (w : Nat) :
    (jaroMatchPass a b w).str1Matches.count true =
      (jaroMatchPass a b w).str2Matches.count true ∧
    (jaroMatchPass a b w).str1Matches.length = a.length ∧
    (jaroMatchPass a b w).str2Matches.length = b.length ∧
    (∀ i, i < a.length → ∃ k t,
      (List.range i).foldl
          (jaroTransStep a b (jaroMatchPass a b w).str1Matches
            (jaroMatchPass a b w).str2Matches) (some (0, 0)) = some (k, t) ∧
        ((jaroMatchPass a b w).str1Matches.getD i false = true →
          ∃ k', jaroSkip (jaroMatchPass a b w).str2Matches k = some k' ∧ k' < b.length ∧
            (jaroMatchPass a b w).str2Matches.getD k' false = true)) ∧
    ∃ v, calculateJaroSimilarity a b = some v := by
  have hinv := jaroMatchPass_inv a b w
  refine ⟨by rw [hinv.count1, hinv.count2], hinv.len1_eq, hinv.len2_eq, ?_, ?_⟩
  · intro i hi
    obtain ⟨st, hst, hti⟩ := jaroTransPass_inv a b (jaroMatchPass a b w).str1Matches
      (jaroMatchPass a b w).str2Matches (by rw [hinv.count1, hinv.count2]) i
      (by rw [hinv.len1_eq]; omega)
    refine ⟨st.1, st.2, hst, ?_⟩
    intro hmark
    have hlen : i < (jaroMatchPass a b w).str1Matches.length := by rw [hinv.len1_eq]; exact hi
    have hget : (jaroMatchPass a b w).str1Matches[i] = true := by
      rw [List.getD_eq_getElem _ _ hlen] at hmark
      exact hmark
    have hdrop : 1 ≤ ((jaroMatchPass a b w).str1Matches.drop i).count true := by
      rw [List.drop_eq_getElem_cons hlen, hget, List.count_cons_self]
      omega
    obtain ⟨k', hk', hlt, _⟩ := jaroSkip_of_count (jaroMatchPass a b w).str2Matches _ st.1 rfl
      (le_trans hdrop hti.1)
    refine ⟨k', hk', by rw [← hinv.len2_eq]; exact hlt, (jaroSkip_spec _ _ _ hk').2.2.1⟩
  · obtain ⟨v, hv, _⟩ := calculateJaroSimilarity_total a b
    exact ⟨v, hv⟩

set_option maxRecDepth 100000 in
/-- Witness for C28: iteration 3 of the transposition pass of `"martha"` against
`"marhta"` with match window 2. -/
theorem calculateJaroSimilarity_terminates_witness :
    ∃ k t,
      (List.range 3).foldl
          (jaroTransStep (js "martha") (js "marhta")
            (jaroMatchPass (js "martha") (js "marhta") 2).str1Matches
            (jaroMatchPass (js "martha") (js "marhta") 2).str2Matches) (some (0, 0)) =
        some (k, t) ∧
      ∃ k', jaroSkip (jaroMatchPass (js "martha") (js "marhta") 2).str2Matches k = some k' ∧
        k' < (js "marhta").length ∧
        (jaroMatchPass (js "martha") (js "marhta") 2).str2Matches.getD k' false = true :=
  let ⟨k, t, h1, h2⟩ :=
    (calculateJaroSimilarity_terminates (js "martha") (js "marhta") 2).2.2.2.1 3 (by decide)
  ⟨k, t, h1, h2 (by decide)⟩

/-- C29.  For all non-empty strings `a` and `b` whose lower-cased,
whitespace-collapsed, trimmed forms are equal, `calculateSimilarity(a, b)` is 1
with the default options; and each of the five metrics is exactly 1 on two
identical strings. -/
theorem calculateSimilarity_normalized_eq (lower : Str → Str) (a b : Str)
    (ha : a ≠ []) (hb : b ≠ []) (h : specNormalized lower a = specNormalized lower b) :
    calculateSimilarity lower a b = some 1 ∧
    ∀ s : Str, calculateLevenshteinSimilarity s s = 1 ∧
      calculateJaroSimilarity s s = some 1 ∧
      calculateJaroWinklerSimilarity s s = some 1 ∧
      calculateLCSSimilarity s s = 1 ∧
      calculateNGramSimilarity s s 2 = 1 := by
  refine ⟨?_, fun s => ⟨calculateLevenshteinSimilarity_self s, calculateJaroSimilarity_self s,
    calculateJaroWinklerSimilarity_self s, calculateLCSSimilarity_self s,
    calculateNGramSimilarity_self s 2⟩⟩
  by_cases hab : a = b
  · rw [hab]
    exact calculateSimilarity_same lower b {}
  · obtain ⟨jaro, jaroWinkler, hj, hjw, hs⟩ := calculateSimilarity_eq_specBlend lower a b ha hb hab
    rw [h, calculateJaroSimilarity_self] at hj
    rw [h, calculateJaroWinklerSimilarity_self] at hjw
    simp only [Option.some.injEq] at hj hjw
    rw [hs, h, ← hj, ← hjw]
    congr 1
    unfold specBlend
    by_cases h1 : (specNormalized lower b).length < 3 ∧ (specNormalized lower b).length < 3
    · rw [if_pos h1, if_pos rfl]
    · have hg : ¬ (|((specNormalized lower b).length : ℚ) - (specNormalized lower b).length| >
          (min (specNormalized lower b).length (specNormalized lower b).length : ℕ) * 0.3) := by
        simp only [sub_self, abs_zero, min_self]
        intro hgt
        have : (0 : ℚ) ≤ ((specNormalized lower b).length : ℚ) := Nat.cast_nonneg _
        linarith
      rw [if_neg h1, if_neg hg, calculateLevenshteinSimilarity_self,
        calculateLCSSimilarity_self, calculateNGramSimilarity_self]
      norm_num

set_option maxRecDepth 100000 in
/-- Witness for C29: `"Foo  Bar"` and `"foo bar"` both normalize to `"foo bar"`. -/
theorem calculateSimilarity_normalized_eq_witness :
    specNormalized asciiLower (js "Foo  Bar") = js "foo bar" ∧
    specNormalized asciiLower (js "foo bar") = js "foo bar" ∧
    calculateSimilarity asciiLower (js "Foo  Bar") (js "foo bar") = some 1 :=
  ⟨by decide, by decide,
    (calculateSimilarity_normalized_eq asciiLower (js "Foo  Bar") (js "foo bar") (by decide)
      (by decide) (by decide)).1⟩

set_option maxRecDepth 100000 in
/-- C30 (the code at the failing input).  The example of the claim holds:
`foo(); function g(){ return 1; } bar();` has the form of `return 1;`.  A
parameter list that contains `)`, as the default value `f()` does, is not
matched by the pattern of `normalizeCode`, whose parameter part is `[^)]*`: the
complete function `function g(a = f()) { return 1; }`, a text of the form of the
claim with an empty prefix and suffix, is normalized as a whole and not as its
body, although the code is commented as extracting just the body of a complete
function. -/
theorem normalizeCode_params_with_paren :
    normalizeCode (js "foo(); function g()\x7b return 1; \x7d bar();") = js "return __NUM__;" ∧
    normalizeCode (js "return 1;") = js "return __NUM__;" ∧
    normalizeCode (js "function g(a = f()) \x7b return 1; \x7d") =
      js "function __CALL__(__PARAMS__)) \x7b return __NUM__; \x7d" ∧
    normalizeCodeContent (trim (js " return 1; ")) = js "return __NUM__;" ∧
    normalizeCode (js "function g(a = f()) \x7b return 1; \x7d") ≠
      normalizeCodeContent (trim (js " return 1; ")) := by
  refine ⟨?_, ?_, ?_, ?_, ?_⟩ <;> decide

/-- Where the pattern of `normalizeCode` does match (the general case behind
C30).  For a text `pre ++ kw ++ ws1 ++ name ++ ws2 ++ "(" ++ params
++ ")" ++ ws3 ++ "{" ++ body ++ "}" ++ suffix` in which `kw` is the word
`function` in any letter case, `ws1` is non-empty whitespace, `name` is a
non-empty run of word characters, `ws2` and `ws3` are whitespace, `params` has
no `)`, `suffix` has no `}` and no function header (a text of the same shape up
to the `{`) starts before the end of `pre`, `normalizeCode` of the text is
`normalizeCodeContent (trim body)`, whatever `pre` and `suffix` are. -/
theorem normalizeCode_first_function_body (pre kw ws1 name ws2 params ws3 body suffix : Str)
    (hkw : EqIgnoreCase kw (js "function"))
    (hws1 : ws1 ≠ []) (hws1s : ∀ c, c ∈ ws1 → isSpace c = true)
    (hname : name ≠ []) (hnamew : ∀ c, c ∈ name → isWordChar c = true)
    (hws2 : ∀ c, c ∈ ws2 → isSpace c = true)
    (hparams : ∀ c, c ∈ params → c ≠ 41)
    (hws3 : ∀ c, c ∈ ws3 → isSpace c = true)
    (hsuffix : ∀ c, c ∈ suffix → c ≠ 125)
    (hfirst : ∀ p h r,
      pre ++ (kw ++ (ws1 ++ (name ++ (ws2 ++ (40 :: (params ++ (41 :: (ws3 ++
        (123 :: (body ++ 125 :: suffix)))))))))) = p ++ (h ++ r) →
      IsFunctionHeader h → pre.length ≤ p.length) :
    normalizeCode
        (pre ++ (kw ++ (ws1 ++ (name ++ (ws2 ++ (40 :: (params ++ (41 :: (ws3 ++
          (123 :: (body ++ 125 :: suffix))))))))))) =
      normalizeCodeContent (trim body) :=
  normalizeCode_of_header pre kw ws1 name ws2 params ws3 body suffix hkw hws1 hws1s hname hnamew
    hws2 hparams hws3 hsuffix hfirst

set_option maxRecDepth 100000 in
/-- The general case behind C30 at the example of the claim,
`foo(); function g(){ return 1; } bar();`, whose form is that of `return 1;`. -/
theorem normalizeCode_first_function_body_witness :
    normalizeCode (js "foo(); function g()\x7b return 1; \x7d bar();") = js "return __NUM__;" ∧
    normalizeCode (js "return 1;") = js "return __NUM__;" := by
  have h := normalizeCode_first_function_body (js "foo(); ") (js "function") (js " ") (js "g")
    [] [] [] (js " return 1; ") (js " bar();") rfl (by decide) (by decide) (by decide)
    (by decide) (by decide) (by decide) (by decide) (by decide)
    (by
      intro p h r e hh
      have hs := header_start _ p h r e hh
      by_contra hlt
      have hp : p.length < 7 := by
        have : (js "foo(); ").length = 7 := rfl
        omega
      revert hs
      generalize p.length = k at hp
      interval_cases k <;> decide)
  have e : js "foo(); " ++ (js "function" ++ (js " " ++ (js "g" ++ ([] ++ (40 :: ([] ++
      (41 :: ([] ++ (123 :: (js " return 1; " ++ 125 :: js " bar();")))))))))) =
      js "foo(); function g()\x7b return 1; \x7d bar();" := by decide
  rw [e] at h
  refine ⟨?_, by decide⟩
  rw [h]
  decide

end DupCheck
